import Mathlib

/-!
# SatNet: an AVL tree of satellite records

A shallow embedding of `src/satnet.cpp`.  A `Sat*` slot of the C++ code is a
value of `Tree`: `Tree.null` is `nullptr`, `Tree.node l s r` is a node that
owns its two children.  A function that rewrites a `Sat*&` slot in place is
a function that returns the new content of the slot.

Dereferencing `nullptr` (which only the rotation helpers and `rebalance` can
do) has no defined result in C++; the embedding returns `none` there, so
every function that may rotate is `Option`-valued.

`int` fields are `Int`.  Identifiers are only compared.  Heights take part in
`1 + h` and in `hl - hr`.  `updateHeight`, `getBalance` and the functions
built on them compute these two expressions in the integers; this is what the
code computes as long as both results lie in the range of `int`.  With cached
heights that are not negative they leave it only at a cached height of
`2^31 - 1`, a value that neither the height of a tree that fits in memory nor
a height cached for such a tree has.  The functions with the suffix `32` are
the same functions with the two expressions reduced to 32 bits; they are used
where a statement ranges over arbitrary cached heights.

The functions with the suffix `H` are the same functions on a free store with
addresses, where a `Sat*` is an address and not the tree it leads to; they are
used for the statements about the identity of nodes (deep copy).  A function
that recurses along pointers takes a bound on the depth of the recursion as a
first argument.
-/

namespace SatNet

/-- Modelled from the spec: the header `satnet.h` declaring the enumeration
`ALT` is not among the sources; the spec calls it an enumerated categorical
payload, the tests name `MI208` and cast `0..3` to it. -/
inductive ALT where
  | MI208 | MI215 | MI340 | MI350
  deriving DecidableEq, Repr

/-- Modelled from the spec: the header `satnet.h` declaring the enumeration
`INCLIN` is not among the sources; the spec calls it an enumerated
categorical payload, the tests name `I48`, `I53` and cast `0..3` to it. -/
inductive INCLIN where
  | I48 | I53 | I70 | I97
  deriving DecidableEq, Repr

/-- Modelled from the spec: the header `satnet.h` declaring the enumeration
`STATE` is not among the sources; the spec asks for at least the values
`ACTIVE` and `DEORBITED`. -/
inductive STATE where
  | ACTIVE | DEORBITED | DECAYING
  deriving DecidableEq, Repr

/-- Modelled from the spec: the class `Sat` is declared in the missing header
`satnet.h`; these are the data members the sources read and write
(`m_id`, `m_altitude`, `m_inclin`, `m_state` through the accessors, and
`m_height`).  The two child links are the arguments of `Tree.node`. -/
structure Sat where
  m_id : Int
  m_altitude : ALT
  m_inclin : INCLIN
  m_state : STATE
  m_height : Int
  deriving DecidableEq, Repr

/-- The content of a `Sat*` slot: `null` is `nullptr`, `node m_left s m_right`
is a node with its record and the two subtrees it owns. -/
inductive Tree where
  | null : Tree
  | node (m_left : Tree) (sat : Sat) (m_right : Tree) : Tree
  deriving DecidableEq, Repr

open Tree

/-- The expression `leftHeight` / `rightHeight` of `updateHeight`,
`getBalance` and the tests: `-1` for an absent child, else the cached
`m_height` of the child. -/
def childHeight : Tree → Int
  | null => -1
  | node _ s _ => s.m_height

/-- Embeds `SatNet::updateHeight`: no-op on `nullptr`; else `m_height` becomes `1`
plus the greater of the two cached child heights.  The sum is an integer sum:
it is the `int` sum of the code when the greater child height is below
`2^31 - 1` (see `updateHeight32` for the sum in 32 bits). -/
def updateHeight : Tree → Tree
  | null => null
  | node l s r =>
    let leftHeight := childHeight l
    let rightHeight := childHeight r
    if leftHeight > rightHeight then
      node l { s with m_height := 1 + leftHeight } r
    else
      node l { s with m_height := 1 + rightHeight } r

/-- Embeds `SatNet::getBalance`: `0` for `nullptr`, else cached left height minus
cached right height.  The difference is an integer difference: it is the `int`
difference of the code when it lies in `[-2^31, 2^31 - 1]` (see `getBalance32`
for the difference in 32 bits). -/
def getBalance : Tree → Int
  | null => 0
  | node l _ r => childHeight l - childHeight r

/-- Embeds `SatNet::rightRotate`: the left child becomes the root of the
subtree, its former right child the left child of the old root, the old root
the right child of the new one; then the height of the old root and that of
the new root are updated.  The result is `none` when `node` or `node->m_left` is
`nullptr` (the C++ code dereferences it). -/
def rightRotate : Tree → Option Tree
  | node (node ll ls lr) s r =>
    some (updateHeight (node ll ls (updateHeight (node lr s r))))
  | _ => none

/-- Embeds `SatNet::leftRotate`, the mirror image of `rightRotate`.  The
result is `none` when `node` or `node->m_right` is
`nullptr` (the C++ code dereferences it). -/
def leftRotate : Tree → Option Tree
  | node l s (node rl rs rr) =>
    some (updateHeight (node (updateHeight (node l s rl)) rs rr))
  | _ => none

/-- Embeds `SatNet::rebalance`.  The match on `null` stands for the
evaluation of `node->m_left` / `node->m_right` on `nullptr`; it is never
reached, the balance of `nullptr` being `0`. -/
def rebalance (t : Tree) : Option Tree :=
  let balance := getBalance t
  if balance > 1 then
    match t with
    | null => none
    | node l s r =>
      if getBalance l ≥ 0 then
        rightRotate (node l s r)
      else
        (leftRotate l).bind fun l' => rightRotate (node l' s r)
  else if balance < -1 then
    match t with
    | null => none
    | node l s r =>
      if getBalance r ≤ 0 then
        leftRotate (node l s r)
      else
        (rightRotate r).bind fun r' => leftRotate (node l s r')
  else
    some t

/-- The recursive `SatNet::insert(const Sat&, Sat*&)`.  The new node takes
the identifier, altitude, inclination and state of the argument, height `0`
and (from the constructor of the missing header) two absent children; an equal identifier returns at once, without the height update and
rebalance of that node. -/
def insertAux (satellite : Sat) : Tree → Option Tree
  | null =>
    some (node null
      { m_id := satellite.m_id, m_altitude := satellite.m_altitude,
        m_inclin := satellite.m_inclin, m_state := satellite.m_state,
        m_height := 0 } null)
  | node l s r =>
    if satellite.m_id < s.m_id then
      (insertAux satellite l).bind fun l' => rebalance (updateHeight (node l' s r))
    else if satellite.m_id > s.m_id then
      (insertAux satellite r).bind fun r' => rebalance (updateHeight (node l s r'))
    else
      some (node l s r)

/-- The public `SatNet::insert(const Sat&)`; `MINID` and `MAXID` are constants
of the missing header and are parameters here. -/
def insert (MINID MAXID : Int) (satellite : Sat) (m_root : Tree) : Option Tree :=
  if satellite.m_id ≥ MINID ∧ satellite.m_id ≤ MAXID then
    insertAux satellite m_root
  else
    some m_root

/-- The successor loop of `remove`: starting at a node with record `s` and
left child `l`, follow `m_left` while it is not `nullptr`; the result is the
record of the node reached. -/
def successor (s : Sat) : Tree → Sat
  | null => s
  | node ll ls _ => successor ls ll

/-- The recursive `SatNet::remove(int, Sat*&)`.  Every branch that does not
return at `nullptr` ends with `updateHeight(node); rebalance(node)` on the
new content of the slot. -/
def removeAux (id : Int) : Tree → Option Tree
  | null => some null
  | node l s r =>
    if id < s.m_id then
      (removeAux id l).bind fun l' => rebalance (updateHeight (node l' s r))
    else if id > s.m_id then
      (removeAux id r).bind fun r' => rebalance (updateHeight (node l s r'))
    else
      match l, r with
      | null, null => rebalance (updateHeight null)
      | node ll ls lr, null => rebalance (updateHeight (node ll ls lr))
      | null, node rl rs rr => rebalance (updateHeight (node rl rs rr))
      | node ll ls lr, node rl rs rr =>
        let succ := successor rs rl
        let s' : Sat :=
          { s with m_id := succ.m_id, m_altitude := succ.m_altitude,
                   m_inclin := succ.m_inclin, m_state := succ.m_state }
        (removeAux succ.m_id (node rl rs rr)).bind fun r' =>
          rebalance (updateHeight (node (node ll ls lr) s' r'))

/-- The public `SatNet::remove(int)`. -/
def remove (id : Int) (m_root : Tree) : Option Tree :=
  removeAux id m_root

/-- Embeds `SatNet::dump` (and `Tester::out`): the text written for a
subtree. -/
def dump : Tree → String
  | null => ""
  | node l s r =>
    "(" ++ dump l ++ toString s.m_id ++ ":" ++ toString s.m_height ++ dump r ++ ")"

/-- The recursive `SatNet::clear(Sat*&)`: both subtrees are cleared, the
node is deleted and the slot becomes `nullptr`. -/
def clearAux : Tree → Tree
  | null => null
  | node l _ r =>
    match clearAux l, clearAux r with
    | _, _ => null

/-- The public `SatNet::clear()`: the recursive helper, then
`m_root = nullptr`. -/
def clear (m_root : Tree) : Tree :=
  match clearAux m_root with
  | _ => null

/-- The recursive `SatNet::setState(int, STATE, Sat*&)`: the boolean result
and the new content of the slot. -/
def setStateAux (id : Int) (state : STATE) : Tree → Bool × Tree
  | null => (false, null)
  | node l s r =>
    if id < s.m_id then
      ((setStateAux id state l).1, node (setStateAux id state l).2 s r)
    else if id > s.m_id then
      ((setStateAux id state r).1, node l s (setStateAux id state r).2)
    else
      (true, node l { s with m_state := state } r)

/-- The public `SatNet::setState(int, STATE)`. -/
def setState (id : Int) (state : STATE) (m_root : Tree) : Bool × Tree :=
  setStateAux id state m_root

/-- The recursive `SatNet::removeDeorbited(Sat*&)`: left subtree, right
subtree, then `remove(node->getID(), node)` on this slot when the node is
`DEORBITED`. -/
def removeDeorbitedAux : Tree → Option Tree
  | null => some null
  | node l s r =>
    (removeDeorbitedAux l).bind fun l' =>
      (removeDeorbitedAux r).bind fun r' =>
        if s.m_state = STATE.DEORBITED then
          removeAux s.m_id (node l' s r')
        else
          some (node l' s r')

/-- The public `SatNet::removeDeorbited()`. -/
def removeDeorbited (m_root : Tree) : Option Tree :=
  removeDeorbitedAux m_root

/-- Embeds `SatNet::findSatellite(const Sat*, int)`, called by the public
function on `m_root`. -/
def findSatellite (id : Int) : Tree → Bool
  | null => false
  | node l s r =>
    if s.m_id = id then true
    else if id < s.m_id then findSatellite id l
    else findSatellite id r

/-- Embeds `SatNet::copy`: a new node with the same identifier, altitude,
inclination, state and cached height over copies of the two subtrees. -/
def copy : Tree → Tree
  | null => null
  | node l s r =>
    node (copy l)
      { m_id := s.m_id, m_altitude := s.m_altitude, m_inclin := s.m_inclin,
        m_state := s.m_state, m_height := s.m_height }
      (copy r)

/-- Embeds `SatNet::countSatellites(Sat*, INCLIN)`, called by the public
function on `m_root`. -/
def countSatellites (degree : INCLIN) : Tree → Int
  | null => 0
  | node l s r =>
    (if s.m_inclin = degree then 1 else 0) + countSatellites degree l
      + countSatellites degree r

/-- Embeds `SatNet::operator=`.  The flag `self` is the outcome of the test
`this == &rhs`: on self-assignment the tree is returned as it is; otherwise
the nodes of the destination are cleared and the root becomes the copy of the
root of `rhs`. -/
def assign (self : Bool) (m_root rhs : Tree) : Tree :=
  if self then m_root
  else
    match clearAux m_root with
    | _ => copy rhs

/-- The loop of the tests that inserts a sequence of records one after the
other. -/
def insertAll (MINID MAXID : Int) (sats : List Sat) (m_root : Tree) : Option Tree :=
  sats.foldl (fun acc satellite => acc.bind (insert MINID MAXID satellite)) (some m_root)

/-! ## The height arithmetic in 32 bits -/

/-- Modelled from the spec: the class `Sat` is declared in the missing header
`satnet.h`.  A `Sat` object in the free store: its record (with the cached
height) and the two child pointers `m_left`, `m_right` that the sources read
and write; a pointer is `none` (`nullptr`) or the address of an object. -/
structure Cell where
  sat : Sat
  m_left : Option Nat
  m_right : Option Nat
  deriving DecidableEq, Repr

/-- The free store: the objects allocated so far, indexed by their address;
`none` is a deleted object.  `new` appends an object, so it returns an address
that no pointer held before. -/
abbrev Heap := List (Option Cell)

/-- The object a pointer to the address `a` leads to; `none` when nothing was
allocated there or the object was deleted (the C++ code has no defined result
when it dereferences such a pointer). -/
def load (h : Heap) (a : Nat) : Option Cell :=
  h.getD a none

/-- The expression `leftHeight` / `rightHeight` read through a child
pointer. -/
def childHeightH (h : Heap) : Option Nat → Option Int
  | none => some (-1)
  | some a => (load h a).map fun c => c.sat.m_height

/-- Embeds `SatNet::updateHeight` on the free store: the only write is to
`node->m_height`. -/
def updateHeightH (h : Heap) : Option Nat → Option Heap
  | none => some h
  | some a =>
    (load h a).bind fun c =>
      (childHeightH h c.m_left).bind fun leftHeight =>
        (childHeightH h c.m_right).bind fun rightHeight =>
          if leftHeight > rightHeight then
            some (h.set a (some { c with sat := { c.sat with m_height := 1 + leftHeight } }))
          else
            some (h.set a (some { c with sat := { c.sat with m_height := 1 + rightHeight } }))

/-- Embeds `SatNet::getBalance` on the free store. -/
def getBalanceH (h : Heap) : Option Nat → Option Int
  | none => some 0
  | some a =>
    (load h a).bind fun c =>
      (childHeightH h c.m_left).bind fun leftHeight =>
        (childHeightH h c.m_right).bind fun rightHeight =>
          some (leftHeight - rightHeight)

/-- Embeds `SatNet::rightRotate` on the free store.  The argument is the content
of the slot `node`, the result the new store and the new content of the slot
(`node = newRoot`). -/
def rightRotateH (h : Heap) : Option Nat → Option (Heap × Option Nat)
  | none => none
  | some a =>
    (load h a).bind fun c =>
      match c.m_left with
      | none => none
      | some b =>
        (load h b).bind fun d =>
          let h1 := h.set a (some { c with m_left := d.m_right })
          (load h1 b).bind fun d1 =>
            let h2 := h1.set b (some { d1 with m_right := some a })
            (load h2 b).bind fun d2 =>
              (updateHeightH h2 d2.m_right).bind fun h3 =>
                (updateHeightH h3 (some b)).bind fun h4 => some (h4, some b)

/-- Embeds `SatNet::leftRotate` on the free store, the mirror image of
`rightRotateH`. -/
def leftRotateH (h : Heap) : Option Nat → Option (Heap × Option Nat)
  | none => none
  | some a =>
    (load h a).bind fun c =>
      match c.m_right with
      | none => none
      | some b =>
        (load h b).bind fun d =>
          let h1 := h.set a (some { c with m_right := d.m_left })
          (load h1 b).bind fun d1 =>
            let h2 := h1.set b (some { d1 with m_left := some a })
            (load h2 b).bind fun d2 =>
              (updateHeightH h2 d2.m_left).bind fun h3 =>
                (updateHeightH h3 (some b)).bind fun h4 => some (h4, some b)

/-- Embeds `SatNet::rebalance` on the free store.  An inner rotation works on
the slot `node->m_left` (or `node->m_right`): its new content is stored in that
member of the node. -/
def rebalanceH (h : Heap) (node : Option Nat) : Option (Heap × Option Nat) :=
  (getBalanceH h node).bind fun balance =>
    if balance > 1 then
      match node with
      | none => none
      | some a =>
        (load h a).bind fun c =>
          (getBalanceH h c.m_left).bind fun bl =>
            if bl ≥ 0 then rightRotateH h (some a)
            else
              (leftRotateH h c.m_left).bind fun x =>
                (load x.1 a).bind fun c1 =>
                  rightRotateH (x.1.set a (some { c1 with m_left := x.2 })) (some a)
    else if balance < -1 then
      match node with
      | none => none
      | some a =>
        (load h a).bind fun c =>
          (getBalanceH h c.m_right).bind fun br =>
            if br ≤ 0 then leftRotateH h (some a)
            else
              (rightRotateH h c.m_right).bind fun x =>
                (load x.1 a).bind fun c1 =>
                  leftRotateH (x.1.set a (some { c1 with m_right := x.2 })) (some a)
    else some (h, node)

/-- The recursive `SatNet::insert(const Sat&, Sat*&)` on the free store.  The
first argument bounds the depth of the recursion; the result is the new store
and the new content of the slot.  `new Sat(...)` appends an object without
children. -/
def insertH (satellite : Sat) : Nat → Heap → Option Nat → Option (Heap × Option Nat)
  | 0, _, _ => none
  | _ + 1, h, none =>
    some (h ++ [some { sat := { m_id := satellite.m_id, m_altitude := satellite.m_altitude,
                                m_inclin := satellite.m_inclin, m_state := satellite.m_state,
                                m_height := 0 },
                       m_left := none, m_right := none }], some h.length)
  | fuel + 1, h, some a =>
    (load h a).bind fun c =>
      if satellite.m_id < c.sat.m_id then
        (insertH satellite fuel h c.m_left).bind fun x =>
          (load x.1 a).bind fun c1 =>
            (updateHeightH (x.1.set a (some { c1 with m_left := x.2 })) (some a)).bind fun h3 =>
              rebalanceH h3 (some a)
      else if satellite.m_id > c.sat.m_id then
        (insertH satellite fuel h c.m_right).bind fun x =>
          (load x.1 a).bind fun c1 =>
            (updateHeightH (x.1.set a (some { c1 with m_right := x.2 })) (some a)).bind fun h3 =>
              rebalanceH h3 (some a)
      else some (h, some a)

/-- The successor loop of `remove` on the free store: follow `m_left` from the
address `a` while it is not `nullptr`. -/
def successorH : Nat → Heap → Nat → Option Nat
  | 0, _, _ => none
  | fuel + 1, h, a =>
    (load h a).bind fun c =>
      match c.m_left with
      | none => some a
      | some b => successorH fuel h b

/-- The recursive `SatNet::remove(int, Sat*&)` on the free store; `delete node`
marks the object as deleted. -/
def removeH (id : Int) : Nat → Heap → Option Nat → Option (Heap × Option Nat)
  | 0, _, _ => none
  | _ + 1, h, none => some (h, none)
  | fuel + 1, h, some a =>
    (load h a).bind fun c =>
      if id < c.sat.m_id then
        (removeH id fuel h c.m_left).bind fun x =>
          (load x.1 a).bind fun c1 =>
            (updateHeightH (x.1.set a (some { c1 with m_left := x.2 })) (some a)).bind fun h3 =>
              rebalanceH h3 (some a)
      else if id > c.sat.m_id then
        (removeH id fuel h c.m_right).bind fun x =>
          (load x.1 a).bind fun c1 =>
            (updateHeightH (x.1.set a (some { c1 with m_right := x.2 })) (some a)).bind fun h3 =>
              rebalanceH h3 (some a)
      else
        match c.m_left, c.m_right with
        | none, none =>
          (updateHeightH (h.set a none) none).bind fun h2 => rebalanceH h2 none
        | some b, none =>
          (updateHeightH (h.set a none) (some b)).bind fun h2 => rebalanceH h2 (some b)
        | none, some b =>
          (updateHeightH (h.set a none) (some b)).bind fun h2 => rebalanceH h2 (some b)
        | some _, some b =>
          (successorH fuel h b).bind fun sa =>
            (load h sa).bind fun sc =>
              let h1 := h.set a (some { c with sat :=
                { c.sat with m_id := sc.sat.m_id, m_altitude := sc.sat.m_altitude,
                             m_inclin := sc.sat.m_inclin, m_state := sc.sat.m_state } })
              (load h1 sa).bind fun sc1 =>
                (load h1 a).bind fun c1 =>
                  (removeH sc1.sat.m_id fuel h1 c1.m_right).bind fun x =>
                    (load x.1 a).bind fun c2 =>
                      (updateHeightH (x.1.set a (some { c2 with m_right := x.2 }))
                          (some a)).bind fun h3 =>
                        rebalanceH h3 (some a)

/-- The recursive `SatNet::setState(int, STATE, Sat*&)` on the free store: the
boolean result and the new store; no slot is assigned. -/
def setStateH (id : Int) (state : STATE) : Nat → Heap → Option Nat → Option (Bool × Heap)
  | 0, _, _ => none
  | _ + 1, h, none => some (false, h)
  | fuel + 1, h, some a =>
    (load h a).bind fun c =>
      if id < c.sat.m_id then setStateH id state fuel h c.m_left
      else if id > c.sat.m_id then setStateH id state fuel h c.m_right
      else some (true, h.set a (some { c with sat := { c.sat with m_state := state } }))

/-- The recursive `SatNet::clear(Sat*&)` on the free store: both subtrees are
cleared (each call ends with `node = nullptr` on the member it was given),
then the node is deleted.  The slot of the caller becomes `nullptr`. -/
def clearH : Nat → Heap → Option Nat → Option Heap
  | 0, _, _ => none
  | _ + 1, h, none => some h
  | fuel + 1, h, some a =>
    (load h a).bind fun c =>
      (clearH fuel h c.m_left).bind fun h1 =>
        (load h1 a).bind fun c1 =>
          let h2 := h1.set a (some { c1 with m_left := none })
          (clearH fuel h2 c1.m_right).bind fun h3 =>
            (load h3 a).bind fun c3 =>
              some ((h3.set a (some { c3 with m_right := none })).set a none)

/-- The object that `copy` creates for a source node: `new Sat(...)` with the
identifier, altitude, inclination and state of the source and (from the
constructor of the missing header) no children, then
`newNode->m_height = node->m_height`. -/
def newNode (c : Cell) : Cell :=
  { sat := { m_id := c.sat.m_id, m_altitude := c.sat.m_altitude,
             m_inclin := c.sat.m_inclin, m_state := c.sat.m_state,
             m_height := c.sat.m_height },
    m_left := none, m_right := none }

/-- Embeds `SatNet::copy` on the free store: the new object is appended to the
store, then the pointers that the two recursive calls return are stored in its
members `m_left` and `m_right`.  The result is the new store and the pointer
returned. -/
def copyH : Nat → Heap → Option Nat → Option (Heap × Option Nat)
  | 0, _, _ => none
  | _ + 1, h, none => some (h, none)
  | fuel + 1, h, some a =>
    (load h a).bind fun c =>
      (load (h ++ [some (newNode c)]) a).bind fun c1 =>
        (copyH fuel (h ++ [some (newNode c)]) c1.m_left).bind fun x =>
          (load x.1 h.length).bind fun n1 =>
            (load (x.1.set h.length (some { n1 with m_left := x.2 })) a).bind fun c3 =>
              (copyH fuel (x.1.set h.length (some { n1 with m_left := x.2 }))
                  c3.m_right).bind fun y =>
                (load y.1 h.length).bind fun n2 =>
                  some (y.1.set h.length (some { n2 with m_right := y.2 }), some h.length)

/-- Embeds `SatNet::operator=` on the free store.  The flag `self` is the outcome
of `this == &rhs`; otherwise the nodes of the destination are deleted and
`m_root` becomes the pointer that `copy(rhs.m_root)` returns.  The result is
the new store and the new `m_root` of the destination. -/
def assignH (self : Bool) (fuel : Nat) (h : Heap) (m_root rhs : Option Nat) :
    Option (Heap × Option Nat) :=
  if self then some (h, m_root)
  else (clearH fuel h m_root).bind fun h1 => copyH fuel h1 rhs

/-! ## Specification vocabulary -/

/-- What a node stores apart from its cached height: identifier, altitude,
inclination and state. -/
abbrev Record := Int × ALT × INCLIN × STATE

/-- The record of a node without its cached height. -/
def payload (s : Sat) : Record :=
  (s.m_id, s.m_altitude, s.m_inclin, s.m_state)

/-- In-order sequence of the records of a tree. -/
def records : Tree → List Record
  | null => []
  | node l s r => records l ++ payload s :: records r

/-- In-order sequence of the identifiers of a tree. -/
def ids (t : Tree) : List Int :=
  (records t).map Prod.fst

/-- Number of nodes. -/
def size : Tree → Nat
  | null => 0
  | node l _ r => size l + 1 + size r

/-- BST property: the in-order traversal yields strictly increasing
identifiers. -/
def BST (t : Tree) : Prop :=
  (ids t).Sorted (· < ·)

/-- The recursively defined height: `-1` for an absent node, `0` for a
leaf, `1 + max` of the children otherwise. -/
def height : Tree → Int
  | null => -1
  | node l _ r => 1 + max (height l) (height r)

/-- Every cached height is at least `0`. -/
def HeightsNonneg : Tree → Prop
  | null => True
  | node l s r => 0 ≤ s.m_height ∧ HeightsNonneg l ∧ HeightsNonneg r

/-- Height correctness: at every node the cached height equals the
recursively defined height. -/
def HeightOK : Tree → Prop
  | null => True
  | node l s r =>
    s.m_height = 1 + max (height l) (height r) ∧ HeightOK l ∧ HeightOK r

/-- AVL balance: at every node the heights of the two subtrees differ by at
most one. -/
def Balanced : Tree → Prop
  | null => True
  | node l _ r =>
    (-1 ≤ height l - height r ∧ height l - height r ≤ 1) ∧ Balanced l ∧ Balanced r

/-- AVL balance as `Tester::balanceChecker` reads it: at every node the
cached heights of the two children (`-1` when absent) differ by at most
one. -/
def CachedBalanced : Tree → Prop
  | null => True
  | node l _ r =>
    (-1 ≤ childHeight l - childHeight r ∧ childHeight l - childHeight r ≤ 1)
      ∧ CachedBalanced l ∧ CachedBalanced r

/-- BST property read node by node: at every node all identifiers of the
left subtree are smaller and all identifiers of the right subtree are
greater. -/
def Ordered : Tree → Prop
  | null => True
  | node l s r =>
    (∀ i ∈ ids l, i < s.m_id) ∧ (∀ i ∈ ids r, s.m_id < i) ∧ Ordered l ∧ Ordered r

/-- A well-formed tree: BST-ordered, cached heights correct, balanced. -/
def WellFormed (t : Tree) : Prop :=
  BST t ∧ HeightOK t ∧ Balanced t

instance decHeightsNonneg : (t : Tree) → Decidable (HeightsNonneg t)
  | null => isTrue trivial
  | node l s r =>
    have := decHeightsNonneg l
    have := decHeightsNonneg r
    (inferInstance : Decidable (0 ≤ s.m_height ∧ HeightsNonneg l ∧ HeightsNonneg r))

instance decHeightOK : (t : Tree) → Decidable (HeightOK t)
  | null => isTrue trivial
  | node l s r =>
    have := decHeightOK l
    have := decHeightOK r
    (inferInstance :
      Decidable (s.m_height = 1 + max (height l) (height r) ∧ HeightOK l ∧ HeightOK r))

instance decBalanced : (t : Tree) → Decidable (Balanced t)
  | null => isTrue trivial
  | node l _ r =>
    have := decBalanced l
    have := decBalanced r
    (inferInstance :
      Decidable ((-1 ≤ height l - height r ∧ height l - height r ≤ 1)
        ∧ Balanced l ∧ Balanced r))

instance decCachedBalanced : (t : Tree) → Decidable (CachedBalanced t)
  | null => isTrue trivial
  | node l _ r =>
    have := decCachedBalanced l
    have := decCachedBalanced r
    (inferInstance :
      Decidable ((-1 ≤ childHeight l - childHeight r ∧ childHeight l - childHeight r ≤ 1)
        ∧ CachedBalanced l ∧ CachedBalanced r))

instance decBST (t : Tree) : Decidable (BST t) :=
  (inferInstance : Decidable ((ids t).Sorted (· < ·)))

instance decWellFormed (t : Tree) : Decidable (WellFormed t) :=
  (inferInstance : Decidable (BST t ∧ HeightOK t ∧ Balanced t))

/-- Sorted insertion into a list of records ordered by identifier; a record
whose identifier is already in the list is dropped. -/
def insertRecord (x : Record) : List Record → List Record
  | [] => [x]
  | y :: ys =>
    if x.1 < y.1 then x :: y :: ys
    else if x.1 > y.1 then y :: insertRecord x ys
    else y :: ys

/-- Deletion of the records carrying an identifier from a list of records. -/
def deleteRecord (id : Int) (xs : List Record) : List Record :=
  xs.filter fun y => decide (y.1 ≠ id)

/-- No node has the state `DEORBITED` (what `Tester::removeDeorbitedChecker`
checks). -/
def NoDeorbited (t : Tree) : Prop :=
  ∀ p ∈ records t, p.2.2.2 ≠ STATE.DEORBITED

/-- The in-order sequence of records without the records whose state is
`DEORBITED`. -/
def keepOrbiting (xs : List Record) : List Record :=
  xs.filter fun p => decide (p.2.2.2 ≠ STATE.DEORBITED)

/-- The five invariants of the data model: BST order, uniqueness of the
identifiers, identifiers in `[MINID, MAXID]`, AVL balance, correct cached
heights. -/
def FiveInvariants (MINID MAXID : Int) (t : Tree) : Prop :=
  BST t ∧ (ids t).Nodup ∧ (∀ i ∈ ids t, MINID ≤ i ∧ i ≤ MAXID) ∧ Balanced t ∧ HeightOK t

instance decNoDeorbited (t : Tree) : Decidable (NoDeorbited t) :=
  (inferInstance : Decidable (∀ p ∈ records t, p.2.2.2 ≠ STATE.DEORBITED))

instance decFiveInvariants (MINID MAXID : Int) (t : Tree) :
    Decidable (FiveInvariants MINID MAXID t) :=
  (inferInstance : Decidable (BST t ∧ (ids t).Nodup
    ∧ (∀ i ∈ ids t, MINID ≤ i ∧ i ≤ MAXID) ∧ Balanced t ∧ HeightOK t))

/-- In-order sequence of the inclinations of a tree. -/
def inclinations (t : Tree) : List INCLIN :=
  (records t).map fun p => p.2.2.1

/-- The tree in which every node carrying the identifier `id` has the state
`state`, nothing else being changed: same shape and, at every position, the
same identifier, altitude, inclination and cached height. -/
def withState (id : Int) (state : STATE) : Tree → Tree
  | null => null
  | node l s r =>
    node (withState id state l)
      (if s.m_id = id then { s with m_state := state } else s)
      (withState id state r)

/-- The trees a `SatNet` object can hold: the empty tree of the constructor
and every tree that a public mutating operation (`insert`, `remove`,
`removeDeorbited`, `setState`, `clear`, assignment) returns on trees that
objects can hold. -/
inductive Reachable (MINID MAXID : Int) : Tree → Prop where
  | empty : Reachable MINID MAXID null
  | byInsert {t t' : Tree} (satellite : Sat) :
      Reachable MINID MAXID t → insert MINID MAXID satellite t = some t' →
      Reachable MINID MAXID t'
  | byRemove {t t' : Tree} (id : Int) :
      Reachable MINID MAXID t → remove id t = some t' → Reachable MINID MAXID t'
  | byRemoveDeorbited {t t' : Tree} :
      Reachable MINID MAXID t → removeDeorbited t = some t' → Reachable MINID MAXID t'
  | bySetState {t : Tree} (id : Int) (state : STATE) :
      Reachable MINID MAXID t → Reachable MINID MAXID (setState id state t).2
  | byClear {t : Tree} : Reachable MINID MAXID t → Reachable MINID MAXID (clear t)
  | byAssign {dst src : Tree} (self : Bool) :
      Reachable MINID MAXID dst → Reachable MINID MAXID src →
      Reachable MINID MAXID (assign self dst src)

/-- What the dump shows of a tree: its shape and, at every position, the
identifier and the cached height; altitude, inclination and state are set to
fixed values. -/
def dumpView : Tree → Tree
  | null => null
  | node l s r =>
    node (dumpView l)
      { m_id := s.m_id, m_altitude := ALT.MI208, m_inclin := INCLIN.I48,
        m_state := STATE.ACTIVE, m_height := s.m_height }
      (dumpView r)

/-- In-order sequence of the pairs (identifier, cached height) of a tree. -/
def labels : Tree → List (Int × Int)
  | null => []
  | node l s r => labels l ++ (s.m_id, s.m_height) :: labels r

/-- The number a list of decimal digit characters stands for. -/
def digitsValue (cs : List Char) : Nat :=
  cs.foldl (fun acc c => 10 * acc + (c.toNat - 48)) 0

/-- The content of the slot at which the descent of `remove` (and of
`setState`) for `id` ends: left when `id` is smaller than the identifier of
the node, right when it is greater, the node itself otherwise; `null` when the
descent runs off the tree. -/
def searchNode (id : Int) : Tree → Tree
  | null => null
  | node l s r =>
    if id < s.m_id then searchNode id l
    else if id > s.m_id then searchNode id r
    else node l s r

/-- The trees built from the empty tree by `insert` and `remove` alone. -/
inductive BuiltByInsertRemove (MINID MAXID : Int) : Tree → Prop where
  | empty : BuiltByInsertRemove MINID MAXID null
  | byInsert {t t' : Tree} (satellite : Sat) :
      BuiltByInsertRemove MINID MAXID t → insert MINID MAXID satellite t = some t' →
      BuiltByInsertRemove MINID MAXID t'
  | byRemove {t t' : Tree} (id : Int) :
      BuiltByInsertRemove MINID MAXID t → remove id t = some t' →
      BuiltByInsertRemove MINID MAXID t'

/-- The pointer `p` leads in the store `h` to objects that form the tree `t`:
same shape and, at every position, the same record and cached height. -/
def Holds (h : Heap) : Option Nat → Tree → Prop
  | none, null => True
  | some a, node l s r =>
    match load h a with
    | some c => c.sat = s ∧ Holds h c.m_left l ∧ Holds h c.m_right r
    | none => False
  | none, node _ _ _ => False
  | some _, null => False

/-- The addresses of the objects that form the tree `t` at the pointer `p`. -/
def addrs (h : Heap) : Option Nat → Tree → List Nat
  | some a, node l _ r =>
    match load h a with
    | some c => a :: (addrs h c.m_left l ++ addrs h c.m_right r)
    | none => [a]
  | _, _ => []

/-- The pointer `p` does not lead to an object of `B`. -/
def PtrOut (B : List Nat) : Option Nat → Prop
  | none => True
  | some a => a ∉ B

/-- Neither child pointer of the object leads to an object of `B`. -/
def CellOut (B : List Nat) : Option Cell → Prop
  | none => True
  | some c => PtrOut B c.m_left ∧ PtrOut B c.m_right

/-- The objects of `B` are owned by their tree alone: they are allocated, and
no object outside `B` points to one of them. -/
def Sep (B : List Nat) (h : Heap) : Prop :=
  (∀ a ∈ B, a < h.length) ∧ ∀ a, a < h.length → a ∉ B → CellOut B (load h a)

instance decHolds (h : Heap) : (p : Option Nat) → (t : Tree) → Decidable (Holds h p t)
  | none, null => isTrue trivial
  | some a, node l s r => by
    unfold Holds
    cases load h a with
    | none => exact isFalse (fun x => x)
    | some c =>
      have := decHolds h c.m_left l
      have := decHolds h c.m_right r
      exact (inferInstance : Decidable (c.sat = s ∧ Holds h c.m_left l ∧ Holds h c.m_right r))
  | none, node _ _ _ => isFalse (fun x => x)
  | some _, null => isFalse (fun x => x)

instance decPtrOut (B : List Nat) : (p : Option Nat) → Decidable (PtrOut B p)
  | none => isTrue trivial
  | some a => (inferInstance : Decidable (a ∉ B))

instance decCellOut (B : List Nat) : (c : Option Cell) → Decidable (CellOut B c)
  | none => isTrue trivial
  | some c => (inferInstance : Decidable (PtrOut B c.m_left ∧ PtrOut B c.m_right))

instance decSep (B : List Nat) (h : Heap) : Decidable (Sep B h) := by
  unfold Sep
  infer_instance

/-- The store `h'` still has every object of `B` as it is in `h`, and no
address of `h` was given up. -/
def Keeps (B : List Nat) (h h' : Heap) : Prop :=
  h.length ≤ h'.length ∧ ∀ a ∈ B, load h' a = load h a

/-- The store `h'` with the pointer `p'` to the tree `t'` comes from the store
`h` with the pointer `p` to the tree `t` by an operation on that tree alone:
`t'` is made of distinct objects, each of them an object of `t` or a newly
allocated one, and every other object is as it was. -/
def Refines (h : Heap) (p : Option Nat) (t : Tree) (h' : Heap) (p' : Option Nat)
    (t' : Tree) : Prop :=
  Holds h' p' t' ∧ (addrs h' p' t').Nodup
    ∧ (∀ x ∈ addrs h' p' t', x ∈ addrs h p t ∨ h.length ≤ x)
    ∧ h.length ≤ h'.length
    ∧ ∀ x, x ∉ addrs h p t → x < h.length → load h' x = load h x

/-! ## Concrete inputs -/

/-- A record with the given identifier and height field and the payload the
tests use by default (`MI208`, `I48`, `ACTIVE`). -/
def sampleSat (id height : Int) : Sat :=
  { m_id := id, m_altitude := ALT.MI208, m_inclin := INCLIN.I48,
    m_state := STATE.ACTIVE, m_height := height }

/-- The tree of `Tester::insertNormal`, the result of inserting
`10000 .. 10004` in ascending order:
`((10000:0)10001:2((10002:0)10003:1(10004:0)))`. -/
def fiveTree : Tree :=
  node (node null (sampleSat 10000 0) null) (sampleSat 10001 2)
    (node (node null (sampleSat 10002 0) null) (sampleSat 10003 1)
      (node null (sampleSat 10004 0) null))

/-- A BST-ordered tree whose cached heights are not those of its shape, one
of them negative: `(((10001:-7)10003:5)10005:0)`. -/
def wrongHeightTree : Tree :=
  node (node (node null (sampleSat 10001 (-7)) null) (sampleSat 10003 5) null)
    (sampleSat 10005 0) null

/-- A record like `sampleSat` with the state `DEORBITED`. -/
def deorbitedSat (id height : Int) : Sat :=
  { m_id := id, m_altitude := ALT.MI208, m_inclin := INCLIN.I48,
    m_state := STATE.DEORBITED, m_height := height }

/-- The tree built by inserting `10002`, `10001` (deorbited), `10003`,
`10004` in that order: `((10001:0)10002:2(10003:1(10004:0)))`. -/
def deorbitedLeftLeafTree : Tree :=
  node (node null (deorbitedSat 10001 0) null) (sampleSat 10002 2)
    (node null (sampleSat 10003 1) (node null (sampleSat 10004 0) null))

/-- The tree built by inserting `10002` and `10001` (deorbited) in that
order: `((10001:0)10002:1)`. -/
def deorbitedOnlyChildTree : Tree :=
  node (node null (deorbitedSat 10001 0) null) (sampleSat 10002 1) null

/-- The tree of `Tester::findSatelliteNormal`, the result of inserting
`10000 .. 10004` and `99999`:
`(((10000:0)10001:1(10002:0))10003:2(10004:1(99999:0)))`. -/
def sixTree : Tree :=
  node (node (node null (sampleSat 10000 0) null) (sampleSat 10001 1)
      (node null (sampleSat 10002 0) null))
    (sampleSat 10003 2)
    (node null (sampleSat 10004 1) (node null (sampleSat 99999 0) null))

/-- The tree of the ascending-insert scenario with the payloads of the five
inserted records `s0 .. s4`: `((s0:0)s1:2((s2:0)s3:1(s4:0)))`. -/
def scenarioTree (s0 s1 s2 s3 s4 : Sat) : Tree :=
  node (node null { s0 with m_height := 0 } null) { s1 with m_height := 2 }
    (node (node null { s2 with m_height := 0 } null) { s3 with m_height := 1 }
      (node null { s4 with m_height := 0 } null))

/-- The tree that `removeDeorbited` leaves of `deorbitedOnlyChildTree`: a
single node that caches the height `1`, `(10002:1)`. -/
def staleLeafTree : Tree :=
  node null (sampleSat 10002 1) null

/-- A right subtree of height `1` under a node without left child:
`(10003:1(10004:0))`. -/
def rightChainTree : Tree :=
  node null (sampleSat 10003 1) (node null (sampleSat 10004 0) null)

/-- A store with two trees: the source `((10001:0)10002:1)` at the addresses
`0` (root) and `1`, the destination `(10007:0)` at the address `2`. -/
def twoTreeStore : Heap :=
  [some { sat := sampleSat 10002 1, m_left := some 1, m_right := none },
   some { sat := deorbitedSat 10001 0, m_left := none, m_right := none },
   some { sat := sampleSat 10007 0, m_left := none, m_right := none }]

/-! ## Height bookkeeping -/

theorem updateHeight_node (l : Tree) (s : Sat) (r : Tree) :
    updateHeight (node l s r)
      = node l { s with m_height := 1 + max (childHeight l) (childHeight r) } r := by
  unfold updateHeight
  by_cases h : childHeight l > childHeight r
  · have hm : max (childHeight l) (childHeight r) = childHeight l := by omega
    simp [h, hm]
  · have hm : max (childHeight l) (childHeight r) = childHeight r := by omega
    simp [h, hm]

theorem childHeight_ge_of_nonneg {t : Tree} (h : HeightsNonneg t) : -1 ≤ childHeight t := by
  cases t with
  | null => simp [childHeight]
  | node l s r =>
    simp only [HeightsNonneg] at h
    simp only [childHeight]
    omega

theorem height_ge (t : Tree) : -1 ≤ height t := by
  cases t with
  | null => simp [height]
  | node l s r =>
    have := height_ge l
    simp only [height]
    omega

theorem childHeight_eq_height {t : Tree} (h : HeightOK t) : childHeight t = height t := by
  cases t with
  | null => rfl
  | node l s r =>
    simp only [HeightOK] at h
    simp only [childHeight, height]
    exact h.1

theorem heightsNonneg_of_heightOK {t : Tree} (h : HeightOK t) : HeightsNonneg t := by
  induction t with
  | null => trivial
  | node l s r ihl ihr =>
    simp only [HeightOK] at h
    have := height_ge l
    refine ⟨?_, ihl h.2.1, ihr h.2.2⟩
    omega

theorem cachedBalanced_of_balanced {t : Tree} (h : HeightOK t) (hb : Balanced t) :
    CachedBalanced t := by
  induction t with
  | null => trivial
  | node l s r ihl ihr =>
    simp only [HeightOK] at h
    simp only [Balanced] at hb
    refine ⟨?_, ihl h.2.1 hb.2.1, ihr h.2.2 hb.2.2⟩
    rw [childHeight_eq_height h.2.1, childHeight_eq_height h.2.2]
    exact hb.1

/-! ## Rebalancing -/

/-- The five outcomes of `rebalance` when it returns. -/
theorem rebalance_cases {t t' : Tree} (h : rebalance t = some t') :
    (t' = t ∧ -1 ≤ getBalance t ∧ getBalance t ≤ 1)
    ∨ (∃ ll ls lr s r, t = node (node ll ls lr) s r ∧ 1 < getBalance t
        ∧ 0 ≤ getBalance (node ll ls lr)
        ∧ t' = updateHeight (node ll ls (updateHeight (node lr s r))))
    ∨ (∃ ll ls ml ms mr s r, t = node (node ll ls (node ml ms mr)) s r ∧ 1 < getBalance t
        ∧ getBalance (node ll ls (node ml ms mr)) < 0
        ∧ t' = updateHeight (node (updateHeight (node ll ls ml)) ms
                (updateHeight (node mr s r))))
    ∨ (∃ l s rl rs rr, t = node l s (node rl rs rr) ∧ getBalance t < -1
        ∧ getBalance (node rl rs rr) ≤ 0
        ∧ t' = updateHeight (node (updateHeight (node l s rl)) rs rr))
    ∨ (∃ l s ml ms mr rs rr, t = node l s (node (node ml ms mr) rs rr) ∧ getBalance t < -1
        ∧ 0 < getBalance (node (node ml ms mr) rs rr)
        ∧ t' = updateHeight (node (updateHeight (node l s ml)) ms
                (updateHeight (node mr rs rr)))) := by
  unfold rebalance at h
  by_cases h1 : getBalance t > 1
  · simp only [h1, if_true] at h
    right
    cases t with
    | null => simp at h
    | node l s r =>
      simp only at h
      by_cases h2 : getBalance l ≥ 0
      · simp only [h2, if_true] at h
        cases l with
        | null => simp [rightRotate] at h
        | node ll ls lr =>
          left
          simp only [rightRotate, Option.some.injEq] at h
          exact ⟨ll, ls, lr, s, r, rfl, h1, h2, h.symm⟩
      · simp only [h2, if_false] at h
        right; left
        cases l with
        | null => simp [leftRotate] at h
        | node ll ls lr =>
          cases lr with
          | null => simp [leftRotate] at h
          | node ml ms mr =>
            simp only [leftRotate, Option.some_bind, updateHeight_node, rightRotate,
              Option.some.injEq] at h
            refine ⟨ll, ls, ml, ms, mr, s, r, rfl, h1, by omega, ?_⟩
            rw [← h]
            simp [updateHeight_node, childHeight]
  · simp only [h1, if_false] at h
    by_cases h3 : getBalance t < -1
    · simp only [h3, if_true] at h
      right; right; right
      cases t with
      | null => simp at h
      | node l s r =>
        simp only at h
        by_cases h2 : getBalance r ≤ 0
        · simp only [h2, if_true] at h
          cases r with
          | null => simp [leftRotate] at h
          | node rl rs rr =>
            left
            simp only [leftRotate, Option.some.injEq] at h
            exact ⟨l, s, rl, rs, rr, rfl, h3, h2, h.symm⟩
        · simp only [h2, if_false] at h
          right
          cases r with
          | null => simp [rightRotate] at h
          | node rl rs rr =>
            cases rl with
            | null => simp [rightRotate] at h
            | node ml ms mr =>
              simp only [rightRotate, Option.some_bind, updateHeight_node, leftRotate,
                Option.some.injEq] at h
              refine ⟨l, s, ml, ms, mr, rs, rr, rfl, h3, by omega, ?_⟩
              rw [← h]
              simp [updateHeight_node, childHeight]
    · simp only [h3, if_false, Option.some.injEq] at h
      left
      exact ⟨h.symm, by omega, by omega⟩

theorem rebalance_records {t t' : Tree} (h : rebalance t = some t') :
    records t' = records t := by
  rcases rebalance_cases h with ⟨rfl, -⟩ | ⟨ll, ls, lr, s, r, rfl, -, -, rfl⟩
    | ⟨ll, ls, ml, ms, mr, s, r, rfl, -, -, rfl⟩ | ⟨l, s, rl, rs, rr, rfl, -, -, rfl⟩
    | ⟨l, s, ml, ms, mr, rs, rr, rfl, -, -, rfl⟩
  · rfl
  all_goals simp [updateHeight_node, records, payload]

theorem updateHeight_records (t : Tree) : records (updateHeight t) = records t := by
  cases t with
  | null => rfl
  | node l s r => simp [updateHeight_node, records, payload]

theorem updateHeight_nonneg {l r : Tree} (s : Sat) (hl : HeightsNonneg l)
    (hr : HeightsNonneg r) : HeightsNonneg (updateHeight (node l s r)) := by
  have := childHeight_ge_of_nonneg hl
  rw [updateHeight_node]
  refine ⟨?_, hl, hr⟩
  simp only
  omega

theorem updateHeight_nonneg_of_nonneg {t : Tree} (h : HeightsNonneg t) :
    HeightsNonneg (updateHeight t) := by
  cases t with
  | null => trivial
  | node l s r => exact updateHeight_nonneg s h.2.1 h.2.2

/-- With no negative cached height `rebalance` never rotates around a missing
child. -/
theorem rebalance_isSome {t : Tree} (h : HeightsNonneg t) : ∃ t', rebalance t = some t' := by
  unfold rebalance
  cases t with
  | null => simp [getBalance]
  | node l s r =>
    have hl := childHeight_ge_of_nonneg h.2.1
    have hr := childHeight_ge_of_nonneg h.2.2
    by_cases h1 : getBalance (node l s r) > 1
    · simp only [h1, if_true]
      cases l with
      | null =>
        have e : childHeight null = -1 := rfl
        simp only [getBalance, e] at h1 hl
        omega
      | node ll ls lr =>
        by_cases h2 : getBalance (node ll ls lr) ≥ 0
        · simp [h2, rightRotate]
        · simp only [h2, if_false]
          cases lr with
          | null =>
            have := childHeight_ge_of_nonneg h.2.1.2.1
            have e : childHeight null = -1 := rfl
            simp only [getBalance, e] at h2
            omega
          | node ml ms mr => simp [leftRotate, updateHeight_node, rightRotate]
    · simp only [h1, if_false]
      by_cases h3 : getBalance (node l s r) < -1
      · simp only [h3, if_true]
        cases r with
        | null =>
          have e : childHeight null = -1 := rfl
          simp only [getBalance, e] at h3 hr
          omega
        | node rl rs rr =>
          by_cases h2 : getBalance (node rl rs rr) ≤ 0
          · simp [h2, leftRotate]
          · simp only [h2, if_false]
            cases rl with
            | null =>
              have := childHeight_ge_of_nonneg h.2.2.2.2
              have e : childHeight null = -1 := rfl
              simp only [getBalance, e] at h2
              omega
            | node ml ms mr => simp [rightRotate, updateHeight_node, leftRotate]
      · simp [h3]

theorem rebalance_nonneg {t t' : Tree} (hn : HeightsNonneg t) (h : rebalance t = some t') :
    HeightsNonneg t' := by
  rcases rebalance_cases h with ⟨rfl, -⟩ | ⟨ll, ls, lr, s, r, rfl, -, -, rfl⟩
    | ⟨ll, ls, ml, ms, mr, s, r, rfl, -, -, rfl⟩ | ⟨l, s, rl, rs, rr, rfl, -, -, rfl⟩
    | ⟨l, s, ml, ms, mr, rs, rr, rfl, -, -, rfl⟩
  · exact hn
  · exact updateHeight_nonneg _ hn.2.1.2.1 (updateHeight_nonneg _ hn.2.1.2.2 hn.2.2)
  · exact updateHeight_nonneg _ (updateHeight_nonneg _ hn.2.1.2.1 hn.2.1.2.2.2.1)
      (updateHeight_nonneg _ hn.2.1.2.2.2.2 hn.2.2)
  · exact updateHeight_nonneg _ (updateHeight_nonneg _ hn.2.1 hn.2.2.2.1) hn.2.2.2.2
  · exact updateHeight_nonneg _ (updateHeight_nonneg _ hn.2.1 hn.2.2.2.1.2.1)
      (updateHeight_nonneg _ hn.2.2.2.1.2.2 hn.2.2.2.2)

/-- The node built by `updateHeight` over two subtrees with correct cached
heights has correct cached heights and the recursively defined height. -/
theorem updateHeight_heightOK {l r : Tree} (s : Sat) (hl : HeightOK l) (hr : HeightOK r) :
    HeightOK (updateHeight (node l s r)) := by
  rw [updateHeight_node]
  refine ⟨?_, hl, hr⟩
  simp only [childHeight_eq_height hl, childHeight_eq_height hr]

theorem updateHeight_height (t : Tree) : height (updateHeight t) = height t := by
  cases t with
  | null => rfl
  | node l s r => simp [updateHeight_node, height]

theorem updateHeight_eq_self {t : Tree} (h : HeightOK t) : updateHeight t = t := by
  cases t with
  | null => rfl
  | node l s r =>
    rw [updateHeight_node, childHeight_eq_height h.2.1, childHeight_eq_height h.2.2, ← h.1]

theorem rebalance_heightOK {t t' : Tree} (hn : HeightOK t) (h : rebalance t = some t') :
    HeightOK t' := by
  rcases rebalance_cases h with ⟨rfl, -⟩ | ⟨ll, ls, lr, s, r, rfl, -, -, rfl⟩
    | ⟨ll, ls, ml, ms, mr, s, r, rfl, -, -, rfl⟩ | ⟨l, s, rl, rs, rr, rfl, -, -, rfl⟩
    | ⟨l, s, ml, ms, mr, rs, rr, rfl, -, -, rfl⟩
  · exact hn
  · exact updateHeight_heightOK _ hn.2.1.2.1 (updateHeight_heightOK _ hn.2.1.2.2 hn.2.2)
  · exact updateHeight_heightOK _ (updateHeight_heightOK _ hn.2.1.2.1 hn.2.1.2.2.2.1)
      (updateHeight_heightOK _ hn.2.1.2.2.2.2 hn.2.2)
  · exact updateHeight_heightOK _ (updateHeight_heightOK _ hn.2.1 hn.2.2.2.1) hn.2.2.2.2
  · exact updateHeight_heightOK _ (updateHeight_heightOK _ hn.2.1 hn.2.2.2.1.2.1)
      (updateHeight_heightOK _ hn.2.2.2.1.2.2 hn.2.2.2.2)

/-- A balanced node is left alone by `rebalance`. -/
theorem rebalance_eq_self {t : Tree} (hn : HeightOK t) (hb : Balanced t) :
    rebalance t = some t := by
  unfold rebalance
  cases t with
  | null => simp [getBalance]
  | node l s r =>
    have h1 := hb.1
    simp only [getBalance, childHeight_eq_height hn.2.1, childHeight_eq_height hn.2.2]
    have h2 : ¬ (height l - height r > 1) := by omega
    have h3 : ¬ (height l - height r < -1) := by omega
    simp [h2, h3]

/-- The AVL step: over two balanced subtrees whose heights differ by at most
two, `rebalance` yields a balanced tree whose height is the height of the
node or one less, and the height of the node when it was balanced. -/
theorem rebalance_balanced {l r : Tree} {s : Sat} {t' : Tree}
    (hn : HeightOK (node l s r)) (hbl : Balanced l) (hbr : Balanced r)
    (hd : -2 ≤ height l - height r ∧ height l - height r ≤ 2)
    (h : rebalance (node l s r) = some t') :
    Balanced t' ∧ height (node l s r) - 1 ≤ height t' ∧ height t' ≤ height (node l s r)
      ∧ ((-1 ≤ height l - height r ∧ height l - height r ≤ 1) →
          height t' = height (node l s r)) := by
  have hcl := childHeight_eq_height hn.2.1
  have hcr := childHeight_eq_height hn.2.2
  rcases rebalance_cases h with ⟨rfl, hb1, hb2⟩ | ⟨ll, ls, lr, s0, r0, he, hb1, hb2, rfl⟩
    | ⟨ll, ls, ml, ms, mr, s0, r0, he, hb1, hb2, rfl⟩ | ⟨l0, s0, rl, rs, rr, he, hb1, hb2, rfl⟩
    | ⟨l0, s0, ml, ms, mr, rs, rr, he, hb1, hb2, rfl⟩
  · simp only [getBalance, hcl, hcr] at hb1 hb2
    exact ⟨⟨⟨hb1, hb2⟩, hbl, hbr⟩, by omega, le_refl _, fun _ => rfl⟩
  · cases he
    have e1 := childHeight_eq_height hn.2.1.2.1
    have e2 := childHeight_eq_height hn.2.1.2.2
    simp only [HeightOK, Balanced, height, updateHeight_node, getBalance, childHeight] at *
    simp only [e1, e2, hcr] at *
    refine ⟨⟨⟨?_, ?_⟩, hbl.2.1, ⟨?_, ?_⟩, hbl.2.2, hbr⟩, ?_, ?_, ?_⟩ <;> omega
  · cases he
    have e1 := childHeight_eq_height hn.2.1.2.1
    have e2 := childHeight_eq_height hn.2.1.2.2.2.1
    have e3 := childHeight_eq_height hn.2.1.2.2.2.2
    simp only [HeightOK, Balanced, height, updateHeight_node, getBalance, childHeight] at *
    simp only [e1, e2, e3, hcr] at *
    refine ⟨⟨⟨?_, ?_⟩, ⟨⟨?_, ?_⟩, hbl.2.1, hbl.2.2.2.1⟩, ⟨?_, ?_⟩, hbl.2.2.2.2, hbr⟩, ?_, ?_, ?_⟩
      <;> omega
  · cases he
    have e1 := childHeight_eq_height hn.2.2.2.1
    have e2 := childHeight_eq_height hn.2.2.2.2
    simp only [HeightOK, Balanced, height, updateHeight_node, getBalance, childHeight] at *
    simp only [e1, e2, hcl] at *
    refine ⟨⟨⟨?_, ?_⟩, ⟨⟨?_, ?_⟩, hbl, hbr.2.1⟩, hbr.2.2⟩, ?_, ?_, ?_⟩ <;> omega
  · cases he
    have e1 := childHeight_eq_height hn.2.2.2.1.2.1
    have e2 := childHeight_eq_height hn.2.2.2.1.2.2
    have e3 := childHeight_eq_height hn.2.2.2.2
    simp only [HeightOK, Balanced, height, updateHeight_node, getBalance, childHeight] at *
    simp only [e1, e2, e3, hcl] at *
    refine ⟨⟨⟨?_, ?_⟩, ⟨⟨?_, ?_⟩, hbl, hbr.2.1.2.1⟩, ⟨?_, ?_⟩, hbr.2.1.2.2, hbr.2.2⟩, ?_, ?_, ?_⟩
      <;> omega

/-! ## Order of the in-order sequence -/

theorem ids_node (l : Tree) (s : Sat) (r : Tree) :
    ids (node l s r) = ids l ++ s.m_id :: ids r := by
  simp [ids, records, payload]

theorem size_eq_length (t : Tree) : size t = (records t).length := by
  induction t with
  | null => rfl
  | node l s r ihl ihr => simp [size, records, ihl, ihr]; omega

theorem bst_node_iff (l : Tree) (s : Sat) (r : Tree) :
    BST (node l s r)
      ↔ BST l ∧ BST r ∧ (∀ i ∈ ids l, i < s.m_id) ∧ (∀ i ∈ ids r, s.m_id < i) := by
  unfold BST
  rw [ids_node, List.Sorted, List.pairwise_append, List.pairwise_cons]
  constructor
  · rintro ⟨h1, ⟨h2, h3⟩, h4⟩
    exact ⟨h1, h3, fun i hi => h4 i hi _ (List.mem_cons_self _ _), h2⟩
  · rintro ⟨h1, h2, h3, h4⟩
    refine ⟨h1, ⟨h4, h2⟩, fun a ha b hb => ?_⟩
    rcases List.mem_cons.1 hb with rfl | hb
    · exact h3 a ha
    · exact lt_trans (h3 a ha) (h4 b hb)

theorem bst_iff_ordered (t : Tree) : BST t ↔ Ordered t := by
  induction t with
  | null => simp [BST, ids, records, Ordered]
  | node l s r ihl ihr =>
    rw [bst_node_iff, ihl, ihr]
    simp only [Ordered]
    tauto

theorem mem_ids_of_mem_records {t : Tree} {p : Record} (h : p ∈ records t) : p.1 ∈ ids t :=
  List.mem_map_of_mem _ h

theorem insertRecord_append_lt (x y : Record) (L R : List Record) (h : x.1 < y.1) :
    insertRecord x (L ++ y :: R) = insertRecord x L ++ y :: R := by
  induction L with
  | nil => simp [insertRecord, h]
  | cons z L ih =>
    simp only [List.cons_append, insertRecord]
    by_cases h1 : x.1 < z.1
    · simp [h1]
    · by_cases h2 : x.1 > z.1
      · simp [h1, h2, ih]
      · simp [h1, h2]

theorem insertRecord_append_gt (x y : Record) (L R : List Record)
    (hL : ∀ z ∈ L, z.1 < x.1) (h : y.1 < x.1) :
    insertRecord x (L ++ y :: R) = L ++ y :: insertRecord x R := by
  induction L with
  | nil =>
    have h1 : ¬ x.1 < y.1 := by omega
    simp [insertRecord, h, h1]
  | cons z L ih =>
    have hz := hL z (List.mem_cons_self _ _)
    have h1 : ¬ x.1 < z.1 := by omega
    have e := ih (fun w hw => hL w (List.mem_cons_of_mem _ hw))
    simp [insertRecord, h1, hz, e]

theorem insertRecord_append_eq (x y : Record) (L R : List Record)
    (hL : ∀ z ∈ L, z.1 < x.1) (h : ¬ x.1 < y.1) (h' : ¬ x.1 > y.1) :
    insertRecord x (L ++ y :: R) = L ++ y :: R := by
  induction L with
  | nil => simp [insertRecord, h, h']
  | cons z L ih =>
    have hz := hL z (List.mem_cons_self _ _)
    have h1 : ¬ x.1 < z.1 := by omega
    have e := ih (fun w hw => hL w (List.mem_cons_of_mem _ hw))
    simp [insertRecord, h1, hz, e]

/-- Sorted insertion puts a new record between the records with a smaller
identifier and those with a greater one. -/
theorem insertRecord_split (x : Record) (L : List Record)
    (hs : (L.map Prod.fst).Sorted (· < ·)) (hx : x.1 ∉ L.map Prod.fst) :
    ∃ front back, L = front ++ back ∧ insertRecord x L = front ++ x :: back
      ∧ (∀ p ∈ front, p.1 < x.1) ∧ (∀ p ∈ back, x.1 < p.1) := by
  induction L with
  | nil => exact ⟨[], [], rfl, rfl, by simp, by simp⟩
  | cons y L ih =>
    simp only [List.map_cons, List.sorted_cons, List.mem_cons, not_or] at hs hx
    by_cases h1 : x.1 < y.1
    · refine ⟨[], y :: L, rfl, by simp [insertRecord, h1], by simp, ?_⟩
      intro p hp
      rcases List.mem_cons.1 hp with rfl | hp
      · exact h1
      · exact lt_trans h1 (hs.1 _ (List.mem_map_of_mem _ hp))
    · have h2 : x.1 > y.1 := by
        have := hx.1
        omega
      obtain ⟨front, back, e1, e2, e3, e4⟩ := ih hs.2 hx.2
      refine ⟨y :: front, back, by simp [e1], by simp [insertRecord, h1, h2, e2], ?_, e4⟩
      intro p hp
      rcases List.mem_cons.1 hp with rfl | hp
      · exact h2
      · exact e3 p hp

theorem mem_insertRecord {x p : Record} {L : List Record} (h : p ∈ insertRecord x L) :
    p = x ∨ p ∈ L := by
  induction L with
  | nil => simpa [insertRecord] using h
  | cons y L ih =>
    simp only [insertRecord] at h
    by_cases h1 : x.1 < y.1
    · simp only [h1, if_true, List.mem_cons] at h
      rcases h with h | h | h
      · exact Or.inl h
      · exact Or.inr (by simp [h])
      · exact Or.inr (by simp [h])
    · by_cases h2 : x.1 > y.1
      · simp only [h1, h2, if_true, if_false, List.mem_cons] at h
        rcases h with h | h
        · exact Or.inr (by simp [h])
        · rcases ih h with h | h
          · exact Or.inl h
          · exact Or.inr (by simp [h])
      · simp only [h1, h2, if_false] at h
        exact Or.inr h

theorem insertRecord_sorted (x : Record) (L : List Record)
    (hs : (L.map Prod.fst).Sorted (· < ·)) :
    ((insertRecord x L).map Prod.fst).Sorted (· < ·) := by
  induction L with
  | nil => simp [insertRecord]
  | cons y L ih =>
    simp only [List.map_cons, List.sorted_cons] at hs
    simp only [insertRecord]
    by_cases h1 : x.1 < y.1
    · simp only [h1, if_true, List.map_cons, List.sorted_cons, List.mem_cons]
      refine ⟨?_, hs⟩
      rintro b (rfl | hb)
      · exact h1
      · exact lt_trans h1 (hs.1 b hb)
    · by_cases h2 : x.1 > y.1
      · simp only [h1, h2, if_true, if_false, List.map_cons, List.sorted_cons]
        refine ⟨?_, ih hs.2⟩
        intro b hb
        obtain ⟨p, hp, rfl⟩ := List.mem_map.1 hb
        rcases mem_insertRecord hp with rfl | hp
        · exact h2
        · exact hs.1 _ (List.mem_map_of_mem _ hp)
      · simp only [h1, h2, if_false, List.map_cons, List.sorted_cons]
        exact hs

/-! ## Insertion -/

theorem insertAux_isSome (x : Sat) {t : Tree} (h : HeightsNonneg t) :
    ∃ t', insertAux x t = some t' ∧ HeightsNonneg t' := by
  induction t with
  | null => exact ⟨_, rfl, by simp [HeightsNonneg]⟩
  | node l s r ihl ihr =>
    simp only [insertAux]
    by_cases h1 : x.m_id < s.m_id
    · obtain ⟨l', e, hl'⟩ := ihl h.2.1
      have hn := updateHeight_nonneg s hl' h.2.2
      obtain ⟨t', e'⟩ := rebalance_isSome hn
      exact ⟨t', by simp [h1, e, e'], rebalance_nonneg hn e'⟩
    · by_cases h2 : x.m_id > s.m_id
      · obtain ⟨r', e, hr'⟩ := ihr h.2.2
        have hn := updateHeight_nonneg s h.2.1 hr'
        obtain ⟨t', e'⟩ := rebalance_isSome hn
        exact ⟨t', by simp [h1, h2, e, e'], rebalance_nonneg hn e'⟩
      · exact ⟨_, by simp [h1, h2], h⟩

theorem insertAux_records (x : Sat) {t t' : Tree} (hb : BST t) (h : insertAux x t = some t') :
    records t' = insertRecord (payload x) (records t) := by
  induction t generalizing t' with
  | null =>
    simp only [insertAux, Option.some.injEq] at h
    subst h
    simp [records, insertRecord, payload]
  | node l s r ihl ihr =>
    rw [bst_node_iff] at hb
    obtain ⟨hbl, hbr, hlt, hgt⟩ := hb
    have hps : (payload s).1 = s.m_id := rfl
    have hpx : (payload x).1 = x.m_id := rfl
    simp only [insertAux] at h
    by_cases h1 : x.m_id < s.m_id
    · simp only [h1, if_true] at h
      cases e : insertAux x l with
      | none => simp [e] at h
      | some l' =>
        simp only [e, Option.some_bind] at h
        rw [rebalance_records h, updateHeight_records]
        simp only [records]
        rw [ihl hbl e, insertRecord_append_lt _ _ _ _ (by rw [hps, hpx]; exact h1)]
    · have hL : ∀ z ∈ records l, z.1 < (payload x).1 := by
        intro z hz
        have := hlt _ (mem_ids_of_mem_records hz)
        rw [hpx]
        omega
      by_cases h2 : x.m_id > s.m_id
      · simp only [h1, h2, if_true, if_false] at h
        cases e : insertAux x r with
        | none => simp [e] at h
        | some r' =>
          simp only [e, Option.some_bind] at h
          rw [rebalance_records h, updateHeight_records]
          simp only [records]
          rw [ihr hbr e, insertRecord_append_gt _ _ _ _ hL (by rw [hps, hpx]; exact h2)]
      · simp only [h1, h2, if_false, Option.some.injEq] at h
        subst h
        simp only [records]
        rw [insertRecord_append_eq _ _ _ _ hL (by rw [hps, hpx]; exact h1)
          (by rw [hps, hpx]; exact h2)]

theorem insertAux_heightOK (x : Sat) {t t' : Tree} (hn : HeightOK t)
    (h : insertAux x t = some t') : HeightOK t' := by
  induction t generalizing t' with
  | null =>
    simp only [insertAux, Option.some.injEq] at h
    subst h
    simp [HeightOK, height]
  | node l s r ihl ihr =>
    simp only [insertAux] at h
    by_cases h1 : x.m_id < s.m_id
    · simp only [h1, if_true] at h
      cases e : insertAux x l with
      | none => simp [e] at h
      | some l' =>
        simp only [e, Option.some_bind] at h
        exact rebalance_heightOK (updateHeight_heightOK s (ihl hn.2.1 e) hn.2.2) h
    · by_cases h2 : x.m_id > s.m_id
      · simp only [h1, h2, if_true, if_false] at h
        cases e : insertAux x r with
        | none => simp [e] at h
        | some r' =>
          simp only [e, Option.some_bind] at h
          exact rebalance_heightOK (updateHeight_heightOK s hn.2.1 (ihr hn.2.2 e)) h
      · simp only [h1, h2, if_false, Option.some.injEq] at h
        subst h
        exact hn

/-- Insertion into an AVL tree yields an AVL tree whose height is the old
height or one more. -/
theorem insertAux_balanced (x : Sat) {t t' : Tree} (hn : HeightOK t) (hb : Balanced t)
    (h : insertAux x t = some t') :
    Balanced t' ∧ height t ≤ height t' ∧ height t' ≤ height t + 1 := by
  induction t generalizing t' with
  | null =>
    simp only [insertAux, Option.some.injEq] at h
    subst h
    simp [Balanced, height]
  | node l s r ihl ihr =>
    simp only [insertAux] at h
    by_cases h1 : x.m_id < s.m_id
    · simp only [h1, if_true] at h
      cases e : insertAux x l with
      | none => simp [e] at h
      | some l' =>
        simp only [e, Option.some_bind] at h
        obtain ⟨hbl', hlo, hhi⟩ := ihl hn.2.1 hb.2.1 e
        have hok := updateHeight_heightOK s (insertAux_heightOK x hn.2.1 e) hn.2.2
        rw [updateHeight_node] at h hok
        have hd := hb.1
        obtain ⟨g1, g2, g3, g4⟩ := rebalance_balanced hok hbl' hb.2.2 (by omega) h
        simp only [height] at g2 g3 g4 ⊢
        refine ⟨g1, ?_, ?_⟩
        · by_cases hc : height l' - height r ≤ 1
          · have := g4 ⟨by omega, hc⟩
            omega
          · omega
        · omega
    · by_cases h2 : x.m_id > s.m_id
      · simp only [h1, h2, if_true, if_false] at h
        cases e : insertAux x r with
        | none => simp [e] at h
        | some r' =>
          simp only [e, Option.some_bind] at h
          obtain ⟨hbr', hlo, hhi⟩ := ihr hn.2.2 hb.2.2 e
          have hok := updateHeight_heightOK s hn.2.1 (insertAux_heightOK x hn.2.2 e)
          rw [updateHeight_node] at h hok
          have hd := hb.1
          obtain ⟨g1, g2, g3, g4⟩ := rebalance_balanced hok hb.2.1 hbr' (by omega) h
          simp only [height] at g2 g3 g4 ⊢
          refine ⟨g1, ?_, ?_⟩
          · by_cases hc : -1 ≤ height l - height r'
            · have := g4 ⟨hc, by omega⟩
              omega
            · omega
          · omega
      · simp only [h1, h2, if_false, Option.some.injEq] at h
        subst h
        exact ⟨hb, le_refl _, by omega⟩

/-- Inserting an identifier that a well-formed tree already holds returns
the tree itself. -/
theorem insertAux_eq_self (x : Sat) {t : Tree} (hbst : BST t) (hn : HeightOK t)
    (hb : Balanced t) (hx : x.m_id ∈ ids t) : insertAux x t = some t := by
  induction t with
  | null => simp [ids, records] at hx
  | node l s r ihl ihr =>
    rw [bst_node_iff] at hbst
    obtain ⟨hbl, hbr, hlt, hgt⟩ := hbst
    rw [ids_node, List.mem_append, List.mem_cons] at hx
    simp only [insertAux]
    by_cases h1 : x.m_id < s.m_id
    · have hxl : x.m_id ∈ ids l := by
        rcases hx with hx | hx | hx
        · exact hx
        · omega
        · have := hgt _ hx
          omega
      simp only [h1, if_true, ihl hbl hn.2.1 hb.2.1 hxl, Option.some_bind]
      rw [updateHeight_eq_self hn, rebalance_eq_self hn hb]
    · by_cases h2 : x.m_id > s.m_id
      · have hxr : x.m_id ∈ ids r := by
          rcases hx with hx | hx | hx
          · have := hlt _ hx
            omega
          · omega
          · exact hx
        simp only [h1, h2, if_true, if_false, ihr hbr hn.2.2 hb.2.2 hxr, Option.some_bind]
        rw [updateHeight_eq_self hn, rebalance_eq_self hn hb]
      · simp [h1, h2]

/-! ## Removal -/

theorem removeAux_node (id : Int) (l : Tree) (s : Sat) (r : Tree) :
    removeAux id (node l s r)
      = if id < s.m_id then
          (removeAux id l).bind fun l' => rebalance (updateHeight (node l' s r))
        else if id > s.m_id then
          (removeAux id r).bind fun r' => rebalance (updateHeight (node l s r'))
        else
          match l, r with
          | null, null => rebalance (updateHeight null)
          | node ll ls lr, null => rebalance (updateHeight (node ll ls lr))
          | null, node rl rs rr => rebalance (updateHeight (node rl rs rr))
          | node ll ls lr, node rl rs rr =>
            (removeAux (successor rs rl).m_id (node rl rs rr)).bind fun r' =>
              rebalance (updateHeight (node (node ll ls lr)
                { s with m_id := (successor rs rl).m_id,
                         m_altitude := (successor rs rl).m_altitude,
                         m_inclin := (successor rs rl).m_inclin,
                         m_state := (successor rs rl).m_state } r')) := by
  cases l <;> cases r <;> rfl


theorem rebalance_null : rebalance null = some null := by
  simp [rebalance, getBalance]

theorem rebalance_updateHeight_isSome {a b : Tree} (s : Sat) (ha : HeightsNonneg a)
    (hb : HeightsNonneg b) :
    ∃ t', rebalance (updateHeight (node a s b)) = some t' ∧ HeightsNonneg t' := by
  have hn := updateHeight_nonneg s ha hb
  obtain ⟨t', e⟩ := rebalance_isSome hn
  exact ⟨t', e, rebalance_nonneg hn e⟩

/-- The record reached by the successor loop is the first record of the
in-order sequence of the subtree it starts in. -/
theorem records_successor (rl : Tree) (rs : Sat) (rr : Tree) :
    ∃ rest, records (node rl rs rr) = payload (successor rs rl) :: rest := by
  induction rl generalizing rs rr with
  | null => exact ⟨records rr, by simp [records, successor]⟩
  | node a b c iha _ =>
    obtain ⟨rest, e⟩ := iha b c
    refine ⟨rest ++ payload rs :: records rr, ?_⟩
    have : records (node (node a b c) rs rr)
        = records (node a b c) ++ payload rs :: records rr := rfl
    rw [this, e]
    simp [successor]

theorem removeAux_isSome (id : Int) {t : Tree} (h : HeightsNonneg t) :
    ∃ t', removeAux id t = some t' ∧ HeightsNonneg t' := by
  induction t generalizing id with
  | null => exact ⟨null, rfl, trivial⟩
  | node l s r ihl ihr =>
    rw [removeAux_node]
    by_cases h1 : id < s.m_id
    · obtain ⟨l', e, hl'⟩ := ihl id h.2.1
      obtain ⟨t', e', ht'⟩ := rebalance_updateHeight_isSome s hl' h.2.2
      exact ⟨t', by simp [h1, e, e'], ht'⟩
    · by_cases h2 : id > s.m_id
      · obtain ⟨r', e, hr'⟩ := ihr id h.2.2
        obtain ⟨t', e', ht'⟩ := rebalance_updateHeight_isSome s h.2.1 hr'
        exact ⟨t', by simp [h1, h2, e, e'], ht'⟩
      · simp only [h1, h2, if_false]
        cases l with
        | null =>
          cases r with
          | null => exact ⟨null, by simp [updateHeight, rebalance_null], trivial⟩
          | node rl rs rr => exact rebalance_updateHeight_isSome rs h.2.2.2.1 h.2.2.2.2
        | node ll ls lr =>
          cases r with
          | null => exact rebalance_updateHeight_isSome ls h.2.1.2.1 h.2.1.2.2
          | node rl rs rr =>
            obtain ⟨r', e, hr'⟩ := ihr (successor rs rl).m_id h.2.2
            obtain ⟨t', e', ht'⟩ := rebalance_updateHeight_isSome
              { s with m_id := (successor rs rl).m_id,
                       m_altitude := (successor rs rl).m_altitude,
                       m_inclin := (successor rs rl).m_inclin,
                       m_state := (successor rs rl).m_state } h.2.1 hr'
            exact ⟨t', by simp [e, e'], ht'⟩

theorem deleteRecord_append (id : Int) (L R : List Record) :
    deleteRecord id (L ++ R) = deleteRecord id L ++ deleteRecord id R := by
  simp [deleteRecord]

theorem deleteRecord_eq_self (id : Int) (L : List Record) (h : ∀ z ∈ L, z.1 ≠ id) :
    deleteRecord id L = L := by
  unfold deleteRecord
  rw [List.filter_eq_self]
  intro z hz
  simpa using h z hz

theorem deleteRecord_cons_ne (id : Int) (y : Record) (L : List Record) (h : y.1 ≠ id) :
    deleteRecord id (y :: L) = y :: deleteRecord id L := by
  simp [deleteRecord, h]

theorem deleteRecord_cons_eq (id : Int) (y : Record) (L : List Record) (h : y.1 = id) :
    deleteRecord id (y :: L) = deleteRecord id L := by
  simp [deleteRecord, h]

theorem removeAux_records (id : Int) {t t' : Tree} (hb : BST t)
    (h : removeAux id t = some t') : records t' = deleteRecord id (records t) := by
  induction t generalizing id t' with
  | null =>
    simp only [removeAux, Option.some.injEq] at h
    subst h
    rfl
  | node l s r ihl ihr =>
    have hb0 := hb
    rw [bst_node_iff] at hb
    obtain ⟨hbl, hbr, hlt, hgt⟩ := hb
    have hps : (payload s).1 = s.m_id := rfl
    have hrec : records (node l s r) = records l ++ payload s :: records r := rfl
    rw [removeAux_node] at h
    by_cases h1 : id < s.m_id
    · simp only [h1, if_true] at h
      cases e : removeAux id l with
      | none => simp [e] at h
      | some l' =>
        simp only [e, Option.some_bind] at h
        rw [rebalance_records h, updateHeight_records, hrec, deleteRecord_append,
          deleteRecord_cons_ne _ _ _ (by rw [hps]; omega), deleteRecord_eq_self id (records r)]
        · simp only [records]
          rw [ihl id hbl e]
        · intro z hz
          have := hgt _ (mem_ids_of_mem_records hz)
          omega
    · have hL : ∀ z ∈ records l, z.1 ≠ id := by
        intro z hz
        have := hlt _ (mem_ids_of_mem_records hz)
        omega
      by_cases h2 : id > s.m_id
      · simp only [h1, h2, if_true, if_false] at h
        cases e : removeAux id r with
        | none => simp [e] at h
        | some r' =>
          simp only [e, Option.some_bind] at h
          rw [rebalance_records h, updateHeight_records, hrec, deleteRecord_append,
            deleteRecord_cons_ne _ _ _ (by rw [hps]; omega), deleteRecord_eq_self id _ hL]
          simp only [records]
          rw [ihr id hbr e]
      · have hR : ∀ z ∈ records r, z.1 ≠ id := by
          intro z hz
          have := hgt _ (mem_ids_of_mem_records hz)
          omega
        have hdel : deleteRecord id (records (node l s r)) = records l ++ records r := by
          rw [hrec, deleteRecord_append, deleteRecord_cons_eq _ _ _ (by rw [hps]; omega),
            deleteRecord_eq_self id _ hL, deleteRecord_eq_self id _ hR]
        rw [hdel]
        simp only [h1, h2, if_false] at h
        cases l with
        | null =>
          cases r with
          | null =>
            simp only [updateHeight, rebalance_null, Option.some.injEq] at h
            subst h
            rfl
          | node rl rs rr =>
            simp only at h
            rw [rebalance_records h, updateHeight_records]
            simp [records]
        | node ll ls lr =>
          cases r with
          | null =>
            simp only at h
            rw [rebalance_records h, updateHeight_records]
            simp [records]
          | node rl rs rr =>
            simp only at h
            cases e : removeAux (successor rs rl).m_id (node rl rs rr) with
            | none => simp [e] at h
            | some r' =>
              simp only [e, Option.some_bind] at h
              rw [rebalance_records h, updateHeight_records]
              obtain ⟨rest, hrest⟩ := records_successor rl rs rr
              have hr' := ihr _ hbr e
              have hsorted : ((records (node rl rs rr)).map Prod.fst).Sorted (· < ·) := hbr
              rw [hrest] at hr' hsorted
              simp only [List.map_cons, List.sorted_cons] at hsorted
              rw [deleteRecord_cons_eq (successor rs rl).m_id _ _ rfl, deleteRecord_eq_self] at hr'
              · rw [hrest]
                show records (node ll ls lr) ++ payload (successor rs rl) :: records r' = _
                rw [hr']
              · intro z hz
                have := hsorted.1 _ (List.mem_map_of_mem _ hz)
                have hp : (payload (successor rs rl)).1 = (successor rs rl).m_id := rfl
                omega

/-- Deleting an identifier that occurs in a sorted list of records removes
exactly the one record carrying it. -/
theorem deleteRecord_split (id : Int) (L : List Record)
    (hs : (L.map Prod.fst).Sorted (· < ·)) (hx : id ∈ L.map Prod.fst) :
    ∃ front x back, L = front ++ x :: back ∧ x.1 = id ∧ deleteRecord id L = front ++ back
      ∧ (∀ p ∈ front, p.1 < id) ∧ (∀ p ∈ back, id < p.1) := by
  obtain ⟨x, hxL, hxid⟩ := List.mem_map.1 hx
  obtain ⟨front, back, rfl⟩ := List.append_of_mem hxL
  rw [List.map_append, List.map_cons, List.Sorted, List.pairwise_append,
    List.pairwise_cons] at hs
  obtain ⟨-, ⟨hback, -⟩, hfront⟩ := hs
  have hf : ∀ p ∈ front, p.1 < id := by
    intro p hp
    have := hfront _ (List.mem_map_of_mem _ hp) x.1 (List.mem_cons_self _ _)
    omega
  have hb : ∀ p ∈ back, id < p.1 := by
    intro p hp
    have := hback _ (List.mem_map_of_mem _ hp)
    omega
  refine ⟨front, x, back, rfl, hxid, ?_, hf, hb⟩
  rw [deleteRecord_append, deleteRecord_cons_eq _ _ _ hxid, deleteRecord_eq_self,
    deleteRecord_eq_self]
  · intro z hz
    have := hb z hz
    omega
  · intro z hz
    have := hf z hz
    omega

theorem removeAux_heightOK (id : Int) {t t' : Tree} (hn : HeightOK t)
    (h : removeAux id t = some t') : HeightOK t' := by
  induction t generalizing id t' with
  | null =>
    simp only [removeAux, Option.some.injEq] at h
    subst h
    trivial
  | node l s r ihl ihr =>
    rw [removeAux_node] at h
    by_cases h1 : id < s.m_id
    · simp only [h1, if_true] at h
      cases e : removeAux id l with
      | none => simp [e] at h
      | some l' =>
        simp only [e, Option.some_bind] at h
        exact rebalance_heightOK (updateHeight_heightOK s (ihl id hn.2.1 e) hn.2.2) h
    · by_cases h2 : id > s.m_id
      · simp only [h1, h2, if_true, if_false] at h
        cases e : removeAux id r with
        | none => simp [e] at h
        | some r' =>
          simp only [e, Option.some_bind] at h
          exact rebalance_heightOK (updateHeight_heightOK s hn.2.1 (ihr id hn.2.2 e)) h
      · simp only [h1, h2, if_false] at h
        cases l with
        | null =>
          cases r with
          | null =>
            simp only [updateHeight, rebalance_null, Option.some.injEq] at h
            subst h
            trivial
          | node rl rs rr =>
            simp only at h
            exact rebalance_heightOK (updateHeight_heightOK rs hn.2.2.2.1 hn.2.2.2.2) h
        | node ll ls lr =>
          cases r with
          | null =>
            simp only at h
            exact rebalance_heightOK (updateHeight_heightOK ls hn.2.1.2.1 hn.2.1.2.2) h
          | node rl rs rr =>
            simp only at h
            cases e : removeAux (successor rs rl).m_id (node rl rs rr) with
            | none => simp [e] at h
            | some r' =>
              simp only [e, Option.some_bind] at h
              exact rebalance_heightOK (updateHeight_heightOK _ hn.2.1 (ihr _ hn.2.2 e)) h

/-- Removal from an AVL tree yields an AVL tree whose height is the old
height or one less. -/
theorem removeAux_balanced (id : Int) {t t' : Tree} (hn : HeightOK t) (hb : Balanced t)
    (h : removeAux id t = some t') :
    Balanced t' ∧ height t - 1 ≤ height t' ∧ height t' ≤ height t := by
  induction t generalizing id t' with
  | null =>
    simp only [removeAux, Option.some.injEq] at h
    subst h
    exact ⟨trivial, by omega, le_refl _⟩
  | node l s r ihl ihr =>
    have hd := hb.1
    have hgl := height_ge l
    have hgr := height_ge r
    rw [removeAux_node] at h
    by_cases h1 : id < s.m_id
    · simp only [h1, if_true] at h
      cases e : removeAux id l with
      | none => simp [e] at h
      | some l' =>
        simp only [e, Option.some_bind] at h
        obtain ⟨hbl', hlo, hhi⟩ := ihl id hn.2.1 hb.2.1 e
        have hok := updateHeight_heightOK s (removeAux_heightOK id hn.2.1 e) hn.2.2
        rw [updateHeight_node] at h hok
        obtain ⟨g1, g2, g3, g4⟩ := rebalance_balanced hok hbl' hb.2.2 (by omega) h
        simp only [height] at g2 g3 g4 ⊢
        refine ⟨g1, ?_, by omega⟩
        by_cases hc : -1 ≤ height l' - height r
        · have := g4 ⟨hc, by omega⟩
          omega
        · omega
    · by_cases h2 : id > s.m_id
      · simp only [h1, h2, if_true, if_false] at h
        cases e : removeAux id r with
        | none => simp [e] at h
        | some r' =>
          simp only [e, Option.some_bind] at h
          obtain ⟨hbr', hlo, hhi⟩ := ihr id hn.2.2 hb.2.2 e
          have hok := updateHeight_heightOK s hn.2.1 (removeAux_heightOK id hn.2.2 e)
          rw [updateHeight_node] at h hok
          obtain ⟨g1, g2, g3, g4⟩ := rebalance_balanced hok hb.2.1 hbr' (by omega) h
          simp only [height] at g2 g3 g4 ⊢
          refine ⟨g1, ?_, by omega⟩
          by_cases hc : height l - height r' ≤ 1
          · have := g4 ⟨by omega, hc⟩
            omega
          · omega
      · simp only [h1, h2, if_false] at h
        cases l with
        | null =>
          cases r with
          | null =>
            simp only [updateHeight, rebalance_null, Option.some.injEq] at h
            subst h
            simp [Balanced, height]
          | node rl rs rr =>
            simp only at h
            rw [updateHeight_eq_self hn.2.2, rebalance_eq_self hn.2.2 hb.2.2,
              Option.some.injEq] at h
            subst h
            refine ⟨hb.2.2, ?_, ?_⟩
            · simp only [height] at hgr ⊢
              omega
            · simp only [height] at hgr ⊢
              omega
        | node ll ls lr =>
          cases r with
          | null =>
            simp only at h
            rw [updateHeight_eq_self hn.2.1, rebalance_eq_self hn.2.1 hb.2.1,
              Option.some.injEq] at h
            subst h
            refine ⟨hb.2.1, ?_, ?_⟩
            · simp only [height] at hgl ⊢
              omega
            · simp only [height] at hgl ⊢
              omega
          | node rl rs rr =>
            simp only at h
            cases e : removeAux (successor rs rl).m_id (node rl rs rr) with
            | none => simp [e] at h
            | some r' =>
              simp only [e, Option.some_bind] at h
              obtain ⟨hbr', hlo, hhi⟩ := ihr _ hn.2.2 hb.2.2 e
              have hok := updateHeight_heightOK
                { s with m_id := (successor rs rl).m_id,
                         m_altitude := (successor rs rl).m_altitude,
                         m_inclin := (successor rs rl).m_inclin,
                         m_state := (successor rs rl).m_state }
                hn.2.1 (removeAux_heightOK _ hn.2.2 e)
              rw [updateHeight_node] at h hok
              obtain ⟨g1, g2, g3, g4⟩ := rebalance_balanced hok hb.2.1 hbr' (by omega) h
              have hL : height (node (node ll ls lr) s (node rl rs rr))
                  = 1 + max (height (node ll ls lr)) (height (node rl rs rr)) := rfl
              have hR : ∀ q : Sat, height (node (node ll ls lr) q r')
                  = 1 + max (height (node ll ls lr)) (height r') := fun _ => rfl
              rw [hR] at g2 g3 g4
              rw [hL]
              refine ⟨g1, ?_, by omega⟩
              by_cases hc : height (node ll ls lr) - height r' ≤ 1
              · have := g4 ⟨by omega, hc⟩
                omega
              · omega

/-- Removing an identifier that a tree with correct heights and AVL balance
does not hold returns the tree itself. -/
theorem removeAux_eq_self (id : Int) {t : Tree} (hn : HeightOK t) (hb : Balanced t)
    (hx : id ∉ ids t) : removeAux id t = some t := by
  induction t with
  | null => rfl
  | node l s r ihl ihr =>
    rw [ids_node, List.mem_append, List.mem_cons] at hx
    push_neg at hx
    rw [removeAux_node]
    by_cases h1 : id < s.m_id
    · simp only [h1, if_true, ihl hn.2.1 hb.2.1 hx.1, Option.some_bind]
      rw [updateHeight_eq_self hn, rebalance_eq_self hn hb]
    · have h2 : id > s.m_id := by
        have := hx.2.1
        omega
      simp only [h1, h2, if_true, if_false, ihr hn.2.2 hb.2.2 hx.2.2, Option.some_bind]
      rw [updateHeight_eq_self hn, rebalance_eq_self hn hb]

/-! ## The claims -/

/-- C3: for every well-formed tree (BST-ordered, cached heights correct,
balanced) and every record, `insert` returns a tree in which the heights of
the two subtrees of every node differ by at most one, both for the
recursively defined heights and for the cached ones. -/
theorem insert_preserves_balance (MINID MAXID : Int) (satellite : Sat) (t : Tree)
    (h : WellFormed t) :
    ∃ t', insert MINID MAXID satellite t = some t' ∧ Balanced t' ∧ CachedBalanced t' := by
  obtain ⟨-, hn, hb⟩ := h
  unfold insert
  by_cases hr : satellite.m_id ≥ MINID ∧ satellite.m_id ≤ MAXID
  · obtain ⟨t', e, -⟩ := insertAux_isSome satellite (heightsNonneg_of_heightOK hn)
    have hb' := (insertAux_balanced satellite hn hb e).1
    exact ⟨t', by simp [hr, e], hb',
      cachedBalanced_of_balanced (insertAux_heightOK satellite hn e) hb'⟩
  · exact ⟨t, by simp [hr], hb, cachedBalanced_of_balanced hn hb⟩

/-- C3 at `fiveTree` and the new identifier `10005`, which makes the root
rotate. -/
theorem insert_preserves_balance_witness :
    WellFormed fiveTree
      ∧ ∃ t', insert 10000 99999 (sampleSat 10005 0) fiveTree = some t'
          ∧ Balanced t' ∧ CachedBalanced t' :=
  ⟨by decide, insert_preserves_balance 10000 99999 (sampleSat 10005 0) fiveTree (by decide)⟩

/-- C4: for every well-formed tree and every integer id, `remove` returns a
tree in which the heights of the two subtrees of every node differ by at most
one, both for the recursively defined heights and for the cached ones. -/
theorem remove_preserves_balance (id : Int) (t : Tree) (h : WellFormed t) :
    ∃ t', remove id t = some t' ∧ Balanced t' ∧ CachedBalanced t' := by
  obtain ⟨-, hn, hb⟩ := h
  unfold remove
  obtain ⟨t', e, -⟩ := removeAux_isSome id (heightsNonneg_of_heightOK hn)
  have hb' := (removeAux_balanced id hn hb e).1
  exact ⟨t', e, hb', cachedBalanced_of_balanced (removeAux_heightOK id hn e) hb'⟩

/-- C4 at `fiveTree` and the identifier of its root, a node with two
children. -/
theorem remove_preserves_balance_witness :
    WellFormed fiveTree
      ∧ ∃ t', remove 10001 fiveTree = some t' ∧ Balanced t' ∧ CachedBalanced t' :=
  ⟨by decide, remove_preserves_balance 10001 fiveTree (by decide)⟩

/-- C5: for every tree in which every cached height equals the recursively
defined height, both `insert` (of any record) and `remove` (of any id) return
a tree in which every cached height again equals the recursively defined
height. -/
theorem heights_stay_correct (MINID MAXID : Int) (satellite : Sat) (id : Int) (t : Tree)
    (h : HeightOK t) :
    (∃ t', insert MINID MAXID satellite t = some t' ∧ HeightOK t')
      ∧ (∃ t', remove id t = some t' ∧ HeightOK t') := by
  have hnn := heightsNonneg_of_heightOK h
  constructor
  · unfold insert
    by_cases hr : satellite.m_id ≥ MINID ∧ satellite.m_id ≤ MAXID
    · obtain ⟨t', e, -⟩ := insertAux_isSome satellite hnn
      exact ⟨t', by simp [hr, e], insertAux_heightOK satellite h e⟩
    · exact ⟨t, by simp [hr], h⟩
  · unfold remove
    obtain ⟨t', e, -⟩ := removeAux_isSome id hnn
    exact ⟨t', e, removeAux_heightOK id h e⟩

/-- C5 at `fiveTree`, inserting `10005` and removing `10001`. -/
theorem heights_stay_correct_witness :
    HeightOK fiveTree
      ∧ (∃ t', insert 10000 99999 (sampleSat 10005 0) fiveTree = some t' ∧ HeightOK t')
      ∧ (∃ t', remove 10001 fiveTree = some t' ∧ HeightOK t') :=
  ⟨by decide,
    heights_stay_correct 10000 99999 (sampleSat 10005 0) 10001 fiveTree (by decide)⟩

/-- C8: for every well-formed tree and every record whose id is already in
the tree, `insert` returns the tree itself (same shape, ids, payload, states
and cached heights), hence the same dump string. -/
theorem insert_duplicate_noop (MINID MAXID : Int) (satellite : Sat) (t : Tree)
    (h : WellFormed t) (hin : satellite.m_id ∈ ids t) :
    insert MINID MAXID satellite t = some t
      ∧ (insert MINID MAXID satellite t).map dump = some (dump t) := by
  have e : insert MINID MAXID satellite t = some t := by
    unfold insert
    by_cases hr : satellite.m_id ≥ MINID ∧ satellite.m_id ≤ MAXID
    · simp only [hr, and_self, if_true]
      exact insertAux_eq_self satellite h.1 h.2.1 h.2.2 hin
    · simp only [hr, if_false]
  exact ⟨e, by rw [e]; rfl⟩

/-- C8 at `fiveTree` and a record that carries the stored identifier `10003`
with another payload and height field. -/
theorem insert_duplicate_noop_witness :
    WellFormed fiveTree
      ∧ ({ m_id := 10003, m_altitude := ALT.MI350, m_inclin := INCLIN.I97,
           m_state := STATE.DEORBITED, m_height := 9 } : Sat).m_id ∈ ids fiveTree
      ∧ insert 10000 99999
          { m_id := 10003, m_altitude := ALT.MI350, m_inclin := INCLIN.I97,
            m_state := STATE.DEORBITED, m_height := 9 } fiveTree = some fiveTree
      ∧ (insert 10000 99999
          { m_id := 10003, m_altitude := ALT.MI350, m_inclin := INCLIN.I97,
            m_state := STATE.DEORBITED, m_height := 9 } fiveTree).map dump
          = some (dump fiveTree) :=
  ⟨by decide, by decide,
    insert_duplicate_noop 10000 99999
      { m_id := 10003, m_altitude := ALT.MI350, m_inclin := INCLIN.I97,
        m_state := STATE.DEORBITED, m_height := 9 } fiveTree (by decide) (by decide)⟩

/-- C9: for every tree and every record with `id < MINID` or `id > MAXID`,
`insert` returns the tree itself; the dump of an initially empty tree stays
the empty string. -/
theorem insert_out_of_range_noop (MINID MAXID : Int) (satellite : Sat) (t : Tree)
    (h : satellite.m_id < MINID ∨ satellite.m_id > MAXID) :
    insert MINID MAXID satellite t = some t
      ∧ (insert MINID MAXID satellite null).map dump = some "" := by
  have hr : ¬ (satellite.m_id ≥ MINID ∧ satellite.m_id ≤ MAXID) := by omega
  unfold insert
  simp only [hr, if_false, Option.map_some', true_and]
  rfl

/-- C9 at the identifier `1000`, below `MINID = 10000`, on a tree that is not
well formed. -/
theorem insert_out_of_range_noop_witness :
    ((sampleSat 1000 0).m_id < 10000 ∨ (sampleSat 1000 0).m_id > 99999)
      ∧ insert 10000 99999 (sampleSat 1000 0) wrongHeightTree = some wrongHeightTree
      ∧ (insert 10000 99999 (sampleSat 1000 0) null).map dump = some "" :=
  ⟨by decide,
    insert_out_of_range_noop 10000 99999 (sampleSat 1000 0) wrongHeightTree (by decide)⟩

/-- C10: for every well-formed tree and every integer id not present in it
(in or out of the identifier range), `remove` returns the tree itself, so its
dump string is unchanged. -/
theorem remove_absent_noop (id : Int) (t : Tree) (h : WellFormed t) (hnot : id ∉ ids t) :
    remove id t = some t ∧ (remove id t).map dump = some (dump t) := by
  have e : remove id t = some t := removeAux_eq_self id h.2.1 h.2.2 hnot
  exact ⟨e, by rw [e]; rfl⟩

/-- C10 at `fiveTree` and the identifier `200000`, outside the identifier
range. -/
theorem remove_absent_noop_witness :
    WellFormed fiveTree ∧ (200000 : Int) ∉ ids fiveTree
      ∧ remove 200000 fiveTree = some fiveTree
      ∧ (remove 200000 fiveTree).map dump = some (dump fiveTree) :=
  ⟨by decide, by decide, remove_absent_noop 200000 fiveTree (by decide) (by decide)⟩

/-! ## Bulk removal of the deorbited records -/

theorem records_node (l : Tree) (s : Sat) (r : Tree) :
    records (node l s r) = records l ++ payload s :: records r := rfl

theorem keepOrbiting_sublist (L : List Record) : (keepOrbiting L).Sublist L :=
  List.filter_sublist _

theorem keepOrbiting_node_deorbited (l : Tree) (s : Sat) (r : Tree)
    (hs : s.m_state = STATE.DEORBITED) :
    keepOrbiting (records (node l s r))
      = keepOrbiting (records l) ++ keepOrbiting (records r) := by
  simp [keepOrbiting, records_node, payload, hs]

theorem keepOrbiting_node_orbiting (l : Tree) (s : Sat) (r : Tree)
    (hs : ¬ s.m_state = STATE.DEORBITED) :
    keepOrbiting (records (node l s r))
      = keepOrbiting (records l) ++ payload s :: keepOrbiting (records r) := by
  simp [keepOrbiting, records_node, payload, hs]

theorem bst_of_records_sublist {t t' : Tree} (h : (records t').Sublist (records t))
    (hb : BST t) : BST t' :=
  List.Pairwise.sublist (List.Sublist.map _ h) hb

theorem mem_ids_of_records_sublist {t t' : Tree} (h : (records t').Sublist (records t))
    {i : Int} (hi : i ∈ ids t') : i ∈ ids t :=
  (List.Sublist.map Prod.fst h).subset hi

/-- On a BST-ordered tree without negative cached heights the post-order walk
returns, keeps the cached heights non-negative and leaves exactly the records
that are not deorbited, in their order. -/
theorem removeDeorbitedAux_spec {t : Tree} (hb : BST t) (hh : HeightsNonneg t) :
    ∃ t', removeDeorbitedAux t = some t' ∧ HeightsNonneg t'
      ∧ records t' = keepOrbiting (records t) := by
  induction t with
  | null => exact ⟨null, rfl, trivial, rfl⟩
  | node l s r ihl ihr =>
    rw [bst_node_iff] at hb
    obtain ⟨hbl, hbr, hlt, hgt⟩ := hb
    obtain ⟨l', el, hl', rl'⟩ := ihl hbl hh.2.1
    obtain ⟨r', er, hr', rr'⟩ := ihr hbr hh.2.2
    have hsubl : (records l').Sublist (records l) := by
      rw [rl']
      exact keepOrbiting_sublist _
    have hsubr : (records r').Sublist (records r) := by
      rw [rr']
      exact keepOrbiting_sublist _
    simp only [removeDeorbitedAux, el, er, Option.some_bind]
    by_cases hs : s.m_state = STATE.DEORBITED
    · simp only [hs, if_true]
      have hlt' : ∀ i ∈ ids l', i < s.m_id :=
        fun i hi => hlt i (mem_ids_of_records_sublist hsubl hi)
      have hgt' : ∀ i ∈ ids r', s.m_id < i :=
        fun i hi => hgt i (mem_ids_of_records_sublist hsubr hi)
      have hb' : BST (node l' s r') := by
        rw [bst_node_iff]
        exact ⟨bst_of_records_sublist hsubl hbl, bst_of_records_sublist hsubr hbr,
          hlt', hgt'⟩
      have hn' : HeightsNonneg (node l' s r') := ⟨hh.1, hl', hr'⟩
      obtain ⟨t', e, ht'⟩ := removeAux_isSome s.m_id hn'
      refine ⟨t', e, ht', ?_⟩
      rw [removeAux_records s.m_id hb' e, keepOrbiting_node_deorbited l s r hs, records_node,
        deleteRecord_append, deleteRecord_cons_eq s.m_id (payload s) _ rfl,
        deleteRecord_eq_self, deleteRecord_eq_self, rl', rr']
      · intro z hz
        have := hgt' _ (mem_ids_of_mem_records hz)
        omega
      · intro z hz
        have := hlt' _ (mem_ids_of_mem_records hz)
        omega
    · simp only [hs, if_false]
      refine ⟨node l' s r', rfl, ⟨hh.1, hl', hr'⟩, ?_⟩
      rw [keepOrbiting_node_orbiting l s r hs, records_node, rl', rr']

theorem noDeorbited_node {l : Tree} {s : Sat} {r : Tree} (h : NoDeorbited (node l s r)) :
    NoDeorbited l ∧ s.m_state ≠ STATE.DEORBITED ∧ NoDeorbited r := by
  unfold NoDeorbited at h ⊢
  rw [records_node] at h
  refine ⟨fun p hp => h p (List.mem_append_left _ hp), ?_,
    fun p hp => h p (List.mem_append_right _ (List.mem_cons_of_mem _ hp))⟩
  exact h (payload s) (List.mem_append_right _ (List.mem_cons_self _ _))

/-- Without a deorbited node the post-order walk never calls `remove` and
rebuilds the tree it walks. -/
theorem removeDeorbitedAux_eq_self {t : Tree} (h : NoDeorbited t) :
    removeDeorbitedAux t = some t := by
  induction t with
  | null => rfl
  | node l s r ihl ihr =>
    obtain ⟨hl, hs, hr⟩ := noDeorbited_node h
    simp [removeDeorbitedAux, ihl hl, ihr hr, hs]

/-! ## Search, counting, state, copy -/

theorem findSatellite_iff (id : Int) {t : Tree} (hb : BST t) :
    findSatellite id t = true ↔ id ∈ ids t := by
  induction t with
  | null => simp [findSatellite, ids, records]
  | node l s r ihl ihr =>
    rw [bst_node_iff] at hb
    obtain ⟨hbl, hbr, hlt, hgt⟩ := hb
    rw [ids_node, List.mem_append, List.mem_cons]
    simp only [findSatellite]
    by_cases h0 : s.m_id = id
    · simp [h0]
    · by_cases h1 : id < s.m_id
      · simp only [h0, h1, if_true, if_false, ihl hbl]
        constructor
        · exact Or.inl
        · rintro (h | h | h)
          · exact h
          · exact absurd h.symm h0
          · have := hgt _ h
            omega
      · simp only [h0, h1, if_false, ihr hbr]
        constructor
        · exact fun h => Or.inr (Or.inr h)
        · rintro (h | h | h)
          · have := hlt _ h
            omega
          · exact absurd h.symm h0
          · exact h

theorem inclinations_node (l : Tree) (s : Sat) (r : Tree) :
    inclinations (node l s r) = inclinations l ++ s.m_inclin :: inclinations r := by
  simp [inclinations, records_node, payload]

theorem countSatellites_eq_count (degree : INCLIN) (t : Tree) :
    countSatellites degree t = ((inclinations t).count degree : Int) := by
  induction t with
  | null => rfl
  | node l s r ihl ihr =>
    rw [inclinations_node, List.count_append, countSatellites, ihl, ihr, List.count_cons]
    by_cases h : s.m_inclin = degree
    · simp only [h, if_true, beq_self_eq_true]
      push_cast
      omega
    · have hb : (s.m_inclin == degree) = false := by simpa using h
      simp only [h, if_false, hb, Bool.false_eq_true]
      push_cast
      omega

theorem countSatellites_total (t : Tree) :
    countSatellites INCLIN.I48 t + countSatellites INCLIN.I53 t
      + countSatellites INCLIN.I70 t + countSatellites INCLIN.I97 t = (size t : Int) := by
  induction t with
  | null => rfl
  | node l s r ihl ihr =>
    simp only [countSatellites, size]
    push_cast
    cases hs : s.m_inclin <;> simp <;> omega

theorem withState_eq_self (id : Int) (state : STATE) {t : Tree} (h : id ∉ ids t) :
    withState id state t = t := by
  induction t with
  | null => rfl
  | node l s r ihl ihr =>
    rw [ids_node, List.mem_append, List.mem_cons] at h
    push_neg at h
    have hne : ¬ s.m_id = id := fun e => h.2.1 e.symm
    simp only [withState, ihl h.1, ihr h.2.2, hne, if_false]

theorem dump_withState (id : Int) (state : STATE) (t : Tree) :
    dump (withState id state t) = dump t := by
  induction t with
  | null => rfl
  | node l s r ihl ihr =>
    simp only [withState, dump, ihl, ihr]
    by_cases h : s.m_id = id <;> simp [h]

theorem setStateAux_absent (id : Int) (state : STATE) {t : Tree} (h : id ∉ ids t) :
    setStateAux id state t = (false, t) := by
  induction t with
  | null => rfl
  | node l s r ihl ihr =>
    rw [ids_node, List.mem_append, List.mem_cons] at h
    push_neg at h
    simp only [setStateAux, ihl h.1, ihr h.2.2]
    by_cases h1 : id < s.m_id
    · simp [h1]
    · have h2 : id > s.m_id := by
        have := h.2.1
        omega
      simp [h1, h2]

theorem setStateAux_present (id : Int) (state : STATE) {t : Tree} (hb : BST t)
    (h : id ∈ ids t) :
    setStateAux id state t = (true, withState id state t) := by
  induction t with
  | null => simp [ids, records] at h
  | node l s r ihl ihr =>
    rw [bst_node_iff] at hb
    obtain ⟨hbl, hbr, hlt, hgt⟩ := hb
    rw [ids_node, List.mem_append, List.mem_cons] at h
    have hnl : id ≥ s.m_id → id ∉ ids l := by
      intro hge hin
      have := hlt _ hin
      omega
    have hnr : id ≤ s.m_id → id ∉ ids r := by
      intro hle hin
      have := hgt _ hin
      omega
    simp only [setStateAux, withState]
    by_cases h1 : id < s.m_id
    · have hin : id ∈ ids l := by
        rcases h with h | h | h
        · exact h
        · omega
        · exact absurd h (hnr (by omega))
      have hne : ¬ s.m_id = id := by omega
      simp only [h1, if_true, ihl hbl hin, hne, if_false,
        withState_eq_self id state (hnr (by omega))]
    · by_cases h2 : id > s.m_id
      · have hin : id ∈ ids r := by
          rcases h with h | h | h
          · exact absurd h (hnl (by omega))
          · omega
          · exact h
        have hne : ¬ s.m_id = id := by omega
        simp only [h1, h2, if_true, if_false, ihr hbr hin, hne,
          withState_eq_self id state (hnl (by omega))]
      · have he : s.m_id = id := by omega
        rw [withState_eq_self id state (hnl (by omega)),
          withState_eq_self id state (hnr (by omega))]
        rw [if_neg h1, if_neg h2, if_pos he]

theorem setStateAux_true_mem (id : Int) (state : STATE) {t : Tree}
    (h : (setStateAux id state t).1 = true) : id ∈ ids t := by
  by_contra hn
  rw [setStateAux_absent id state hn] at h
  exact Bool.false_ne_true h

theorem copy_eq (t : Tree) : copy t = t := by
  induction t with
  | null => rfl
  | node l s r ihl ihr => simp only [copy, ihl, ihr]

theorem records_withState (id : Int) (state : STATE) (t : Tree) :
    records (withState id state t)
      = (records t).map fun p => if p.1 = id then (p.1, p.2.1, p.2.2.1, state) else p := by
  induction t with
  | null => rfl
  | node l s r ihl ihr =>
    simp only [withState, records_node, ihl, ihr, List.map_append, List.map_cons]
    by_cases h : s.m_id = id <;> simp [h, payload]

/-! ## The claims on bulk removal, search, counting, state and assignment -/

/-- C11: for every tree satisfying the five invariants, whatever the states
of its nodes, `removeDeorbited` returns a tree in which no node has the state
`DEORBITED`. -/
theorem removeDeorbited_leaves_none (MINID MAXID : Int) (t : Tree)
    (h : FiveInvariants MINID MAXID t) :
    ∃ t', removeDeorbited t = some t' ∧ NoDeorbited t' := by
  obtain ⟨hb, -, -, -, hn⟩ := h
  obtain ⟨t', e, -, hrec⟩ := removeDeorbitedAux_spec hb (heightsNonneg_of_heightOK hn)
  refine ⟨t', e, ?_⟩
  intro p hp
  rw [hrec] at hp
  simpa using (List.mem_filter.1 hp).2

/-- C11 at the four-node tree whose left leaf `10001` is deorbited. -/
theorem removeDeorbited_leaves_none_witness :
    FiveInvariants 10000 99999 deorbitedLeftLeafTree
      ∧ ∃ t', removeDeorbited deorbitedLeftLeafTree = some t' ∧ NoDeorbited t' :=
  ⟨by decide, removeDeorbited_leaves_none 10000 99999 deorbitedLeftLeafTree (by decide)⟩

/-- C12 (the code at a failing input): the tree built by inserting `10002`,
`10001` (deorbited), `10003`, `10004` satisfies the five invariants;
`removeDeorbited` deletes the leaf `10001` and returns without updating or
rebalancing the root, whose subtrees then have heights `-1` and `1`.  The
sibling path `remove(10001)` rebalances the same tree. -/
theorem removeDeorbited_breaks_balance :
    insertAll 10000 99999
        [sampleSat 10002 0, deorbitedSat 10001 0, sampleSat 10003 0, sampleSat 10004 0] null
        = some deorbitedLeftLeafTree
      ∧ FiveInvariants 10000 99999 deorbitedLeftLeafTree
      ∧ removeDeorbited deorbitedLeftLeafTree
          = some (node null (sampleSat 10002 2)
              (node null (sampleSat 10003 1) (node null (sampleSat 10004 0) null)))
      ∧ ¬ Balanced (node null (sampleSat 10002 2)
              (node null (sampleSat 10003 1) (node null (sampleSat 10004 0) null)))
      ∧ ¬ CachedBalanced (node null (sampleSat 10002 2)
              (node null (sampleSat 10003 1) (node null (sampleSat 10004 0) null)))
      ∧ ∃ t', remove 10001 deorbitedLeftLeafTree = some t' ∧ Balanced t'
          ∧ CachedBalanced t' := by
  decide

/-- C13 (the code at a failing input): the tree built by inserting `10002`
and `10001` (deorbited) satisfies the five invariants; `removeDeorbited`
deletes the leaf `10001` and leaves the root, now a leaf, with the cached
height `1`: the dump is `(10002:1)`.  The sibling path `remove(10001)`
updates that height. -/
theorem removeDeorbited_stale_height :
    insertAll 10000 99999 [sampleSat 10002 0, deorbitedSat 10001 0] null
        = some deorbitedOnlyChildTree
      ∧ FiveInvariants 10000 99999 deorbitedOnlyChildTree
      ∧ removeDeorbited deorbitedOnlyChildTree = some (node null (sampleSat 10002 1) null)
      ∧ ¬ HeightOK (node null (sampleSat 10002 1) null)
      ∧ height (node null (sampleSat 10002 1) null) = 0
      ∧ dump (node null (sampleSat 10002 1) null) = "(10002:1)"
      ∧ remove 10001 deorbitedOnlyChildTree = some (node null (sampleSat 10002 0) null) := by
  decide

/-- C15: for every tree, whatever its shape and cached heights, in which no
node has the state `DEORBITED`, `removeDeorbited` returns the tree itself
(same shape, ids, payload and cached heights), so the dump string is
unchanged. -/
theorem removeDeorbited_identity (t : Tree) (h : NoDeorbited t) :
    removeDeorbited t = some t ∧ (removeDeorbited t).map dump = some (dump t) := by
  have e : removeDeorbited t = some t := removeDeorbitedAux_eq_self h
  exact ⟨e, by rw [e]; rfl⟩

/-- C15 at a tree that is neither balanced nor has correct cached heights. -/
theorem removeDeorbited_identity_witness :
    NoDeorbited wrongHeightTree
      ∧ removeDeorbited wrongHeightTree = some wrongHeightTree
      ∧ (removeDeorbited wrongHeightTree).map dump = some (dump wrongHeightTree) :=
  ⟨by decide, removeDeorbited_identity wrongHeightTree (by decide)⟩

/-- C16: for every BST-ordered tree and every integer id, `findSatellite`
returns true if and only if some node of the tree has that id. -/
theorem findSatellite_decides (id : Int) (t : Tree) (hb : BST t) :
    findSatellite id t = true ↔ id ∈ ids t :=
  findSatellite_iff id hb

/-- C16 at the tree of the tests: inserting `10000 .. 10004` and `99999`
gives `sixTree`, in which `99999` is found and `99998` is not. -/
theorem findSatellite_decides_witness :
    BST sixTree
      ∧ (findSatellite 99999 sixTree = true ↔ (99999 : Int) ∈ ids sixTree)
      ∧ insertAll 10000 99999
          [sampleSat 10000 0, sampleSat 10001 0, sampleSat 10002 0, sampleSat 10003 0,
            sampleSat 10004 0, sampleSat 99999 0] null = some sixTree
      ∧ findSatellite 99999 sixTree = true ∧ findSatellite 99998 sixTree = false :=
  ⟨by decide, findSatellite_decides 99999 sixTree (by decide), by decide, by decide,
    by decide⟩

/-- C17: for every tree and every inclination `d`, `countSatellites d` is the
number of nodes whose inclination is `d`; it is `0` for the empty tree and
`0` when no node has inclination `d`; the counts of the four inclinations add
up to the node count. -/
theorem countSatellites_counts (degree : INCLIN) (t : Tree) :
    countSatellites degree t = ((inclinations t).count degree : Int)
      ∧ countSatellites degree null = 0
      ∧ (degree ∉ inclinations t → countSatellites degree t = 0)
      ∧ countSatellites INCLIN.I48 t + countSatellites INCLIN.I53 t
          + countSatellites INCLIN.I70 t + countSatellites INCLIN.I97 t = (size t : Int) := by
  refine ⟨countSatellites_eq_count degree t, rfl, ?_, countSatellites_total t⟩
  intro h
  rw [countSatellites_eq_count, List.count_eq_zero_of_not_mem h]
  rfl

/-- C17 at `fiveTree`, whose five nodes all have inclination `I48`, counting
`I53`. -/
theorem countSatellites_counts_witness :
    INCLIN.I53 ∉ inclinations fiveTree
      ∧ countSatellites INCLIN.I53 fiveTree
          = ((inclinations fiveTree).count INCLIN.I53 : Int)
      ∧ countSatellites INCLIN.I53 null = 0
      ∧ (INCLIN.I53 ∉ inclinations fiveTree → countSatellites INCLIN.I53 fiveTree = 0)
      ∧ countSatellites INCLIN.I48 fiveTree + countSatellites INCLIN.I53 fiveTree
          + countSatellites INCLIN.I70 fiveTree + countSatellites INCLIN.I97 fiveTree
          = (size fiveTree : Int) :=
  ⟨by decide, countSatellites_counts INCLIN.I53 fiveTree⟩

/-- C18: for every BST-ordered tree, every id present in it and every state
`s`, `setState` returns true and the resulting tree is the old tree with the
state of the node carrying the id set to `s`: same shape, ids, altitudes,
inclinations and cached heights (same dump string), every other node keeps
its state. -/
theorem setState_present (id : Int) (state : STATE) (t : Tree) (hb : BST t)
    (hin : id ∈ ids t) :
    (setState id state t).1 = true
      ∧ (setState id state t).2 = withState id state t
      ∧ dump (setState id state t).2 = dump t
      ∧ records (setState id state t).2
          = (records t).map fun p => if p.1 = id then (p.1, p.2.1, p.2.2.1, state) else p := by
  have e : setState id state t = (true, withState id state t) :=
    setStateAux_present id state hb hin
  rw [e]
  exact ⟨rfl, rfl, dump_withState id state t, records_withState id state t⟩

/-- C18 at `fiveTree`, deorbiting the leaf `10002`. -/
theorem setState_present_witness :
    BST fiveTree ∧ (10002 : Int) ∈ ids fiveTree
      ∧ (setState 10002 STATE.DEORBITED fiveTree).1 = true
      ∧ (setState 10002 STATE.DEORBITED fiveTree).2
          = withState 10002 STATE.DEORBITED fiveTree
      ∧ dump (setState 10002 STATE.DEORBITED fiveTree).2 = dump fiveTree
      ∧ records (setState 10002 STATE.DEORBITED fiveTree).2
          = (records fiveTree).map fun p =>
              if p.1 = 10002 then (p.1, p.2.1, p.2.2.1, STATE.DEORBITED) else p :=
  ⟨by decide, by decide,
    setState_present 10002 STATE.DEORBITED fiveTree (by decide) (by decide)⟩

/-- C19: for every tree (BST-ordered or not), every id not present in it and
every state, `setState` returns false and the tree itself; and on any tree
`setState` returns true only if the id is present. -/
theorem setState_absent (id : Int) (state : STATE) (t : Tree) (hnot : id ∉ ids t) :
    (setState id state t).1 = false ∧ (setState id state t).2 = t
      ∧ ∀ u : Tree, (setState id state u).1 = true → id ∈ ids u := by
  have e : setState id state t = (false, t) := setStateAux_absent id state hnot
  rw [e]
  exact ⟨rfl, rfl, fun u hu => setStateAux_true_mem id state hu⟩

/-- C19 at the tree of `Tester::setStateEdge` and the absent id `99999`. -/
theorem setState_absent_witness :
    (99999 : Int) ∉ ids fiveTree
      ∧ (setState 99999 STATE.DEORBITED fiveTree).1 = false
      ∧ (setState 99999 STATE.DEORBITED fiveTree).2 = fiveTree
      ∧ ∀ u : Tree, (setState 99999 STATE.DEORBITED u).1 = true → (99999 : Int) ∈ ids u :=
  ⟨by decide, setState_absent 99999 STATE.DEORBITED fiveTree (by decide)⟩

/-! ## Clearing and the rebalancing step -/

theorem clearAux_eq_null (t : Tree) : clearAux t = null := by
  cases t <;> rfl

/-- C21: for every tree, `clear` leaves the empty tree: the root is absent,
the dump is the empty string, `findSatellite` is false for every id and
`countSatellites` is `0` for every inclination; `clear` on the empty tree
leaves it empty. -/
theorem clear_empties (t : Tree) :
    clear t = null ∧ clearAux t = null ∧ dump (clear t) = ""
      ∧ (∀ id : Int, findSatellite id (clear t) = false)
      ∧ (∀ degree : INCLIN, countSatellites degree (clear t) = 0)
      ∧ clear null = null := by
  have e : clear t = null := rfl
  rw [e]
  exact ⟨rfl, clearAux_eq_null t, rfl, fun _ => rfl, fun _ => rfl, rfl⟩

/-- C29: for every node whose two subtrees are AVL-balanced with correct
cached heights, whose own cached height is correct and whose balance factor
is exactly `+2` or `-2`, `rebalance` returns a subtree that is balanced at
every node, has correct cached heights, the same in-order sequence of records
and the height of the node or that height minus one. -/
theorem rebalance_repairs (l : Tree) (s : Sat) (r : Tree)
    (hn : HeightOK (node l s r)) (hbl : Balanced l) (hbr : Balanced r)
    (h2 : getBalance (node l s r) = 2 ∨ getBalance (node l s r) = -2) :
    ∃ t', rebalance (node l s r) = some t' ∧ Balanced t' ∧ HeightOK t'
      ∧ records t' = records (node l s r)
      ∧ (height t' = height (node l s r) ∨ height t' = height (node l s r) - 1) := by
  obtain ⟨t', e⟩ := rebalance_isSome (heightsNonneg_of_heightOK hn)
  have hd : height l - height r = 2 ∨ height l - height r = -2 := by
    simpa only [getBalance, childHeight_eq_height hn.2.1, childHeight_eq_height hn.2.2]
      using h2
  obtain ⟨g1, g2, g3, -⟩ := rebalance_balanced hn hbl hbr (by omega) e
  refine ⟨t', e, g1, rebalance_heightOK hn e, rebalance_records e, ?_⟩
  omega

/-- C29 at a node without left child over a right subtree of height `1`
(balance factor `-2`). -/
theorem rebalance_repairs_witness :
    HeightOK (node null (sampleSat 10002 2) rightChainTree) ∧ Balanced null
      ∧ Balanced rightChainTree
      ∧ (getBalance (node null (sampleSat 10002 2) rightChainTree) = 2
          ∨ getBalance (node null (sampleSat 10002 2) rightChainTree) = -2)
      ∧ ∃ t', rebalance (node null (sampleSat 10002 2) rightChainTree) = some t'
        ∧ Balanced t' ∧ HeightOK t'
        ∧ records t' = records (node null (sampleSat 10002 2) rightChainTree)
        ∧ (height t' = height (node null (sampleSat 10002 2) rightChainTree)
            ∨ height t' = height (node null (sampleSat 10002 2) rightChainTree) - 1) :=
  ⟨by decide, by decide, by decide, by decide,
    rebalance_repairs null (sampleSat 10002 2) rightChainTree (by decide) (by decide)
      (by decide) (by decide)⟩

/-- C30: for every node, or absent node, whose balance factor computed from
the cached child heights lies in `[-1, 1]`, `rebalance` returns the subtree
itself: no rotation and no height change. -/
theorem rebalance_noop (t : Tree) (h1 : -1 ≤ getBalance t) (h2 : getBalance t ≤ 1) :
    rebalance t = some t := by
  unfold rebalance
  have h3 : ¬ getBalance t > 1 := by omega
  have h4 : ¬ getBalance t < -1 := by omega
  simp only [h3, h4, if_false]

/-- C30 at a leaf that caches the height `1` (its balance factor is `0`) and
at the absent node. -/
theorem rebalance_noop_witness :
    -1 ≤ getBalance staleLeafTree ∧ getBalance staleLeafTree ≤ 1
      ∧ rebalance staleLeafTree = some staleLeafTree
      ∧ rebalance null = some null :=
  ⟨by decide, by decide, rebalance_noop staleLeafTree (by decide) (by decide),
    rebalance_noop null (by decide) (by decide)⟩

/-! ## The two scenarios of the tests -/

theorem insert_inRange (MINID MAXID : Int) (x : Sat) (t : Tree)
    (hlo : MINID ≤ x.m_id) (hhi : x.m_id ≤ MAXID) :
    insert MINID MAXID x t = insertAux x t := by
  unfold insert
  simp [hlo, hhi]

/-- Inserting five records with the identifiers `10000 .. 10004` in that
order into the empty tree builds `scenarioTree`, with one left rotation at
the third and one at the fifth insertion. -/
theorem insertAll_ascending (MINID MAXID : Int) (s0 s1 s2 s3 s4 : Sat)
    (h0 : s0.m_id = 10000) (h1 : s1.m_id = 10001) (h2 : s2.m_id = 10002)
    (h3 : s3.m_id = 10003) (h4 : s4.m_id = 10004)
    (hlo : MINID ≤ 10000) (hhi : 10004 ≤ MAXID) :
    insertAll MINID MAXID [s0, s1, s2, s3, s4] null = some (scenarioTree s0 s1 s2 s3 s4) := by
  simp only [insertAll, List.foldl, Option.some_bind]
  rw [insert_inRange _ _ s0 _ (by omega) (by omega)]
  simp only [insertAux, Option.some_bind]
  rw [insert_inRange _ _ s1 _ (by omega) (by omega)]
  simp [insertAux, h0, h1, updateHeight_node, childHeight, rebalance, getBalance]
  rw [insert_inRange _ _ s2 _ (by omega) (by omega)]
  simp [insertAux, h0, h1, h2, updateHeight_node, childHeight, rebalance, getBalance,
    leftRotate, rightRotate]
  rw [insert_inRange _ _ s3 _ (by omega) (by omega)]
  simp [insertAux, h0, h1, h2, h3, updateHeight_node, childHeight, rebalance, getBalance,
    leftRotate, rightRotate]
  rw [insert_inRange _ _ s4 _ (by omega) (by omega)]
  simp [insertAux, h0, h1, h2, h3, h4, updateHeight_node, childHeight, rebalance,
    getBalance, leftRotate, rightRotate, scenarioTree]

/-- C23: inserting records with the ids `10000, 10001, 10002, 10003, 10004`
in that order into the empty tree, with `MINID <= 10000` and
`10004 <= MAXID`, yields the tree whose dump is
`((10000:0)10001:2((10002:0)10003:1(10004:0)))`. -/
theorem ascending_insert_scenario (MINID MAXID : Int) (s0 s1 s2 s3 s4 : Sat)
    (h0 : s0.m_id = 10000) (h1 : s1.m_id = 10001) (h2 : s2.m_id = 10002)
    (h3 : s3.m_id = 10003) (h4 : s4.m_id = 10004)
    (hlo : MINID ≤ 10000) (hhi : 10004 ≤ MAXID) :
    (insertAll MINID MAXID [s0, s1, s2, s3, s4] null).map dump
      = some "((10000:0)10001:2((10002:0)10003:1(10004:0)))" := by
  rw [insertAll_ascending MINID MAXID s0 s1 s2 s3 s4 h0 h1 h2 h3 h4 hlo hhi]
  simp only [Option.map_some', scenarioTree, dump, h0, h1, h2, h3, h4]
  decide

/-- C23 with the records and the identifier range of `Tester::insertNormal`. -/
theorem ascending_insert_scenario_witness :
    (sampleSat 10000 0).m_id = 10000 ∧ (sampleSat 10001 0).m_id = 10001
      ∧ (sampleSat 10002 0).m_id = 10002 ∧ (sampleSat 10003 0).m_id = 10003
      ∧ (sampleSat 10004 0).m_id = 10004 ∧ (10000 : Int) ≤ 10000 ∧ (10004 : Int) ≤ 99999
      ∧ (insertAll 10000 99999
          [sampleSat 10000 0, sampleSat 10001 0, sampleSat 10002 0, sampleSat 10003 0,
            sampleSat 10004 0] null).map dump
          = some "((10000:0)10001:2((10002:0)10003:1(10004:0)))" :=
  ⟨rfl, rfl, rfl, rfl, rfl, by decide, by decide,
    ascending_insert_scenario 10000 99999 (sampleSat 10000 0) (sampleSat 10001 0)
      (sampleSat 10002 0) (sampleSat 10003 0) (sampleSat 10004 0) rfl rfl rfl rfl rfl
      (by decide) (by decide)⟩

/-- C24: starting from the tree obtained by inserting `10000 .. 10004` in
ascending order into the empty tree, `remove(10000)`, `remove(10001)`,
`remove(10003)` in that order yield the tree whose dump is
`((10002:0)10004:1)`. -/
theorem removal_scenario (MINID MAXID : Int) (s0 s1 s2 s3 s4 : Sat)
    (h0 : s0.m_id = 10000) (h1 : s1.m_id = 10001) (h2 : s2.m_id = 10002)
    (h3 : s3.m_id = 10003) (h4 : s4.m_id = 10004)
    (hlo : MINID ≤ 10000) (hhi : 10004 ≤ MAXID) :
    ((((insertAll MINID MAXID [s0, s1, s2, s3, s4] null).bind (remove 10000)).bind
        (remove 10001)).bind (remove 10003)).map dump
      = some "((10002:0)10004:1)" := by
  rw [insertAll_ascending MINID MAXID s0 s1 s2 s3 s4 h0 h1 h2 h3 h4 hlo hhi]
  simp [scenarioTree, remove, removeAux_node, removeAux, successor, h0, h1, h2, h3, h4,
    updateHeight_node, updateHeight, childHeight, rebalance, getBalance, leftRotate,
    rightRotate, dump]
  decide

/-- C24 with the records and the identifier range of `Tester::removeNormal`. -/
theorem removal_scenario_witness :
    (sampleSat 10000 0).m_id = 10000 ∧ (sampleSat 10001 0).m_id = 10001
      ∧ (sampleSat 10002 0).m_id = 10002 ∧ (sampleSat 10003 0).m_id = 10003
      ∧ (sampleSat 10004 0).m_id = 10004 ∧ (10000 : Int) ≤ 10000 ∧ (10004 : Int) ≤ 99999
      ∧ ((((insertAll 10000 99999
          [sampleSat 10000 0, sampleSat 10001 0, sampleSat 10002 0, sampleSat 10003 0,
            sampleSat 10004 0] null).bind (remove 10000)).bind (remove 10001)).bind
          (remove 10003)).map dump
          = some "((10002:0)10004:1)" :=
  ⟨rfl, rfl, rfl, rfl, rfl, by decide, by decide,
    removal_scenario 10000 99999 (sampleSat 10000 0) (sampleSat 10001 0)
      (sampleSat 10002 0) (sampleSat 10003 0) (sampleSat 10004 0) rfl rfl rfl rfl rfl
      (by decide) (by decide)⟩

/-! ## Reachable trees -/

theorem setStateAux_ids (id : Int) (state : STATE) (t : Tree) :
    ids (setStateAux id state t).2 = ids t := by
  induction t with
  | null => rfl
  | node l s r ihl ihr =>
    simp only [setStateAux]
    by_cases h1 : id < s.m_id
    · simp only [h1, if_true, ids_node, ihl]
    · by_cases h2 : id > s.m_id
      · simp only [h1, h2, if_true, if_false, ids_node, ihr]
      · simp only [h1, h2, if_false, ids_node]

theorem setStateAux_nonneg (id : Int) (state : STATE) {t : Tree} (h : HeightsNonneg t) :
    HeightsNonneg (setStateAux id state t).2 := by
  induction t with
  | null => trivial
  | node l s r ihl ihr =>
    simp only [setStateAux]
    by_cases h1 : id < s.m_id
    · simp only [h1, if_true]
      exact ⟨h.1, ihl h.2.1, h.2.2⟩
    · by_cases h2 : id > s.m_id
      · simp only [h1, h2, if_true, if_false]
        exact ⟨h.1, h.2.1, ihr h.2.2⟩
      · simp only [h1, h2, if_false]
        exact ⟨h.1, h.2.1, h.2.2⟩

/-- What every operation keeps: BST order, no negative cached height,
identifiers in the range. -/
theorem reachable_invariant {MINID MAXID : Int} {t : Tree} (h : Reachable MINID MAXID t) :
    BST t ∧ HeightsNonneg t ∧ ∀ i ∈ ids t, MINID ≤ i ∧ i ≤ MAXID := by
  induction h with
  | empty => exact ⟨by simp [BST, ids, records], trivial, by simp [ids, records]⟩
  | @byInsert t t' x _ e ih =>
    obtain ⟨hb, hn, hr⟩ := ih
    unfold insert at e
    by_cases hx : x.m_id ≥ MINID ∧ x.m_id ≤ MAXID
    · simp only [hx, and_self, if_true] at e
      obtain ⟨t'', e', hn'⟩ := insertAux_isSome x hn
      rw [e, Option.some.injEq] at e'
      subst e'
      have hrec := insertAux_records x hb e
      refine ⟨?_, hn', ?_⟩
      · unfold BST ids
        rw [hrec]
        exact insertRecord_sorted _ _ hb
      · intro i hi
        obtain ⟨p, hp, rfl⟩ := List.mem_map.1 hi
        rw [hrec] at hp
        rcases mem_insertRecord hp with rfl | hp
        · exact ⟨hx.1, hx.2⟩
        · exact hr _ (mem_ids_of_mem_records hp)
    · simp only [hx, if_false, Option.some.injEq] at e
      subst e
      exact ⟨hb, hn, hr⟩
  | @byRemove t t' id _ e ih =>
    obtain ⟨hb, hn, hr⟩ := ih
    unfold remove at e
    obtain ⟨t'', e', hn'⟩ := removeAux_isSome id hn
    rw [e, Option.some.injEq] at e'
    subst e'
    have hsub : (records t').Sublist (records t) := by
      rw [removeAux_records id hb e]
      exact List.filter_sublist _
    exact ⟨bst_of_records_sublist hsub hb, hn',
      fun i hi => hr i (mem_ids_of_records_sublist hsub hi)⟩
  | @byRemoveDeorbited t t' _ e ih =>
    obtain ⟨hb, hn, hr⟩ := ih
    unfold removeDeorbited at e
    obtain ⟨t'', e', hn', hrec⟩ := removeDeorbitedAux_spec hb hn
    rw [e, Option.some.injEq] at e'
    subst e'
    have hsub : (records t').Sublist (records t) := by
      rw [hrec]
      exact keepOrbiting_sublist _
    exact ⟨bst_of_records_sublist hsub hb, hn',
      fun i hi => hr i (mem_ids_of_records_sublist hsub hi)⟩
  | @bySetState t id state _ ih =>
    obtain ⟨hb, hn, hr⟩ := ih
    have hi : ids (setState id state t).2 = ids t := setStateAux_ids id state t
    refine ⟨?_, setStateAux_nonneg id state hn, ?_⟩
    · unfold BST
      rw [hi]
      exact hb
    · rw [hi]
      exact hr
  | @byClear t _ _ => exact ⟨by simp [clear, BST, ids, records], trivial,
      by simp [clear, ids, records]⟩
  | @byAssign dst src self _ _ ihd ihs =>
    cases self with
    | true => simpa [assign] using ihd
    | false =>
      have e : assign false dst src = src := by
        simp only [assign, Bool.false_eq_true, if_false]
        exact copy_eq src
      rw [e]
      exact ihs

/-- C25: every tree reachable from the empty tree by a finite sequence of
`insert`, `remove`, `removeDeorbited` and `setState` calls (and of `clear` and
assignments) holds no identifier twice and only identifiers in
`[MINID, MAXID]`. -/
theorem reachable_unique_in_range (MINID MAXID : Int) (t : Tree)
    (h : Reachable MINID MAXID t) :
    (ids t).Nodup ∧ ∀ i ∈ ids t, MINID ≤ i ∧ i ≤ MAXID := by
  obtain ⟨hb, -, hr⟩ := reachable_invariant h
  exact ⟨List.Sorted.nodup hb, hr⟩

/-- C25 at the tree reached by `insert(10002)` and `insert(10001)`. -/
theorem reachable_unique_in_range_witness :
    Reachable 10000 99999 deorbitedOnlyChildTree
      ∧ (ids deorbitedOnlyChildTree).Nodup
      ∧ ∀ i ∈ ids deorbitedOnlyChildTree, (10000 : Int) ≤ i ∧ i ≤ 99999 :=
  have hr : Reachable 10000 99999 deorbitedOnlyChildTree :=
    @Reachable.byInsert 10000 99999 (node null (sampleSat 10002 0) null)
      deorbitedOnlyChildTree (deorbitedSat 10001 0)
      (@Reachable.byInsert 10000 99999 null (node null (sampleSat 10002 0) null)
        (sampleSat 10002 0) Reachable.empty (by decide))
      (by decide)
  ⟨hr, reachable_unique_in_range 10000 99999 deorbitedOnlyChildTree hr⟩

/-- C27: for every well-formed tree and every id present in it,
`setState(id, DEORBITED)` returns true and after the following
`removeDeorbited` `findSatellite(id)` is false, while `findSatellite(j)` is
true for every other id `j` that was present with a state other than
`DEORBITED`. -/
theorem deorbit_then_purge (id : Int) (t : Tree) (h : WellFormed t) (hin : id ∈ ids t) :
    (setState id STATE.DEORBITED t).1 = true
      ∧ ∃ t2, removeDeorbited (setState id STATE.DEORBITED t).2 = some t2
        ∧ findSatellite id t2 = false
        ∧ ∀ p ∈ records t, p.1 ≠ id → p.2.2.2 ≠ STATE.DEORBITED →
            findSatellite p.1 t2 = true := by
  obtain ⟨hb, hn, -⟩ := h
  have e : setState id STATE.DEORBITED t = (true, withState id STATE.DEORBITED t) :=
    setStateAux_present id STATE.DEORBITED hb hin
  have hids : ids (withState id STATE.DEORBITED t) = ids t := by
    have := setStateAux_ids id STATE.DEORBITED t
    rwa [show setStateAux id STATE.DEORBITED t = (true, withState id STATE.DEORBITED t)
      from e] at this
  have hb1 : BST (withState id STATE.DEORBITED t) := by
    unfold BST
    rw [hids]
    exact hb
  have hn1 : HeightsNonneg (withState id STATE.DEORBITED t) := by
    have := setStateAux_nonneg id STATE.DEORBITED (heightsNonneg_of_heightOK hn)
    rwa [show setStateAux id STATE.DEORBITED t = (true, withState id STATE.DEORBITED t)
      from e] at this
  obtain ⟨t2, e2, -, hrec⟩ := removeDeorbitedAux_spec hb1 hn1
  have hb2 : BST t2 := by
    refine bst_of_records_sublist ?_ hb1
    rw [hrec]
    exact keepOrbiting_sublist _
  rw [e]
  refine ⟨rfl, t2, e2, ?_, ?_⟩
  · rw [← Bool.not_eq_true, findSatellite_iff id hb2]
    intro hmem
    obtain ⟨p, hp, hpid⟩ := List.mem_map.1 hmem
    rw [hrec] at hp
    obtain ⟨hp1, hp2⟩ := List.mem_filter.1 hp
    rw [records_withState] at hp1
    obtain ⟨q, -, hq⟩ := List.mem_map.1 hp1
    by_cases hqi : q.1 = id
    · rw [if_pos hqi] at hq
      subst hq
      simp at hp2
    · rw [if_neg hqi] at hq
      subst hq
      exact hqi hpid
  · intro p hp hne hst
    rw [findSatellite_iff p.1 hb2]
    refine mem_ids_of_mem_records ?_
    rw [hrec]
    refine List.mem_filter.2 ⟨?_, by simpa using hst⟩
    rw [records_withState]
    exact List.mem_map.2 ⟨p, hp, by rw [if_neg hne]⟩

/-- C27 at `fiveTree`, deorbiting and purging its root `10001`. -/
theorem deorbit_then_purge_witness :
    WellFormed fiveTree ∧ (10001 : Int) ∈ ids fiveTree
      ∧ (setState 10001 STATE.DEORBITED fiveTree).1 = true
      ∧ ∃ t2, removeDeorbited (setState 10001 STATE.DEORBITED fiveTree).2 = some t2
        ∧ findSatellite 10001 t2 = false
        ∧ ∀ p ∈ records fiveTree, p.1 ≠ 10001 → p.2.2.2 ≠ STATE.DEORBITED →
            findSatellite p.1 t2 = true :=
  ⟨by decide, by decide, deorbit_then_purge 10001 fiveTree (by decide) (by decide)⟩

/-- C28 (the code at a failing input): `insert(10002)`, `insert(10001)` with
state `DEORBITED` and `removeDeorbited()` reach the single node `(10002:1)`;
the identifier `10005` is not in it, yet `remove(10005)` updates the height of
the root on its way back and the dump becomes `(10002:0)`. -/
theorem remove_absent_changes_stale_dump :
    (insertAll 10000 99999 [sampleSat 10002 0, deorbitedSat 10001 0] null).bind
        removeDeorbited = some staleLeafTree
      ∧ Reachable 10000 99999 staleLeafTree
      ∧ (10005 : Int) ∉ ids staleLeafTree
      ∧ dump staleLeafTree = "(10002:1)"
      ∧ remove 10005 staleLeafTree = some (node null (sampleSat 10002 0) null)
      ∧ dump (node null (sampleSat 10002 0) null) = "(10002:0)"
      ∧ (remove 10005 staleLeafTree).map dump ≠ some (dump staleLeafTree) :=
  ⟨by decide,
    @Reachable.byRemoveDeorbited 10000 99999 deorbitedOnlyChildTree staleLeafTree
      (@Reachable.byInsert 10000 99999 (node null (sampleSat 10002 0) null)
        deorbitedOnlyChildTree (deorbitedSat 10001 0)
        (@Reachable.byInsert 10000 99999 null (node null (sampleSat 10002 0) null)
          (sampleSat 10002 0) Reachable.empty (by decide))
        (by decide))
      (by decide),
    by decide, by decide, by decide, by decide, by decide⟩

/-! ## Decimal texts -/

theorem digitChar_facts : ∀ k, k < 10 →
    (Nat.digitChar k).toNat - 48 = k ∧ Nat.digitChar k ≠ '(' ∧ Nat.digitChar k ≠ ')'
      ∧ Nat.digitChar k ≠ ':' ∧ Nat.digitChar k ≠ '-' := by
  decide

theorem digitsValue_append_singleton (pre : List Char) (d : Char) :
    digitsValue (pre ++ [d]) = 10 * digitsValue pre + (d.toNat - 48) := by
  simp [digitsValue, List.foldl_append]

theorem toDigitsCore_spec (fuel : Nat) : ∀ (n : Nat) (ds : List Char), n < fuel →
    ∃ pre, Nat.toDigitsCore 10 fuel n ds = pre ++ ds ∧ digitsValue pre = n ∧ pre ≠ []
      ∧ ∀ c ∈ pre, ∃ k, k < 10 ∧ c = Nat.digitChar k := by
  induction fuel with
  | zero => intro n ds h; omega
  | succ fuel ih =>
    intro n ds h
    have hmod : n % 10 < 10 := Nat.mod_lt _ (by decide)
    simp only [Nat.toDigitsCore]
    by_cases h0 : n / 10 = 0
    · simp only [h0, if_true]
      refine ⟨[Nat.digitChar (n % 10)], rfl, ?_, by simp, ?_⟩
      · have := (digitChar_facts _ hmod).1
        simp only [digitsValue, List.foldl, this]
        omega
      · intro c hc
        rw [List.mem_singleton] at hc
        exact ⟨n % 10, hmod, hc⟩
    · simp only [h0, if_false]
      obtain ⟨pre, e, hv, hne, hd⟩ := ih (n / 10) (Nat.digitChar (n % 10) :: ds) (by omega)
      refine ⟨pre ++ [Nat.digitChar (n % 10)], by simp [e], ?_, by simp, ?_⟩
      · rw [digitsValue_append_singleton, hv, (digitChar_facts _ hmod).1]
        omega
      · intro c hc
        rcases List.mem_append.1 hc with hc | hc
        · exact hd c hc
        · rw [List.mem_singleton] at hc
          exact ⟨n % 10, hmod, hc⟩

theorem natText_spec (n : Nat) :
    digitsValue (toString n).data = n ∧ (toString n).data ≠ []
      ∧ ∀ c ∈ (toString n).data, ∃ k, k < 10 ∧ c = Nat.digitChar k := by
  obtain ⟨pre, e, hv, hne, hd⟩ := toDigitsCore_spec (n + 1) n [] (by omega)
  have hdata : (toString n).data = pre := by
    show Nat.toDigitsCore 10 (n + 1) n [] = pre
    rw [e, List.append_nil]
  rw [hdata]
  exact ⟨hv, hne, hd⟩

theorem intText_ofNat (n : Nat) : (toString (Int.ofNat n)).data = (toString n).data := rfl

theorem intText_negSucc (n : Nat) :
    (toString (Int.negSucc n)).data = '-' :: (toString (n + 1)).data := rfl

theorem intText_ne_nil (i : Int) : (toString i).data ≠ [] := by
  cases i with
  | ofNat n => rw [intText_ofNat]; exact (natText_spec n).2.1
  | negSucc n => rw [intText_negSucc]; simp

theorem intText_chars (i : Int) :
    ∀ c ∈ (toString i).data, c ≠ '(' ∧ c ≠ ')' ∧ c ≠ ':' := by
  have hnat : ∀ n : Nat, ∀ c ∈ (toString n).data, c ≠ '(' ∧ c ≠ ')' ∧ c ≠ ':' := by
    intro n c hc
    obtain ⟨k, hk, rfl⟩ := (natText_spec n).2.2 c hc
    have := digitChar_facts k hk
    exact ⟨this.2.1, this.2.2.1, this.2.2.2.1⟩
  cases i with
  | ofNat n => rw [intText_ofNat]; exact hnat n
  | negSucc n =>
    rw [intText_negSucc]
    intro c hc
    rcases List.mem_cons.1 hc with rfl | hc
    · decide
    · exact hnat _ c hc

theorem natText_inj {a b : Nat} (h : (toString a).data = (toString b).data) : a = b := by
  rw [← (natText_spec a).1, ← (natText_spec b).1, h]

theorem natText_head_ne_minus (n : Nat) (rest : List Char) :
    (toString n).data ≠ '-' :: rest := by
  intro h
  have hmem : '-' ∈ (toString n).data := by rw [h]; exact List.mem_cons_self _ _
  obtain ⟨k, hk, e⟩ := (natText_spec n).2.2 _ hmem
  exact (digitChar_facts k hk).2.2.2.2 e.symm

theorem intText_inj {i j : Int} (h : (toString i).data = (toString j).data) : i = j := by
  cases i with
  | ofNat a =>
    cases j with
    | ofNat b =>
      rw [intText_ofNat, intText_ofNat] at h
      rw [natText_inj h]
    | negSucc b =>
      rw [intText_ofNat, intText_negSucc] at h
      exact absurd h (natText_head_ne_minus _ _)
  | negSucc a =>
    cases j with
    | ofNat b =>
      rw [intText_ofNat, intText_negSucc] at h
      exact absurd h.symm (natText_head_ne_minus _ _)
    | negSucc b =>
      rw [intText_negSucc, intText_negSucc] at h
      have := natText_inj (List.cons.inj h).2
      have : a = b := by omega
      rw [this]

/-- Two texts cut at the first occurrence of a separator agree part by part. -/
theorem split_at_separator (c : Char) : ∀ (a b x y : List Char),
    c ∉ a → c ∉ b → a ++ c :: x = b ++ c :: y → a = b ∧ x = y := by
  intro a
  induction a with
  | nil =>
    intro b x y _ hb h
    cases b with
    | nil => exact ⟨rfl, by simpa using h⟩
    | cons d b =>
      simp only [List.nil_append, List.cons_append, List.cons.injEq] at h
      exact absurd (h.1 ▸ List.mem_cons_self _ _) hb
  | cons d a ih =>
    intro b x y ha hb h
    cases b with
    | nil =>
      simp only [List.nil_append, List.cons_append, List.cons.injEq] at h
      exact absurd (h.1 ▸ List.mem_cons_self _ _) ha
    | cons e b =>
      simp only [List.cons_append, List.cons.injEq] at h
      obtain ⟨e1, e2⟩ := ih b x y (fun hm => ha (List.mem_cons_of_mem _ hm))
        (fun hm => hb (List.mem_cons_of_mem _ hm)) h.2
      exact ⟨by rw [h.1, e1], e2⟩

/-- Two texts that start with characters of one class and go on with a
character outside that class agree part by part. -/
theorem split_at_class (P : Char → Prop) : ∀ (a b x y : List Char),
    (∀ c ∈ a, P c) → (∀ c ∈ b, P c) → (∀ c, x.head? = some c → ¬ P c) →
    (∀ c, y.head? = some c → ¬ P c) →
    a ++ x = b ++ y → a = b ∧ x = y := by
  intro a
  induction a with
  | nil =>
    intro b x y _ hb hx _ h
    cases b with
    | nil => exact ⟨rfl, by simpa using h⟩
    | cons d b =>
      simp only [List.nil_append, List.cons_append] at h
      exact absurd (hb d (List.mem_cons_self _ _)) (hx d (by rw [h]; rfl))
  | cons d a ih =>
    intro b x y ha hb hx hy h
    cases b with
    | nil =>
      simp only [List.nil_append, List.cons_append] at h
      exact absurd (ha d (List.mem_cons_self _ _)) (hy d (by rw [← h]; rfl))
    | cons e b =>
      simp only [List.cons_append, List.cons.injEq] at h
      obtain ⟨e1, e2⟩ := ih b x y (fun c hc => ha c (List.mem_cons_of_mem _ hc))
        (fun c hc => hb c (List.mem_cons_of_mem _ hc)) hx hy h.2
      exact ⟨by rw [h.1, e1], e2⟩


/-! ## The text of the dump -/

theorem dump_data_node (l : Tree) (s : Sat) (r : Tree) :
    (dump (node l s r)).data
      = '(' :: ((dump l).data ++ ((toString s.m_id).data
          ++ ':' :: ((toString s.m_height).data ++ ((dump r).data ++ [')'])))) := by
  simp only [dump, String.data_append, List.append_assoc]
  rfl

theorem dump_dumpView (t : Tree) : dump (dumpView t) = dump t := by
  induction t with
  | null => rfl
  | node l s r ihl ihr => simp only [dumpView, dump, ihl, ihr]

/-- A dump followed by a text that does not start with an opening
parenthesis can be read back in one way only. -/
theorem dump_unique (t1 : Tree) : ∀ (t2 : Tree) (x y : List Char),
    x.head? ≠ some '(' → y.head? ≠ some '(' →
    (dump t1).data ++ x = (dump t2).data ++ y → dumpView t1 = dumpView t2 ∧ x = y := by
  induction t1 with
  | null =>
    intro t2 x y hx hy h
    cases t2 with
    | null => exact ⟨rfl, by simpa [dump] using h⟩
    | node l s r =>
      rw [dump_data_node] at h
      simp only [dump, List.nil_append] at h
      exact absurd (by rw [h]; rfl) hx
  | node l1 s1 r1 ihl ihr =>
    intro t2 x y hx hy h
    cases t2 with
    | null =>
      rw [dump_data_node] at h
      simp only [dump, List.nil_append] at h
      exact absurd (by rw [← h]; rfl) hy
    | node l2 s2 r2 =>
      rw [dump_data_node, dump_data_node] at h
      simp only [List.cons_append, List.append_assoc, List.cons.injEq, true_and] at h
      have hnum : ∀ (i : Int) (z : List Char), ((toString i).data ++ z).head? ≠ some '(' := by
        intro i z hz
        cases hd : (toString i).data with
        | nil => exact intText_ne_nil i hd
        | cons c cs =>
          rw [hd] at hz
          simp only [List.cons_append, List.head?_cons, Option.some.injEq] at hz
          exact (intText_chars i c (by rw [hd]; exact List.mem_cons_self _ _)).1 hz
      obtain ⟨hl, h⟩ := ihl l2 _ _ (hnum _ _) (hnum _ _) h
      obtain ⟨hid, h⟩ := split_at_separator ':' _ _ _ _
        (fun hm => (intText_chars _ _ hm).2.2 rfl) (fun hm => (intText_chars _ _ hm).2.2 rfl) h
      have hparen : ∀ (t : Tree) (z : List Char) (c : Char),
          ((dump t).data ++ (')' :: z)).head? = some c → ¬ (c ≠ '(' ∧ c ≠ ')' ∧ c ≠ ':') := by
        intro t z c hc hP
        cases t with
        | null =>
          simp only [dump, List.nil_append, List.head?_cons, Option.some.injEq] at hc
          exact hP.2.1 hc.symm
        | node l s r =>
          rw [dump_data_node] at hc
          simp only [List.cons_append, List.head?_cons, Option.some.injEq] at hc
          exact hP.1 hc.symm
      obtain ⟨hh, h⟩ := split_at_class (fun c => c ≠ '(' ∧ c ≠ ')' ∧ c ≠ ':') _ _ _ _
        (intText_chars _) (intText_chars _) (hparen r1 x) (hparen r2 y) h
      obtain ⟨hr, h⟩ := ihr r2 (')' :: x) (')' :: y) (by simp) (by simp) h
      refine ⟨?_, (List.cons.inj h).2⟩
      simp only [dumpView, hl, hr, intText_inj hid, intText_inj hh]

theorem dump_eq_iff (t1 t2 : Tree) : dump t1 = dump t2 ↔ dumpView t1 = dumpView t2 := by
  constructor
  · intro h
    have h' : (dump t1).data ++ [] = (dump t2).data ++ [] := by rw [h]
    exact (dump_unique t1 t2 [] [] (by simp) (by simp) h').1
  · intro h
    rw [← dump_dumpView t1, ← dump_dumpView t2, h]

theorem dump_without_parentheses (t : Tree) :
    (dump t).data.filter (fun c => decide (c ≠ '(' ∧ c ≠ ')'))
      = (labels t).flatMap fun p => (toString p.1 ++ ":" ++ toString p.2).data := by
  have hnum : ∀ i : Int, (toString i).data.filter (fun c => decide (c ≠ '(' ∧ c ≠ ')'))
      = (toString i).data := by
    intro i
    rw [List.filter_eq_self]
    intro c hc
    have := intText_chars i c hc
    simp [this.1, this.2.1]
  have hcolon : (":" : String).data = [':'] := rfl
  induction t with
  | null => rfl
  | node l s r ihl ihr =>
    rw [dump_data_node, List.filter_cons_of_neg (by decide), List.filter_append,
      List.filter_append, List.filter_cons_of_pos (by decide), List.filter_append,
      List.filter_append, List.filter_cons_of_neg (by decide), List.filter_nil, hnum, hnum,
      ihl, ihr]
    simp only [labels, List.flatMap_append, List.flatMap_cons, String.data_append, hcolon,
      List.append_assoc, List.append_nil, List.cons_append, List.nil_append]

/-- C22: the dump of an absent node is the empty string and the dump of a
node is `(`, the dump of the left subtree, the decimal id, `:`, the decimal
cached height, the dump of the right subtree, `)`; so without its
parentheses the dump is the in-order sequence of the texts `id:height`, and
two trees have the same dump string if and only if they have the same shape,
ids and cached heights (for ids and heights of either sign). -/
theorem dump_format (t1 t2 : Tree) :
    dump null = ""
      ∧ (∀ (l : Tree) (s : Sat) (r : Tree), dump (node l s r)
          = "(" ++ dump l ++ toString s.m_id ++ ":" ++ toString s.m_height ++ dump r ++ ")")
      ∧ (∀ n : Nat, digitsValue (toString (Int.ofNat n)).data = n)
      ∧ (dump t1).data.filter (fun c => decide (c ≠ '(' ∧ c ≠ ')'))
          = (labels t1).flatMap (fun p => (toString p.1 ++ ":" ++ toString p.2).data)
      ∧ (dump t1 = dump t2 ↔ dumpView t1 = dumpView t2) :=
  ⟨rfl, fun _ _ _ => rfl, fun n => (natText_spec n).1, dump_without_parentheses t1,
    dump_eq_iff t1 t2⟩

/-! ## Rotations, two-child removal, height arithmetic, logarithmic height -/

/-- C31: on a node with a present left child `rightRotate` makes the former
left child the root of the subtree, the former root its right child and the
former left-right grandchild the left child of the old root, with the in-order
sequence of records unchanged; symmetrically for `leftRotate` on a node with
a present right child.  When the three subtrees hung below the two relinked
nodes have correct cached heights, so has the rotated subtree. -/
theorem rotations_preserve (ll : Tree) (ls : Sat) (lr : Tree) (s : Sat) (r : Tree) :
    rightRotate (node (node ll ls lr) s r)
        = some (node ll
            { ls with m_height :=
                1 + max (childHeight ll) (1 + max (childHeight lr) (childHeight r)) }
            (node lr { s with m_height := 1 + max (childHeight lr) (childHeight r) } r))
      ∧ (∀ t', rightRotate (node (node ll ls lr) s r) = some t' →
          records t' = records (node (node ll ls lr) s r)
            ∧ (HeightOK ll → HeightOK lr → HeightOK r → HeightOK t'))
      ∧ leftRotate (node ll s (node lr ls r))
        = some (node
            (node ll { s with m_height := 1 + max (childHeight ll) (childHeight lr) } lr)
            { ls with m_height :=
                1 + max (1 + max (childHeight ll) (childHeight lr)) (childHeight r) }
            r)
      ∧ (∀ t', leftRotate (node ll s (node lr ls r)) = some t' →
          records t' = records (node ll s (node lr ls r))
            ∧ (HeightOK ll → HeightOK lr → HeightOK r → HeightOK t')) := by
  refine ⟨?_, ?_, ?_, ?_⟩
  · simp only [rightRotate, updateHeight_node, childHeight]
  · intro t' h
    simp only [rightRotate, Option.some.injEq] at h
    subst h
    refine ⟨by simp [updateHeight_node, records, payload], fun h1 h2 h3 => ?_⟩
    exact updateHeight_heightOK _ h1 (updateHeight_heightOK _ h2 h3)
  · simp only [leftRotate, updateHeight_node, childHeight]
  · intro t' h
    simp only [leftRotate, Option.some.injEq] at h
    subst h
    refine ⟨by simp [updateHeight_node, records, payload], fun h1 h2 h3 => ?_⟩
    exact updateHeight_heightOK _ (updateHeight_heightOK _ h1 h2) h3

/-- C31 at the root of `fiveTree` for the right rotation and at the same
three subtrees for the left rotation. -/
theorem rotations_preserve_witness :
    rightRotate fiveTree
        = some (node null (sampleSat 10000 3)
            (node null (sampleSat 10001 2)
              (node (node null (sampleSat 10002 0) null) (sampleSat 10003 1)
                (node null (sampleSat 10004 0) null))))
      ∧ ∀ t', rightRotate fiveTree = some t' → records t' = records fiveTree
          ∧ (HeightOK null → HeightOK null →
              HeightOK (node (node null (sampleSat 10002 0) null) (sampleSat 10003 1)
                (node null (sampleSat 10004 0) null)) → HeightOK t') :=
  have h := rotations_preserve null (sampleSat 10000 0) null (sampleSat 10001 2)
    (node (node null (sampleSat 10002 0) null) (sampleSat 10003 1)
      (node null (sampleSat 10004 0) null))
  ⟨h.1, h.2.1⟩

theorem searchNode_id (id : Int) {t l r : Tree} {s : Sat}
    (h : searchNode id t = node l s r) : s.m_id = id := by
  induction t with
  | null => simp [searchNode] at h
  | node a b c iha ihc =>
    simp only [searchNode] at h
    by_cases h1 : id < b.m_id
    · simp only [h1, if_true] at h
      exact iha h
    · by_cases h2 : id > b.m_id
      · simp only [h1, h2, if_true, if_false] at h
        exact ihc h
      · simp only [h1, h2, if_false, Tree.node.injEq] at h
        rw [← h.2.1]
        omega

theorem bst_searchNode (id : Int) {t : Tree} (hb : BST t) : BST (searchNode id t) := by
  induction t with
  | null => exact hb
  | node a b c iha ihc =>
    have hb0 := hb
    rw [bst_node_iff] at hb
    simp only [searchNode]
    by_cases h1 : id < b.m_id
    · simp only [h1, if_true]
      exact iha hb.1
    · by_cases h2 : id > b.m_id
      · simp only [h1, h2, if_true, if_false]
        exact ihc hb.2.1
      · simp only [h1, h2, if_false]
        exact hb0

/-- In a BST-ordered subtree the descent for the identifier of the record
reached by the successor loop ends at a node without left child that carries
that record. -/
theorem searchNode_successor (rl : Tree) (rs : Sat) (rr : Tree) (hb : BST (node rl rs rr)) :
    ∃ fr, searchNode (successor rs rl).m_id (node rl rs rr) = node null (successor rs rl) fr := by
  induction rl generalizing rs rr with
  | null => exact ⟨rr, by simp [searchNode, successor]⟩
  | node a b c iha _ =>
    rw [bst_node_iff] at hb
    obtain ⟨fr, e⟩ := iha b c hb.1
    obtain ⟨rest, hrest⟩ := records_successor a b c
    have hmem : (successor b a).m_id ∈ ids (node a b c) := by
      unfold ids
      rw [hrest]
      exact List.mem_cons_self _ _
    have hlt := hb.2.2.1 _ hmem
    refine ⟨fr, ?_⟩
    have hs : successor rs (node a b c) = successor b a := rfl
    rw [hs]
    have hstep : searchNode (successor b a).m_id (node (node a b c) rs rr)
        = searchNode (successor b a).m_id (node a b c) := by
      rw [searchNode.eq_2]
      simp only [hlt, if_true]
    rw [hstep, e]

theorem insertAux_congr {x y : Sat} (h : payload x = payload y) (t : Tree) :
    insertAux x t = insertAux y t := by
  simp only [payload, Prod.mk.injEq] at h
  obtain ⟨h1, h2, h3, h4⟩ := h
  induction t with
  | null => simp only [insertAux, h1, h2, h3, h4]
  | node l s r ihl ihr => simp only [insertAux, h1, ihl, ihr]

/-- C33: for every tree and every two records that agree on id, altitude,
inclination and state, whatever their height fields, `insert` yields the same
tree; a node created by `insert` has the cached height `0` and the id,
altitude, inclination and state of the argument. -/
theorem insert_ignores_height (MINID MAXID : Int) (x y : Sat) (t : Tree)
    (h : payload x = payload y) :
    insert MINID MAXID x t = insert MINID MAXID y t
      ∧ insertAux x null
        = some (node null
            { m_id := x.m_id, m_altitude := x.m_altitude, m_inclin := x.m_inclin,
              m_state := x.m_state, m_height := 0 } null) := by
  refine ⟨?_, rfl⟩
  have hid : x.m_id = y.m_id := congrArg Prod.fst h
  unfold insert
  rw [insertAux_congr h t, hid]

/-- C33 at `fiveTree` and two records for the new id `10005` with the height
fields `0` and `7`. -/
theorem insert_ignores_height_witness :
    payload (sampleSat 10005 0) = payload (sampleSat 10005 7)
      ∧ sampleSat 10005 0 ≠ sampleSat 10005 7
      ∧ insert 10000 99999 (sampleSat 10005 0) fiveTree
          = insert 10000 99999 (sampleSat 10005 7) fiveTree
      ∧ insertAux (sampleSat 10005 0) null
        = some (node null
            { m_id := (sampleSat 10005 0).m_id, m_altitude := (sampleSat 10005 0).m_altitude,
              m_inclin := (sampleSat 10005 0).m_inclin,
              m_state := (sampleSat 10005 0).m_state, m_height := 0 } null) :=
  ⟨by decide, by decide,
    insert_ignores_height 10000 99999 (sampleSat 10005 0) (sampleSat 10005 7) fiveTree
      (by decide)⟩

theorem fib_le_size {t : Tree} (hb : Balanced t) :
    Nat.fib (height t + 3).toNat ≤ size t + 1 := by
  induction t with
  | null => decide
  | node l s r ihl ihr =>
    have hl := ihl hb.2.1
    have hr := ihr hb.2.2
    have hd := hb.1
    have gl := height_ge l
    have gr := height_ge r
    simp only [height, size]
    by_cases hc : height r ≤ height l
    · have e1 : (1 + max (height l) (height r) + 3).toNat = (height l + 1).toNat + 1 + 2 := by
        omega
      have e2 : (height l + 3).toNat = (height l + 1).toNat + 1 + 1 := by omega
      rw [e1, Nat.fib_add_two]
      rw [e2] at hl
      have hm : Nat.fib ((height l + 1).toNat + 1) ≤ Nat.fib (height r + 3).toNat :=
        Nat.fib_mono (by omega)
      omega
    · have e1 : (1 + max (height l) (height r) + 3).toNat = (height r + 1).toNat + 1 + 2 := by
        omega
      have e2 : (height r + 3).toNat = (height r + 1).toNat + 1 + 1 := by omega
      rw [e1, Nat.fib_add_two]
      rw [e2] at hr
      have hm : Nat.fib ((height r + 1).toNat + 1) ≤ Nat.fib (height l + 3).toNat :=
        Nat.fib_mono (by omega)
      omega

theorem built_wellBalanced {MINID MAXID : Int} {t : Tree}
    (h : BuiltByInsertRemove MINID MAXID t) : HeightOK t ∧ Balanced t := by
  induction h with
  | empty => exact ⟨trivial, trivial⟩
  | @byInsert t t' x _ e ih =>
    obtain ⟨hn, hb⟩ := ih
    unfold insert at e
    by_cases hx : x.m_id ≥ MINID ∧ x.m_id ≤ MAXID
    · simp only [hx, and_self, if_true] at e
      exact ⟨insertAux_heightOK x hn e, (insertAux_balanced x hn hb e).1⟩
    · simp only [hx, if_false, Option.some.injEq] at e
      subst e
      exact ⟨hn, hb⟩
  | @byRemove t t' id _ e ih =>
    obtain ⟨hn, hb⟩ := ih
    exact ⟨removeAux_heightOK id hn e, (removeAux_balanced id hn hb e).1⟩

/-- C35: for every tree that is AVL-balanced with correct cached heights, with
`n` nodes and root height `h` (`-1` for the empty tree, read from the cache),
`n + 1 >= Fib(h + 3)` with `Fib(1) = Fib(2) = 1`; every tree built from the
empty tree by `insert` and `remove` alone is such a tree. -/
theorem logarithmic_height (MINID MAXID : Int) (t : Tree) (hn : HeightOK t)
    (hb : Balanced t) :
    Nat.fib (childHeight t + 3).toNat ≤ size t + 1
      ∧ Nat.fib (height t + 3).toNat ≤ size t + 1
      ∧ Nat.fib 1 = 1 ∧ Nat.fib 2 = 1
      ∧ ∀ u : Tree, BuiltByInsertRemove MINID MAXID u →
          HeightOK u ∧ Balanced u ∧ Nat.fib (childHeight u + 3).toNat ≤ size u + 1 := by
  refine ⟨?_, fib_le_size hb, rfl, rfl, ?_⟩
  · rw [childHeight_eq_height hn]
    exact fib_le_size hb
  · intro u hu
    obtain ⟨hnu, hbu⟩ := built_wellBalanced hu
    refine ⟨hnu, hbu, ?_⟩
    rw [childHeight_eq_height hnu]
    exact fib_le_size hbu

/-- C35 at `fiveTree`: five nodes, root height `2`, `Fib(5) = 5 <= 6`. -/
theorem logarithmic_height_witness :
    HeightOK fiveTree ∧ Balanced fiveTree
      ∧ Nat.fib (childHeight fiveTree + 3).toNat ≤ size fiveTree + 1
      ∧ Nat.fib (height fiveTree + 3).toNat ≤ size fiveTree + 1 :=
  have h := logarithmic_height 10000 99999 fiveTree (by decide) (by decide)
  ⟨by decide, by decide, h.1, h.2.1⟩

/-! ## Trees that an object can hold -/

/-- A sequence of inserts leads from a reachable tree to a reachable tree. -/
theorem reachable_insertAll {MINID MAXID : Int} (sats : List Sat) {t t' : Tree}
    (h : Reachable MINID MAXID t) (e : insertAll MINID MAXID sats t = some t') :
    Reachable MINID MAXID t' := by
  induction sats generalizing t with
  | nil =>
    simp only [insertAll, List.foldl_nil, Option.some.injEq] at e
    exact e ▸ h
  | cons x xs ih =>
    have hn : ∀ ys : List Sat,
        ys.foldl (fun acc satellite => acc.bind (insert MINID MAXID satellite)) none
          = none := by
      intro ys
      induction ys with
      | nil => rfl
      | cons y ys ihy => simpa using ihy
    simp only [insertAll, List.foldl_cons, Option.some_bind] at e
    cases hx : insert MINID MAXID x t with
    | none =>
      rw [hx, hn] at e
      exact absurd e (by simp)
    | some u =>
      rw [hx] at e
      exact ih (Reachable.byInsert x h hx) e

/-- The tree `fiveTree` is built by five inserts. -/
theorem reachable_fiveTree : Reachable 10000 99999 fiveTree :=
  reachable_insertAll
    [sampleSat 10000 0, sampleSat 10001 0, sampleSat 10002 0, sampleSat 10003 0,
      sampleSat 10004 0]
    Reachable.empty (by decide)

theorem heightsNonneg_searchNode (id : Int) {t : Tree} (h : HeightsNonneg t) :
    HeightsNonneg (searchNode id t) := by
  induction t with
  | null => exact h
  | node a b c iha ihc =>
    simp only [searchNode]
    by_cases h1 : id < b.m_id
    · simp only [h1, if_true]
      exact iha h.2.1
    · by_cases h2 : id > b.m_id
      · simp only [h1, h2, if_true, if_false]
        exact ihc h.2.2
      · simp only [h1, h2, if_false]
        exact h

/-! ## The 32-bit arithmetic -/

/-- C1: every tree a `SatNet` object can hold has an in-order traversal with
strictly increasing identifiers, and for every record `insert` returns a tree
whose in-order traversal yields strictly increasing identifiers (at every
node all ids of the left subtree are smaller and all ids of the right subtree
are greater). -/
theorem insert_preserves_bst (MINID MAXID : Int) (satellite : Sat) (t : Tree)
    (h : Reachable MINID MAXID t) :
    BST t ∧ ∃ t', insert MINID MAXID satellite t = some t' ∧ BST t' ∧ Ordered t' := by
  obtain ⟨hbst, hh, -⟩ := reachable_invariant h
  refine ⟨hbst, ?_⟩
  unfold insert
  by_cases hr : satellite.m_id ≥ MINID ∧ satellite.m_id ≤ MAXID
  · obtain ⟨t', e, -⟩ := insertAux_isSome satellite hh
    have hb' : BST t' := by
      unfold BST ids
      rw [insertAux_records satellite hbst e]
      exact insertRecord_sorted _ _ hbst
    exact ⟨t', by simp [hr, e], hb', (bst_iff_ordered t').1 hb'⟩
  · exact ⟨t, by simp [hr], hbst, (bst_iff_ordered t).1 hbst⟩

/-- C1 at `fiveTree`, built by five inserts, and the new identifier `10010`. -/
theorem insert_preserves_bst_witness :
    Reachable 10000 99999 fiveTree ∧ BST fiveTree
      ∧ ∃ t', insert 10000 99999 (sampleSat 10010 0) fiveTree = some t' ∧ BST t'
          ∧ Ordered t' :=
  ⟨reachable_fiveTree,
    insert_preserves_bst 10000 99999 (sampleSat 10010 0) fiveTree reachable_fiveTree⟩

/-- C2: every tree a `SatNet` object can hold has an in-order traversal with
strictly increasing identifiers, and for every integer id (present or absent,
at a node with no, one or two children) `remove` returns a tree whose in-order
traversal yields strictly increasing identifiers (at every node all ids of the
left subtree are smaller and all ids of the right subtree are greater). -/
theorem remove_preserves_bst (MINID MAXID : Int) (id : Int) (t : Tree)
    (h : Reachable MINID MAXID t) :
    BST t ∧ ∃ t', remove id t = some t' ∧ BST t' ∧ Ordered t' := by
  obtain ⟨hbst, hh, -⟩ := reachable_invariant h
  refine ⟨hbst, ?_⟩
  unfold remove
  obtain ⟨t', e, -⟩ := removeAux_isSome id hh
  have hb' : BST t' := by
    unfold BST ids
    rw [removeAux_records id hbst e]
    unfold deleteRecord
    exact List.Pairwise.sublist (List.Sublist.map _ (List.filter_sublist _)) hbst
  exact ⟨t', e, hb', (bst_iff_ordered t').1 hb'⟩

/-- C2 at `fiveTree`, built by five inserts, and the identifier of its root, a
node with two children. -/
theorem remove_preserves_bst_witness :
    Reachable 10000 99999 fiveTree ∧ BST fiveTree
      ∧ ∃ t', remove 10001 fiveTree = some t' ∧ BST t' ∧ Ordered t' :=
  ⟨reachable_fiveTree, remove_preserves_bst 10000 99999 10001 fiveTree reachable_fiveTree⟩

/-- C6: for every tree `t` a `SatNet` object can hold (a BST-ordered tree) and
every record `r` with `MINID <= r.id <= MAXID` whose id is not in `t`,
`insert` returns a tree whose in-order sequence of
(id, altitude, inclination, state) is that of `t` with the record of `r` put
between the records with a smaller id and those with a greater id; every
record of `t` is still present and the node count grows by exactly one. -/
theorem insert_adds_exactly (MINID MAXID : Int) (satellite : Sat) (t : Tree)
    (h : Reachable MINID MAXID t) (hlo : MINID ≤ satellite.m_id)
    (hhi : satellite.m_id ≤ MAXID) (hnew : satellite.m_id ∉ ids t) :
    ∃ t', insert MINID MAXID satellite t = some t'
      ∧ records t' = insertRecord (payload satellite) (records t)
      ∧ (∃ front back, records t = front ++ back
          ∧ records t' = front ++ payload satellite :: back
          ∧ (∀ p ∈ front, p.1 < satellite.m_id) ∧ (∀ p ∈ back, satellite.m_id < p.1))
      ∧ (∀ p ∈ records t, p ∈ records t')
      ∧ size t' = size t + 1 := by
  obtain ⟨hbst, hh, -⟩ := reachable_invariant h
  unfold insert
  obtain ⟨t', e, -⟩ := insertAux_isSome satellite hh
  have hrec := insertAux_records satellite hbst e
  have hrec0 := hrec
  obtain ⟨front, back, e1, e2, e3, e4⟩ :=
    insertRecord_split (payload satellite) (records t) hbst hnew
  rw [e2] at hrec
  refine ⟨t', by simp [hlo, hhi, e], hrec0, ⟨front, back, e1, hrec, e3, e4⟩, ?_, ?_⟩
  · intro p hp
    rw [e1] at hp
    rw [hrec]
    rcases List.mem_append.1 hp with hp | hp
    · exact List.mem_append_left _ hp
    · exact List.mem_append_right _ (List.mem_cons_of_mem _ hp)
  · rw [size_eq_length, size_eq_length, hrec, e1]
    simp only [List.length_append, List.length_cons]
    omega

/-- C6 at `fiveTree`, built by five inserts, and the new identifier `10010`. -/
theorem insert_adds_exactly_witness :
    Reachable 10000 99999 fiveTree ∧ (10000 : Int) ≤ (sampleSat 10010 0).m_id
      ∧ (sampleSat 10010 0).m_id ≤ 99999 ∧ (sampleSat 10010 0).m_id ∉ ids fiveTree
      ∧ ∃ t', insert 10000 99999 (sampleSat 10010 0) fiveTree = some t'
        ∧ records t' = insertRecord (payload (sampleSat 10010 0)) (records fiveTree)
        ∧ (∃ front back, records fiveTree = front ++ back
            ∧ records t' = front ++ payload (sampleSat 10010 0) :: back
            ∧ (∀ p ∈ front, p.1 < (sampleSat 10010 0).m_id)
            ∧ (∀ p ∈ back, (sampleSat 10010 0).m_id < p.1))
        ∧ (∀ p ∈ records fiveTree, p ∈ records t')
        ∧ size t' = size fiveTree + 1 :=
  ⟨reachable_fiveTree, by decide, by decide, by decide,
    insert_adds_exactly 10000 99999 (sampleSat 10010 0) fiveTree reachable_fiveTree
      (by decide) (by decide) (by decide)⟩

/-- C7: for every tree `t` a `SatNet` object can hold (a BST-ordered tree) and
every id present in `t`, `remove` returns a tree whose in-order sequence of
(id, altitude, inclination, state) is that of `t` with the single record
carrying that id deleted; every other record survives unchanged (also when
the node has two children and the fields of the successor are copied upward)
and the node count drops by exactly one. -/
theorem remove_deletes_exactly (MINID MAXID : Int) (id : Int) (t : Tree)
    (h : Reachable MINID MAXID t) (hin : id ∈ ids t) :
    ∃ t', remove id t = some t'
      ∧ records t' = deleteRecord id (records t)
      ∧ (∃ front x back, records t = front ++ x :: back ∧ x.1 = id
          ∧ records t' = front ++ back
          ∧ (∀ p ∈ front, p.1 < id) ∧ (∀ p ∈ back, id < p.1))
      ∧ (∀ p ∈ records t, p.1 ≠ id → p ∈ records t')
      ∧ size t' + 1 = size t := by
  obtain ⟨hbst, hh, -⟩ := reachable_invariant h
  unfold remove
  obtain ⟨t', e, -⟩ := removeAux_isSome id hh
  have hrec := removeAux_records id hbst e
  have hrec0 := hrec
  obtain ⟨front, x, back, e1, e2, e3, e4, e5⟩ := deleteRecord_split id (records t) hbst hin
  rw [e3] at hrec
  refine ⟨t', e, hrec0, ⟨front, x, back, e1, e2, hrec, e4, e5⟩, ?_, ?_⟩
  · intro p hp hne
    rw [e1] at hp
    rw [hrec]
    rcases List.mem_append.1 hp with hp | hp
    · exact List.mem_append_left _ hp
    · rcases List.mem_cons.1 hp with rfl | hp
      · exact absurd e2 hne
      · exact List.mem_append_right _ hp
  · rw [size_eq_length, size_eq_length, hrec, e1]
    simp only [List.length_append, List.length_cons]
    omega

/-- C7 at `fiveTree`, built by five inserts, and the identifier of its root, a
node with two children. -/
theorem remove_deletes_exactly_witness :
    Reachable 10000 99999 fiveTree ∧ (10001 : Int) ∈ ids fiveTree
      ∧ ∃ t', remove 10001 fiveTree = some t'
        ∧ records t' = deleteRecord 10001 (records fiveTree)
        ∧ (∃ front x back, records fiveTree = front ++ x :: back ∧ x.1 = 10001
            ∧ records t' = front ++ back
            ∧ (∀ p ∈ front, p.1 < 10001) ∧ (∀ p ∈ back, 10001 < p.1))
        ∧ (∀ p ∈ records fiveTree, p.1 ≠ 10001 → p ∈ records t')
        ∧ size t' + 1 = size fiveTree :=
  ⟨reachable_fiveTree, by decide,
    remove_deletes_exactly 10000 99999 10001 fiveTree reachable_fiveTree (by decide)⟩

/-- C32: in a tree a `SatNet` object can hold (a BST-ordered tree), when the
descent of `remove(id)` ends at a node with two children, the removal at that
slot overwrites the id, altitude, inclination and state of the node with those
of the minimum-id node of its right subtree; the nested `remove` of that
minimum id returns the right subtree without exactly that record, and its
descent ends at a node without left child, whose slot takes its right child
(the 0-child or 1-child branch); the slot then holds the records of the left
subtree, the record of the minimum and the rest of the right subtree, and the
whole tree has lost exactly the record of `id`. -/
theorem two_child_removal (MINID MAXID : Int) (id : Int) (t ll : Tree) (ls : Sat) (lr : Tree)
    (s : Sat) (rl : Tree) (rs : Sat) (rr : Tree) (h : Reachable MINID MAXID t)
    (hfound : searchNode id t = node (node ll ls lr) s (node rl rs rr)) :
    s.m_id = id
      ∧ (∃ rest, records (node rl rs rr) = payload (successor rs rl) :: rest
          ∧ (∀ p ∈ rest, (successor rs rl).m_id < p.1)
          ∧ ∃ r', removeAux (successor rs rl).m_id (node rl rs rr) = some r'
            ∧ records r' = rest
            ∧ removeAux id (node (node ll ls lr) s (node rl rs rr))
                = rebalance (updateHeight (node (node ll ls lr)
                    { m_id := (successor rs rl).m_id,
                      m_altitude := (successor rs rl).m_altitude,
                      m_inclin := (successor rs rl).m_inclin,
                      m_state := (successor rs rl).m_state,
                      m_height := s.m_height } r'))
            ∧ ∃ t', removeAux id (node (node ll ls lr) s (node rl rs rr)) = some t'
              ∧ records t'
                  = records (node ll ls lr) ++ payload (successor rs rl) :: rest)
      ∧ (∀ i ∈ ids (node rl rs rr), (successor rs rl).m_id ≤ i)
      ∧ (∃ fr, searchNode (successor rs rl).m_id (node rl rs rr)
            = node null (successor rs rl) fr
          ∧ removeAux (successor rs rl).m_id (node null (successor rs rl) fr)
            = rebalance (updateHeight fr))
      ∧ ∃ t'', remove id t = some t'' ∧ records t'' = deleteRecord id (records t) := by
  obtain ⟨hb, hh, -⟩ := reachable_invariant h
  have hid := searchNode_id id hfound
  have hbn : BST (node (node ll ls lr) s (node rl rs rr)) := by
    rw [← hfound]
    exact bst_searchNode id hb
  have hnn : HeightsNonneg (node (node ll ls lr) s (node rl rs rr)) := by
    rw [← hfound]
    exact heightsNonneg_searchNode id hh
  have hbr : BST (node rl rs rr) := ((bst_node_iff _ _ _).1 hbn).2.1
  obtain ⟨rest, hrest⟩ := records_successor rl rs rr
  obtain ⟨fr, hfr⟩ := searchNode_successor rl rs rr hbr
  have hsorted : ((records (node rl rs rr)).map Prod.fst).Sorted (· < ·) := hbr
  rw [hrest] at hsorted
  simp only [List.map_cons, List.sorted_cons] at hsorted
  have hmin : ∀ p ∈ rest, (successor rs rl).m_id < p.1 := by
    intro p hp
    exact hsorted.1 p.1 (List.mem_map_of_mem _ hp)
  obtain ⟨r', er, hnr'⟩ := removeAux_isSome (successor rs rl).m_id hnn.2.2
  have hrec' : records r' = rest := by
    rw [removeAux_records _ hbr er, hrest,
      deleteRecord_cons_eq (successor rs rl).m_id (payload (successor rs rl)) rest rfl]
    apply deleteRecord_eq_self
    intro z hz
    exact ne_of_gt (hmin z hz)
  have hstep : removeAux id (node (node ll ls lr) s (node rl rs rr))
      = rebalance (updateHeight (node (node ll ls lr)
          { m_id := (successor rs rl).m_id,
            m_altitude := (successor rs rl).m_altitude,
            m_inclin := (successor rs rl).m_inclin,
            m_state := (successor rs rl).m_state,
            m_height := s.m_height } r')) := by
    rw [removeAux_node]
    have h1 : ¬ id < s.m_id := by omega
    have h2 : ¬ id > s.m_id := by omega
    simp only [h1, h2, if_false, er, Option.some_bind]
  obtain ⟨t', et, -⟩ := rebalance_updateHeight_isSome
    { m_id := (successor rs rl).m_id,
      m_altitude := (successor rs rl).m_altitude,
      m_inclin := (successor rs rl).m_inclin,
      m_state := (successor rs rl).m_state,
      m_height := s.m_height } hnn.2.1 hnr'
  have hrect : records t' = records (node ll ls lr) ++ payload (successor rs rl) :: rest := by
    rw [rebalance_records et, updateHeight_records, records_node, hrec']
    rfl
  obtain ⟨t'', e'', -⟩ := removeAux_isSome id hh
  refine ⟨hid, ⟨rest, hrest, hmin, r', er, hrec', hstep, t', by rw [hstep, et], hrect⟩, ?_,
    ⟨fr, hfr, ?_⟩, t'', e'', removeAux_records id hb e''⟩
  · intro i hi
    unfold ids at hi
    rw [hrest] at hi
    rcases List.mem_cons.1 hi with rfl | hi
    · exact le_refl _
    · exact le_of_lt (hsorted.1 i hi)
  · rw [removeAux_node]
    have h1 : ¬ (successor rs rl).m_id < (successor rs rl).m_id := by omega
    simp only [h1, gt_iff_lt, if_false]
    cases fr <;> rfl

/-- C32 at `fiveTree`, built by five inserts, whose root `10001` has two
children; the successor is the leaf `10002`, the nested removal leaves
`10003, 10004` in the right subtree and the tree holds
`10000, 10002, 10003, 10004` afterwards. -/
theorem two_child_removal_witness :
    Reachable 10000 99999 fiveTree
      ∧ searchNode 10001 fiveTree
          = node (node null (sampleSat 10000 0) null) (sampleSat 10001 2)
              (node (node null (sampleSat 10002 0) null) (sampleSat 10003 1)
                (node null (sampleSat 10004 0) null))
      ∧ (sampleSat 10001 2).m_id = 10001
      ∧ (∃ fr, searchNode (successor (sampleSat 10003 1) (node null (sampleSat 10002 0) null)).m_id
            (node (node null (sampleSat 10002 0) null) (sampleSat 10003 1)
              (node null (sampleSat 10004 0) null))
          = node null (successor (sampleSat 10003 1) (node null (sampleSat 10002 0) null)) fr
        ∧ removeAux (successor (sampleSat 10003 1) (node null (sampleSat 10002 0) null)).m_id
            (node null (successor (sampleSat 10003 1) (node null (sampleSat 10002 0) null)) fr)
          = rebalance (updateHeight fr))
      ∧ (∃ t'', remove 10001 fiveTree = some t''
          ∧ records t'' = deleteRecord 10001 (records fiveTree))
      ∧ (remove 10001 fiveTree).map ids = some [10000, 10002, 10003, 10004] :=
  have h := two_child_removal 10000 99999 10001 fiveTree null (sampleSat 10000 0) null
    (sampleSat 10001 2) (node null (sampleSat 10002 0) null) (sampleSat 10003 1)
    (node null (sampleSat 10004 0) null) reachable_fiveTree (by decide)
  ⟨reachable_fiveTree, by decide, h.1, h.2.2.2.1, h.2.2.2.2, by decide⟩

/-! ## The free store -/

theorem load_lt {h : Heap} {a : Nat} {c : Cell} (e : load h a = some c) : a < h.length := by
  by_contra hlt
  unfold load at e
  rw [List.getD_eq_getElem?_getD, List.getElem?_eq_none (by omega)] at e
  simp at e

theorem load_set (h : Heap) (a b : Nat) (v : Option Cell) :
    load (h.set a v) b = if a = b ∧ a < h.length then v else load h b := by
  unfold load
  rw [List.getD_eq_getElem?_getD, List.getD_eq_getElem?_getD, List.getElem?_set]
  by_cases hab : a = b
  · subst hab
    by_cases hl : a < h.length
    · simp [hl]
    · simp [hl, List.getElem?_eq_none (not_lt.1 hl)]
  · simp [hab]

theorem load_set_ne (h : Heap) {a b : Nat} (v : Option Cell) (hab : a ≠ b) :
    load (h.set a v) b = load h b := by
  rw [load_set]
  simp [hab]

theorem load_append (h : Heap) (v : Option Cell) (b : Nat) :
    load (h ++ [v]) b = if b = h.length then v else load h b := by
  unfold load
  rw [List.getD_eq_getElem?_getD, List.getD_eq_getElem?_getD]
  by_cases hb : b < h.length
  · rw [List.getElem?_append_left hb]
    simp [Nat.ne_of_lt hb]
  · by_cases hb2 : b = h.length
    · subst hb2
      simp
    · rw [List.getElem?_eq_none (by simp; omega), List.getElem?_eq_none (by omega)]
      simp [hb2]

theorem keeps_refl (B : List Nat) (h : Heap) : Keeps B h h :=
  ⟨le_refl _, fun _ _ => rfl⟩

theorem keeps_trans {B : List Nat} {h1 h2 h3 : Heap} (a : Keeps B h1 h2) (b : Keeps B h2 h3) :
    Keeps B h1 h3 :=
  ⟨le_trans a.1 b.1, fun x hx => by rw [b.2 x hx, a.2 x hx]⟩

theorem sep_load {B : List Nat} {h : Heap} {a : Nat} {c : Cell} (hs : Sep B h) (ha : a ∉ B)
    (e : load h a = some c) : PtrOut B c.m_left ∧ PtrOut B c.m_right := by
  have := hs.2 a (load_lt e) ha
  rw [e] at this
  exact this

theorem sep_set {B : List Nat} {h : Heap} {a : Nat} (v : Option Cell) (hs : Sep B h)
    (ha : a ∉ B) (hv : CellOut B v) : Sep B (h.set a v) ∧ Keeps B h (h.set a v) := by
  refine ⟨⟨fun x hx => by simpa using hs.1 x hx, fun x hx hxB => ?_⟩, by simp, fun x hx => ?_⟩
  · rw [load_set]
    by_cases hc : a = x ∧ a < h.length
    · rw [if_pos hc]
      exact hv
    · rw [if_neg hc]
      exact hs.2 x (by simpa using hx) hxB
  · rw [load_set_ne]
    rintro rfl
    exact ha hx

theorem sep_append {B : List Nat} {h : Heap} (v : Option Cell) (hs : Sep B h)
    (hv : CellOut B v) : Sep B (h ++ [v]) ∧ Keeps B h (h ++ [v]) ∧ h.length ∉ B := by
  have hfresh : h.length ∉ B := fun hx => absurd (hs.1 _ hx) (lt_irrefl _)
  refine ⟨⟨fun x hx => ?_, fun x hx hxB => ?_⟩, ⟨by simp, fun x hx => ?_⟩, hfresh⟩
  · have := hs.1 x hx
    simp only [List.length_append, List.length_singleton]
    omega
  · rw [load_append]
    by_cases hc : x = h.length
    · simp only [hc, if_true]
      exact hv
    · simp only [hc, if_false]
      simp only [List.length_append, List.length_singleton] at hx
      exact hs.2 x (by omega) hxB
  · rw [load_append]
    have := hs.1 x hx
    simp [Nat.ne_of_lt this]

theorem updateHeightH_frame {B : List Nat} {h h' : Heap} {p : Option Nat} (hs : Sep B h)
    (hp : PtrOut B p) (e : updateHeightH h p = some h') : Sep B h' ∧ Keeps B h h' := by
  cases p with
  | none =>
    simp only [updateHeightH, Option.some.injEq] at e
    subst e
    exact ⟨hs, keeps_refl B h⟩
  | some a =>
    simp only [updateHeightH] at e
    obtain ⟨c, hc, e⟩ := Option.bind_eq_some.1 e
    obtain ⟨lh, -, e⟩ := Option.bind_eq_some.1 e
    obtain ⟨rh, -, e⟩ := Option.bind_eq_some.1 e
    have hout := sep_load hs hp hc
    split at e <;>
    · simp only [Option.some.injEq] at e
      subst e
      exact sep_set _ hs hp hout

theorem rightRotateH_frame {B : List Nat} {h h' : Heap} {p p' : Option Nat} (hs : Sep B h)
    (hp : PtrOut B p) (e : rightRotateH h p = some (h', p')) :
    Sep B h' ∧ Keeps B h h' ∧ PtrOut B p' := by
  cases p with
  | none => simp [rightRotateH] at e
  | some a =>
    simp only [rightRotateH] at e
    obtain ⟨c, hc, e⟩ := Option.bind_eq_some.1 e
    have hcout := sep_load hs hp hc
    cases hcl : c.m_left with
    | none => simp [hcl] at e
    | some b =>
      rw [hcl] at hcout
      simp only [hcl] at e
      obtain ⟨d, hd, e⟩ := Option.bind_eq_some.1 e
      have hdout := sep_load hs hcout.1 hd
      obtain ⟨s1, k1⟩ := sep_set (some { c with m_left := d.m_right }) hs hp
        ⟨hdout.2, hcout.2⟩
      obtain ⟨d1, hd1, e⟩ := Option.bind_eq_some.1 e
      have hd1out := sep_load s1 hcout.1 hd1
      obtain ⟨s2, k2⟩ := sep_set (some { d1 with m_right := some a }) s1 hcout.1
        ⟨hd1out.1, hp⟩
      obtain ⟨d2, hd2, e⟩ := Option.bind_eq_some.1 e
      have hd2out := sep_load s2 hcout.1 hd2
      obtain ⟨h3, e3, e⟩ := Option.bind_eq_some.1 e
      obtain ⟨s3, k3⟩ := updateHeightH_frame s2 hd2out.2 e3
      obtain ⟨h4, e4, e⟩ := Option.bind_eq_some.1 e
      obtain ⟨s4, k4⟩ := updateHeightH_frame s3 hcout.1 e4
      simp only [Option.some.injEq, Prod.mk.injEq] at e
      obtain ⟨rfl, rfl⟩ := e
      exact ⟨s4, keeps_trans (keeps_trans (keeps_trans k1 k2) k3) k4, hcout.1⟩

theorem leftRotateH_frame {B : List Nat} {h h' : Heap} {p p' : Option Nat} (hs : Sep B h)
    (hp : PtrOut B p) (e : leftRotateH h p = some (h', p')) :
    Sep B h' ∧ Keeps B h h' ∧ PtrOut B p' := by
  cases p with
  | none => simp [leftRotateH] at e
  | some a =>
    simp only [leftRotateH] at e
    obtain ⟨c, hc, e⟩ := Option.bind_eq_some.1 e
    have hcout := sep_load hs hp hc
    cases hcr : c.m_right with
    | none => simp [hcr] at e
    | some b =>
      rw [hcr] at hcout
      simp only [hcr] at e
      obtain ⟨d, hd, e⟩ := Option.bind_eq_some.1 e
      have hdout := sep_load hs hcout.2 hd
      obtain ⟨s1, k1⟩ := sep_set (some { c with m_right := d.m_left }) hs hp
        ⟨hcout.1, hdout.1⟩
      obtain ⟨d1, hd1, e⟩ := Option.bind_eq_some.1 e
      have hd1out := sep_load s1 hcout.2 hd1
      obtain ⟨s2, k2⟩ := sep_set (some { d1 with m_left := some a }) s1 hcout.2
        ⟨hp, hd1out.2⟩
      obtain ⟨d2, hd2, e⟩ := Option.bind_eq_some.1 e
      have hd2out := sep_load s2 hcout.2 hd2
      obtain ⟨h3, e3, e⟩ := Option.bind_eq_some.1 e
      obtain ⟨s3, k3⟩ := updateHeightH_frame s2 hd2out.1 e3
      obtain ⟨h4, e4, e⟩ := Option.bind_eq_some.1 e
      obtain ⟨s4, k4⟩ := updateHeightH_frame s3 hcout.2 e4
      simp only [Option.some.injEq, Prod.mk.injEq] at e
      obtain ⟨rfl, rfl⟩ := e
      exact ⟨s4, keeps_trans (keeps_trans (keeps_trans k1 k2) k3) k4, hcout.2⟩

theorem rebalanceH_frame {B : List Nat} {h h' : Heap} {p p' : Option Nat} (hs : Sep B h)
    (hp : PtrOut B p) (e : rebalanceH h p = some (h', p')) :
    Sep B h' ∧ Keeps B h h' ∧ PtrOut B p' := by
  unfold rebalanceH at e
  obtain ⟨balance, -, e⟩ := Option.bind_eq_some.1 e
  split at e
  · cases p with
    | none => simp at e
    | some a =>
      simp only at e
      obtain ⟨c, hc, e⟩ := Option.bind_eq_some.1 e
      have hcout := sep_load hs hp hc
      obtain ⟨bl, -, e⟩ := Option.bind_eq_some.1 e
      split at e
      · exact rightRotateH_frame hs hp e
      · obtain ⟨x, ex, e⟩ := Option.bind_eq_some.1 e
        obtain ⟨s1, k1, p1⟩ := leftRotateH_frame hs hcout.1 ex
        obtain ⟨c1, hc1, e⟩ := Option.bind_eq_some.1 e
        have hc1out := sep_load s1 hp hc1
        obtain ⟨s2, k2⟩ := sep_set (some { c1 with m_left := x.2 }) s1 hp ⟨p1, hc1out.2⟩
        obtain ⟨s3, k3, p3⟩ := rightRotateH_frame s2 hp e
        exact ⟨s3, keeps_trans (keeps_trans k1 k2) k3, p3⟩
  · split at e
    · cases p with
      | none => simp at e
      | some a =>
        simp only at e
        obtain ⟨c, hc, e⟩ := Option.bind_eq_some.1 e
        have hcout := sep_load hs hp hc
        obtain ⟨br, -, e⟩ := Option.bind_eq_some.1 e
        split at e
        · exact leftRotateH_frame hs hp e
        · obtain ⟨x, ex, e⟩ := Option.bind_eq_some.1 e
          obtain ⟨s1, k1, p1⟩ := rightRotateH_frame hs hcout.2 ex
          obtain ⟨c1, hc1, e⟩ := Option.bind_eq_some.1 e
          have hc1out := sep_load s1 hp hc1
          obtain ⟨s2, k2⟩ := sep_set (some { c1 with m_right := x.2 }) s1 hp
            ⟨hc1out.1, p1⟩
          obtain ⟨s3, k3, p3⟩ := leftRotateH_frame s2 hp e
          exact ⟨s3, keeps_trans (keeps_trans k1 k2) k3, p3⟩
    · simp only [Option.some.injEq, Prod.mk.injEq] at e
      obtain ⟨rfl, rfl⟩ := e
      exact ⟨hs, keeps_refl B h, hp⟩

theorem insertH_frame {B : List Nat} (satellite : Sat) (fuel : Nat) :
    ∀ {h h' : Heap} {p p' : Option Nat}, Sep B h → PtrOut B p →
      insertH satellite fuel h p = some (h', p') →
      Sep B h' ∧ Keeps B h h' ∧ PtrOut B p' := by
  induction fuel with
  | zero =>
    intro h h' p p' _ _ e
    simp [insertH] at e
  | succ fuel ih =>
    intro h h' p p' hs hp e
    cases p with
    | none =>
      simp only [insertH, Option.some.injEq, Prod.mk.injEq] at e
      obtain ⟨rfl, rfl⟩ := e
      obtain ⟨s1, k1, f1⟩ := sep_append (some
        { sat := { m_id := satellite.m_id, m_altitude := satellite.m_altitude,
                   m_inclin := satellite.m_inclin, m_state := satellite.m_state,
                   m_height := 0 },
          m_left := none, m_right := none }) hs ⟨trivial, trivial⟩
      exact ⟨s1, k1, f1⟩
    | some a =>
      simp only [insertH] at e
      obtain ⟨c, hc, e⟩ := Option.bind_eq_some.1 e
      have hcout := sep_load hs hp hc
      split at e
      · obtain ⟨x, ex, e⟩ := Option.bind_eq_some.1 e
        obtain ⟨s1, k1, p1⟩ := ih hs hcout.1 ex
        obtain ⟨c1, hc1, e⟩ := Option.bind_eq_some.1 e
        have hc1out := sep_load s1 hp hc1
        obtain ⟨s2, k2⟩ := sep_set (some { c1 with m_left := x.2 }) s1 hp ⟨p1, hc1out.2⟩
        obtain ⟨h3, e3, e⟩ := Option.bind_eq_some.1 e
        obtain ⟨s3, k3⟩ := updateHeightH_frame s2 hp e3
        obtain ⟨s4, k4, p4⟩ := rebalanceH_frame s3 hp e
        exact ⟨s4, keeps_trans (keeps_trans (keeps_trans k1 k2) k3) k4, p4⟩
      · split at e
        · obtain ⟨x, ex, e⟩ := Option.bind_eq_some.1 e
          obtain ⟨s1, k1, p1⟩ := ih hs hcout.2 ex
          obtain ⟨c1, hc1, e⟩ := Option.bind_eq_some.1 e
          have hc1out := sep_load s1 hp hc1
          obtain ⟨s2, k2⟩ := sep_set (some { c1 with m_right := x.2 }) s1 hp ⟨hc1out.1, p1⟩
          obtain ⟨h3, e3, e⟩ := Option.bind_eq_some.1 e
          obtain ⟨s3, k3⟩ := updateHeightH_frame s2 hp e3
          obtain ⟨s4, k4, p4⟩ := rebalanceH_frame s3 hp e
          exact ⟨s4, keeps_trans (keeps_trans (keeps_trans k1 k2) k3) k4, p4⟩
        · simp only [Option.some.injEq, Prod.mk.injEq] at e
          obtain ⟨rfl, rfl⟩ := e
          exact ⟨hs, keeps_refl B h, hp⟩

theorem successorH_frame {B : List Nat} (fuel : Nat) :
    ∀ {h : Heap} {a sa : Nat}, Sep B h → a ∉ B → successorH fuel h a = some sa → sa ∉ B := by
  induction fuel with
  | zero =>
    intro h a sa _ _ e
    simp [successorH] at e
  | succ fuel ih =>
    intro h a sa hs ha e
    simp only [successorH] at e
    obtain ⟨c, hc, e⟩ := Option.bind_eq_some.1 e
    have hcout := sep_load hs ha hc
    cases hcl : c.m_left with
    | none =>
      simp only [hcl, Option.some.injEq] at e
      exact e ▸ ha
    | some b =>
      rw [hcl] at hcout
      simp only [hcl] at e
      exact ih hs hcout.1 e

theorem removeH_frame {B : List Nat} (fuel : Nat) :
    ∀ {id : Int} {h h' : Heap} {p p' : Option Nat}, Sep B h → PtrOut B p →
      removeH id fuel h p = some (h', p') →
      Sep B h' ∧ Keeps B h h' ∧ PtrOut B p' := by
  induction fuel with
  | zero =>
    intro id h h' p p' _ _ e
    simp [removeH] at e
  | succ fuel ih =>
    intro id h h' p p' hs hp e
    cases p with
    | none =>
      simp only [removeH, Option.some.injEq, Prod.mk.injEq] at e
      obtain ⟨rfl, rfl⟩ := e
      exact ⟨hs, keeps_refl B h, hp⟩
    | some a =>
      simp only [removeH] at e
      obtain ⟨c, hc, e⟩ := Option.bind_eq_some.1 e
      have hcout := sep_load hs hp hc
      split at e
      · obtain ⟨x, ex, e⟩ := Option.bind_eq_some.1 e
        obtain ⟨s1, k1, p1⟩ := ih hs hcout.1 ex
        obtain ⟨c1, hc1, e⟩ := Option.bind_eq_some.1 e
        have hc1out := sep_load s1 hp hc1
        obtain ⟨s2, k2⟩ := sep_set (some { c1 with m_left := x.2 }) s1 hp ⟨p1, hc1out.2⟩
        obtain ⟨h3, e3, e⟩ := Option.bind_eq_some.1 e
        obtain ⟨s3, k3⟩ := updateHeightH_frame s2 hp e3
        obtain ⟨s4, k4, p4⟩ := rebalanceH_frame s3 hp e
        exact ⟨s4, keeps_trans (keeps_trans (keeps_trans k1 k2) k3) k4, p4⟩
      · split at e
        · obtain ⟨x, ex, e⟩ := Option.bind_eq_some.1 e
          obtain ⟨s1, k1, p1⟩ := ih hs hcout.2 ex
          obtain ⟨c1, hc1, e⟩ := Option.bind_eq_some.1 e
          have hc1out := sep_load s1 hp hc1
          obtain ⟨s2, k2⟩ := sep_set (some { c1 with m_right := x.2 }) s1 hp ⟨hc1out.1, p1⟩
          obtain ⟨h3, e3, e⟩ := Option.bind_eq_some.1 e
          obtain ⟨s3, k3⟩ := updateHeightH_frame s2 hp e3
          obtain ⟨s4, k4, p4⟩ := rebalanceH_frame s3 hp e
          exact ⟨s4, keeps_trans (keeps_trans (keeps_trans k1 k2) k3) k4, p4⟩
        · obtain ⟨s0, k0⟩ := sep_set none hs hp trivial
          cases hcl : c.m_left with
          | none =>
            cases hcr : c.m_right with
            | none =>
              simp only [hcl, hcr] at e
              obtain ⟨h2, e2, e⟩ := Option.bind_eq_some.1 e
              obtain ⟨s2, k2⟩ := updateHeightH_frame s0 (show PtrOut B none from trivial) e2
              obtain ⟨s3, k3, p3⟩ := rebalanceH_frame s2 (show PtrOut B none from trivial) e
              exact ⟨s3, keeps_trans (keeps_trans k0 k2) k3, p3⟩
            | some b =>
              rw [hcr] at hcout
              simp only [hcl, hcr] at e
              obtain ⟨h2, e2, e⟩ := Option.bind_eq_some.1 e
              obtain ⟨s2, k2⟩ := updateHeightH_frame s0 hcout.2 e2
              obtain ⟨s3, k3, p3⟩ := rebalanceH_frame s2 hcout.2 e
              exact ⟨s3, keeps_trans (keeps_trans k0 k2) k3, p3⟩
          | some bl =>
            cases hcr : c.m_right with
            | none =>
              rw [hcl] at hcout
              simp only [hcl, hcr] at e
              obtain ⟨h2, e2, e⟩ := Option.bind_eq_some.1 e
              obtain ⟨s2, k2⟩ := updateHeightH_frame s0 hcout.1 e2
              obtain ⟨s3, k3, p3⟩ := rebalanceH_frame s2 hcout.1 e
              exact ⟨s3, keeps_trans (keeps_trans k0 k2) k3, p3⟩
            | some b =>
              simp only [hcl, hcr] at e
              obtain ⟨sa, esa, e⟩ := Option.bind_eq_some.1 e
              obtain ⟨sc, hsc, e⟩ := Option.bind_eq_some.1 e
              rw [hcl, hcr] at hcout
              obtain ⟨s1, k1⟩ := sep_set (some
                { sat := { m_id := sc.sat.m_id, m_altitude := sc.sat.m_altitude,
                           m_inclin := sc.sat.m_inclin, m_state := sc.sat.m_state,
                           m_height := c.sat.m_height },
                  m_left := some bl, m_right := some b })
                hs hp hcout
              obtain ⟨sc1, -, e⟩ := Option.bind_eq_some.1 e
              obtain ⟨c1, hc1, e⟩ := Option.bind_eq_some.1 e
              have hc1out := sep_load s1 hp hc1
              obtain ⟨x, ex, e⟩ := Option.bind_eq_some.1 e
              obtain ⟨s2, k2, p2⟩ := ih s1 hc1out.2 ex
              obtain ⟨c2, hc2, e⟩ := Option.bind_eq_some.1 e
              have hc2out := sep_load s2 hp hc2
              obtain ⟨s3, k3⟩ := sep_set (some { c2 with m_right := x.2 }) s2 hp
                ⟨hc2out.1, p2⟩
              obtain ⟨h4, e4, e⟩ := Option.bind_eq_some.1 e
              obtain ⟨s4, k4⟩ := updateHeightH_frame s3 hp e4
              obtain ⟨s5, k5, p5⟩ := rebalanceH_frame s4 hp e
              exact ⟨s5,
                keeps_trans (keeps_trans (keeps_trans (keeps_trans k1 k2) k3) k4) k5, p5⟩

theorem setStateH_frame {B : List Nat} (id : Int) (state : STATE) (fuel : Nat) :
    ∀ {h h' : Heap} {p : Option Nat} {found : Bool}, Sep B h → PtrOut B p →
      setStateH id state fuel h p = some (found, h') → Sep B h' ∧ Keeps B h h' := by
  induction fuel with
  | zero =>
    intro h h' p found _ _ e
    simp [setStateH] at e
  | succ fuel ih =>
    intro h h' p found hs hp e
    cases p with
    | none =>
      simp only [setStateH, Option.some.injEq, Prod.mk.injEq] at e
      obtain ⟨-, rfl⟩ := e
      exact ⟨hs, keeps_refl B h⟩
    | some a =>
      simp only [setStateH] at e
      obtain ⟨c, hc, e⟩ := Option.bind_eq_some.1 e
      have hcout := sep_load hs hp hc
      split at e
      · exact ih hs hcout.1 e
      · split at e
        · exact ih hs hcout.2 e
        · simp only [Option.some.injEq, Prod.mk.injEq] at e
          obtain ⟨-, rfl⟩ := e
          exact sep_set _ hs hp hcout

theorem clearH_frame {B : List Nat} (fuel : Nat) :
    ∀ {h h' : Heap} {p : Option Nat}, Sep B h → PtrOut B p →
      clearH fuel h p = some h' → Sep B h' ∧ Keeps B h h' := by
  induction fuel with
  | zero =>
    intro h h' p _ _ e
    simp [clearH] at e
  | succ fuel ih =>
    intro h h' p hs hp e
    cases p with
    | none =>
      simp only [clearH, Option.some.injEq] at e
      subst e
      exact ⟨hs, keeps_refl B h⟩
    | some a =>
      simp only [clearH] at e
      obtain ⟨c, hc, e⟩ := Option.bind_eq_some.1 e
      have hcout := sep_load hs hp hc
      obtain ⟨h1, e1, e⟩ := Option.bind_eq_some.1 e
      obtain ⟨s1, k1⟩ := ih hs hcout.1 e1
      obtain ⟨c1, hc1, e⟩ := Option.bind_eq_some.1 e
      have hc1out := sep_load s1 hp hc1
      obtain ⟨s2, k2⟩ := sep_set (some { c1 with m_left := none }) s1 hp ⟨trivial, hc1out.2⟩
      obtain ⟨h3, e3, e⟩ := Option.bind_eq_some.1 e
      obtain ⟨s3, k3⟩ := ih s2 hc1out.2 e3
      obtain ⟨c3, hc3, e⟩ := Option.bind_eq_some.1 e
      have hc3out := sep_load s3 hp hc3
      obtain ⟨s4, k4⟩ := sep_set (some { c3 with m_right := none }) s3 hp ⟨hc3out.1, trivial⟩
      obtain ⟨s5, k5⟩ := sep_set none s4 hp trivial
      simp only [Option.some.injEq] at e
      subst e
      exact ⟨s5, keeps_trans (keeps_trans (keeps_trans (keeps_trans k1 k2) k3) k4) k5⟩

theorem load_append_of_lt (h : Heap) (v : Option Cell) {x : Nat} (hx : x < h.length) :
    load (h ++ [v]) x = load h x := by
  rw [load_append]
  simp [Nat.ne_of_lt hx]

theorem load_append_self (h : Heap) (v : Option Cell) : load (h ++ [v]) h.length = v := by
  rw [load_append]
  simp

theorem load_set_self (h : Heap) {a : Nat} (v : Option Cell) (ha : a < h.length) :
    load (h.set a v) a = v := by
  rw [load_set]
  simp [ha]

theorem holds_node {h : Heap} {a : Nat} {l r : Tree} {s : Sat} :
    Holds h (some a) (node l s r)
      ↔ ∃ c, load h a = some c ∧ c.sat = s ∧ Holds h c.m_left l ∧ Holds h c.m_right r := by
  simp only [Holds]
  cases hc : load h a with
  | none => simp
  | some c => simp

theorem addrs_node {h : Heap} {a : Nat} {l r : Tree} {s : Sat} {c : Cell}
    (hc : load h a = some c) :
    addrs h (some a) (node l s r) = a :: (addrs h c.m_left l ++ addrs h c.m_right r) := by
  simp only [addrs, hc]

/-- A tree in the store is not affected by what happens to other objects. -/
theorem holds_congr {h h' : Heap} (t : Tree) :
    ∀ p : Option Nat, (∀ x ∈ addrs h p t, load h' x = load h x) → Holds h p t →
      Holds h' p t ∧ addrs h' p t = addrs h p t := by
  induction t with
  | null =>
    intro p _ hh
    cases p with
    | none => exact ⟨trivial, rfl⟩
    | some a => exact absurd hh (by simp [Holds])
  | node l s r ihl ihr =>
    intro p hag hh
    cases p with
    | none => exact absurd hh (by simp [Holds])
    | some a =>
      obtain ⟨c, hc, hs, hl, hr⟩ := holds_node.1 hh
      rw [addrs_node hc] at hag
      have hc' : load h' a = some c := by
        rw [hag a (List.mem_cons_self _ _), hc]
      obtain ⟨hl', el⟩ := ihl c.m_left
        (fun x hx => hag x (List.mem_cons_of_mem _ (List.mem_append_left _ hx))) hl
      obtain ⟨hr', er⟩ := ihr c.m_right
        (fun x hx => hag x (List.mem_cons_of_mem _ (List.mem_append_right _ hx))) hr
      exact ⟨holds_node.2 ⟨c, hc', hs, hl', hr'⟩, by rw [addrs_node hc', addrs_node hc, el, er]⟩

theorem addrs_lt {h : Heap} (t : Tree) :
    ∀ p : Option Nat, Holds h p t → ∀ x ∈ addrs h p t, x < h.length := by
  induction t with
  | null =>
    intro p _ x hx
    cases p <;> simp [addrs] at hx
  | node l s r ihl ihr =>
    intro p hh x hx
    cases p with
    | none => simp [addrs] at hx
    | some a =>
      obtain ⟨c, hc, -, hl, hr⟩ := holds_node.1 hh
      rw [addrs_node hc] at hx
      rcases List.mem_cons.1 hx with rfl | hx
      · exact load_lt hc
      · rcases List.mem_append.1 hx with hx | hx
        · exact ihl _ hl x hx
        · exact ihr _ hr x hx

/-- The copy of a tree: `copyH` returns, the objects allocated before are as
they were, and the pointer returned leads to new objects that form the same
tree. -/
theorem copyH_spec (t : Tree) :
    ∀ (fuel : Nat) (h : Heap) (p : Option Nat), Holds h p t → size t < fuel →
      ∃ h' p', copyH fuel h p = some (h', p') ∧ h.length ≤ h'.length
        ∧ (∀ x, x < h.length → load h' x = load h x)
        ∧ Holds h' p' t
        ∧ (∀ x ∈ addrs h' p' t, h.length ≤ x)
        ∧ (addrs h' p' t).Nodup
        ∧ (p = none → p' = none) := by
  induction t with
  | null =>
    intro fuel h p hh hf
    cases p with
    | some a => exact absurd hh (by simp [Holds])
    | none =>
      cases fuel with
      | zero => exact absurd hf (by simp [size])
      | succ f =>
        exact ⟨h, none, rfl, le_refl _, fun _ _ => rfl, trivial, by simp [addrs],
          by simp [addrs], fun _ => rfl⟩
  | node l s r ihl ihr =>
    intro fuel h p hh hf
    cases p with
    | none => exact absurd hh (by simp [Holds])
    | some a =>
      cases fuel with
      | zero => exact absurd hf (by simp)
      | succ f =>
        simp only [size] at hf
        obtain ⟨c, hc, hs, hl, hr⟩ := holds_node.1 hh
        have ha : a < h.length := load_lt hc
        have hc1 : load (h ++ [some (newNode c)]) a = some c := by
          rw [load_append_of_lt _ _ ha, hc]
        obtain ⟨hl1, -⟩ := @holds_congr h (h ++ [some (newNode c)]) l c.m_left
          (fun x hx => load_append_of_lt h _ (addrs_lt l _ hl x hx)) hl
        obtain ⟨h2, pl, e2, len2, old2, hl2, fresh2, nd2, -⟩ := ihl f _ c.m_left hl1 (by omega)
        simp only [List.length_append, List.length_singleton] at len2 old2 fresh2
        have hn2 : load h2 h.length = some (newNode c) := by
          rw [old2 _ (by omega), load_append_self]
        have ha2 : load h2 a = some c := by
          rw [old2 _ (by omega), hc1]
        have hc3 : load (h2.set h.length (some { newNode c with m_left := pl })) a
            = some c := by
          rw [load_set_ne _ _ (by omega), ha2]
        obtain ⟨hr3, -⟩ := @holds_congr h
          (h2.set h.length (some { newNode c with m_left := pl })) r c.m_right
          (fun x hx => by
            have hx' := addrs_lt r _ hr x hx
            rw [load_set_ne _ _ (by omega), old2 _ (by omega), load_append_of_lt _ _ hx'])
          hr
        obtain ⟨h4, pr, e4, len4, old4, hr4, fresh4, nd4, -⟩ := ihr f _ c.m_right hr3 (by omega)
        simp only [List.length_set] at len4 old4 fresh4
        have hn4 : load h4 h.length = some { newNode c with m_left := pl } := by
          rw [old4 _ (by omega), load_set_self _ _ (by omega)]
        have hfin : load (h4.set h.length
              (some { ({ newNode c with m_left := pl } : Cell) with m_right := pr })) h.length
            = some { ({ newNode c with m_left := pl } : Cell) with m_right := pr } :=
          load_set_self _ _ (by omega)
        obtain ⟨hl5, el5⟩ := @holds_congr h2
          (h4.set h.length
            (some { ({ newNode c with m_left := pl } : Cell) with m_right := pr })) l pl
          (fun x hx => by
            have hx1 := fresh2 x hx
            have hx2 := addrs_lt l _ hl2 x hx
            rw [load_set_ne _ _ (by omega), old4 _ (by omega), load_set_ne _ _ (by omega)])
          hl2
        obtain ⟨hr5, er5⟩ := @holds_congr h4
          (h4.set h.length
            (some { ({ newNode c with m_left := pl } : Cell) with m_right := pr })) r pr
          (fun x hx => by
            have hx1 := fresh4 x hx
            rw [load_set_ne _ _ (by omega)])
          hr4
        refine ⟨h4.set h.length
            (some { ({ newNode c with m_left := pl } : Cell) with m_right := pr }),
          some h.length, ?_, ?_, ?_, ?_, ?_, ?_, by simp⟩
        · simp only [copyH, hc, Option.some_bind, hc1, e2, hn2, hc3, e4, hn4]
        · simp only [List.length_set]
          omega
        · intro x hx
          rw [load_set_ne _ _ (by omega), old4 _ (by omega), load_set_ne _ _ (by omega),
            old2 _ (by omega), load_append_of_lt _ _ hx]
        · refine holds_node.2 ⟨_, hfin, ?_, hl5, hr5⟩
          rw [← hs]
          rfl
        · intro x hx
          rw [addrs_node hfin] at hx
          rcases List.mem_cons.1 hx with rfl | hx
          · exact le_refl _
          · rcases List.mem_append.1 hx with hx | hx
            · rw [el5] at hx
              have := fresh2 x hx
              omega
            · rw [er5] at hx
              have := fresh4 x hx
              omega
        · rw [addrs_node hfin, el5, er5, List.nodup_cons, List.nodup_append]
          refine ⟨?_, nd2, nd4, ?_⟩
          · intro hx
            rcases List.mem_append.1 hx with hx | hx
            · have := fresh2 _ hx
              omega
            · have := fresh4 _ hx
              omega
          · intro x hx hx'
            have h1x := addrs_lt l _ hl2 x hx
            have h2x := fresh4 x hx'
            omega

theorem copyH_frame {B : List Nat} (fuel : Nat) :
    ∀ {h h' : Heap} {p p' : Option Nat}, Sep B h → copyH fuel h p = some (h', p') →
      Sep B h' ∧ Keeps B h h' ∧ PtrOut B p' := by
  induction fuel with
  | zero =>
    intro h h' p p' _ e
    simp [copyH] at e
  | succ fuel ih =>
    intro h h' p p' hs e
    cases p with
    | none =>
      simp only [copyH, Option.some.injEq, Prod.mk.injEq] at e
      obtain ⟨rfl, rfl⟩ := e
      exact ⟨hs, keeps_refl B h, trivial⟩
    | some a =>
      simp only [copyH] at e
      obtain ⟨c, -, e⟩ := Option.bind_eq_some.1 e
      obtain ⟨s1, k1, f1⟩ := sep_append (some (newNode c)) hs ⟨trivial, trivial⟩
      obtain ⟨c1, -, e⟩ := Option.bind_eq_some.1 e
      obtain ⟨x, ex, e⟩ := Option.bind_eq_some.1 e
      obtain ⟨s2, k2, p2⟩ := ih s1 ex
      obtain ⟨n1, hn1, e⟩ := Option.bind_eq_some.1 e
      have hn1out := sep_load s2 f1 hn1
      obtain ⟨s3, k3⟩ := sep_set (some { n1 with m_left := x.2 }) s2 f1 ⟨p2, hn1out.2⟩
      obtain ⟨c3, -, e⟩ := Option.bind_eq_some.1 e
      obtain ⟨y, ey, e⟩ := Option.bind_eq_some.1 e
      obtain ⟨s4, k4, p4⟩ := ih s3 ey
      obtain ⟨n2, hn2, e⟩ := Option.bind_eq_some.1 e
      have hn2out := sep_load s4 f1 hn2
      obtain ⟨s5, k5⟩ := sep_set (some { n2 with m_right := y.2 }) s4 f1 ⟨hn2out.1, p4⟩
      simp only [Option.some.injEq, Prod.mk.injEq] at e
      obtain ⟨rfl, rfl⟩ := e
      exact ⟨s5, keeps_trans (keeps_trans (keeps_trans (keeps_trans k1 k2) k3) k4) k5, f1⟩

/-- Clearing a tree whose nodes are distinct objects: `clearH` returns, every
node of the tree is deleted and every other object is as it was. -/
theorem clearH_spec (t : Tree) :
    ∀ (fuel : Nat) (h : Heap) (p : Option Nat), Holds h p t → (addrs h p t).Nodup →
      size t < fuel →
      ∃ h', clearH fuel h p = some h' ∧ h'.length = h.length
        ∧ (∀ x, x ∉ addrs h p t → load h' x = load h x)
        ∧ (∀ x ∈ addrs h p t, load h' x = none) := by
  induction t with
  | null =>
    intro fuel h p hh _ hf
    cases p with
    | some a => exact absurd hh (by simp [Holds])
    | none =>
      cases fuel with
      | zero => exact absurd hf (by simp [size])
      | succ f => exact ⟨h, rfl, rfl, fun _ _ => rfl, by simp [addrs]⟩
  | node l s r ihl ihr =>
    intro fuel h p hh hnd hf
    cases p with
    | none => exact absurd hh (by simp [Holds])
    | some a =>
      cases fuel with
      | zero => exact absurd hf (by simp)
      | succ f =>
        simp only [size] at hf
        obtain ⟨c, hc, -, hl, hr⟩ := holds_node.1 hh
        have ha : a < h.length := load_lt hc
        rw [addrs_node hc] at hnd ⊢
        rw [List.nodup_cons, List.nodup_append] at hnd
        obtain ⟨hana, hndl, hndr, hdis⟩ := hnd
        have hal : a ∉ addrs h c.m_left l := fun hx => hana (List.mem_append_left _ hx)
        have har : a ∉ addrs h c.m_right r := fun hx => hana (List.mem_append_right _ hx)
        obtain ⟨h1, e1, len1, out1, del1⟩ := ihl f h c.m_left hl hndl (by omega)
        have hc1 : load h1 a = some c := by rw [out1 a hal, hc]
        obtain ⟨hr2, er2⟩ := @holds_congr h (h1.set a (some { c with m_left := none })) r
          c.m_right
          (fun x hx => by
            have hxa : a ≠ x := fun e => har (e ▸ hx)
            rw [load_set_ne _ _ hxa, out1 x (fun hxl => hdis hxl hx)])
          hr
        obtain ⟨h3, e3, len3, out3, del3⟩ := ihr f _ c.m_right hr2 (by rw [er2]; exact hndr)
          (by omega)
        rw [er2] at out3 del3
        simp only [List.length_set] at len3
        have hc3 : load h3 a = some { c with m_left := none } := by
          rw [out3 a har, load_set_self _ _ (by omega)]
        refine ⟨(h3.set a (some { ({ c with m_left := none } : Cell) with m_right := none })).set
          a none, ?_, ?_, ?_, ?_⟩
        · simp only [clearH, hc, Option.some_bind, e1, hc1, e3, hc3]
        · simp only [List.length_set]
          omega
        · intro x hx
          simp only [List.mem_cons, List.mem_append, not_or] at hx
          have hxa : a ≠ x := fun e => hx.1 e.symm
          rw [load_set_ne _ _ hxa, load_set_ne _ _ hxa, out3 x hx.2.2, load_set_ne _ _ hxa,
            out1 x hx.2.1]
        · intro x hx
          rcases List.mem_cons.1 hx with rfl | hx
          · exact load_set_self _ _ (by simp only [List.length_set]; omega)
          · have hxa : a ≠ x := fun e => hana (e ▸ hx)
            rw [load_set_ne _ _ hxa, load_set_ne _ _ hxa]
            rcases List.mem_append.1 hx with hx | hx
            · rw [out3 x (fun hxr => hdis hx hxr), load_set_ne _ _ hxa]
              exact del1 x hx
            · exact del3 x hx

theorem holds_root_mem {h : Heap} {a : Nat} {t : Tree} (hh : Holds h (some a) t) :
    a ∈ addrs h (some a) t := by
  cases t with
  | null => exact absurd hh (by simp [Holds])
  | node l s r =>
    obtain ⟨c, hc, -⟩ := holds_node.1 hh
    rw [addrs_node hc]
    exact List.mem_cons_self _ _

/-- A tree in the store is as it was when its objects were kept. -/
theorem holds_of_keeps {h h' : Heap} {p : Option Nat} {t : Tree}
    (k : Keeps (addrs h p t) h h') (hh : Holds h p t) :
    Holds h' p t ∧ addrs h' p t = addrs h p t :=
  holds_congr t p k.2 hh

/-! ## The operations on the free store and on trees -/

theorem refines_refl {h : Heap} {p : Option Nat} {t : Tree} (hh : Holds h p t)
    (hn : (addrs h p t).Nodup) : Refines h p t h p t :=
  ⟨hh, hn, fun _ hx => Or.inl hx, le_refl _, fun _ _ _ => rfl⟩

theorem refines_trans {h h1 h2 : Heap} {p p1 p2 : Option Nat} {t t1 t2 : Tree}
    (a : Refines h p t h1 p1 t1) (b : Refines h1 p1 t1 h2 p2 t2) :
    Refines h p t h2 p2 t2 := by
  obtain ⟨-, -, a3, a4, a5⟩ := a
  obtain ⟨b1, b2, b3, b4, b5⟩ := b
  refine ⟨b1, b2, fun x hx => ?_, le_trans a4 b4, fun x hx hlt => ?_⟩
  · rcases b3 x hx with hx1 | hx1
    · exact a3 x hx1
    · exact Or.inr (le_trans a4 hx1)
  · have hx1 : x ∉ addrs h1 p1 t1 := by
      intro hx1
      rcases a3 x hx1 with hx2 | hx2
      · exact hx hx2
      · omega
    rw [b5 x hx1 (by omega), a5 x hx hlt]

/-- A tree that shares no object with the tree operated on is as it was. -/
theorem holds_of_refines {h h' : Heap} {p p' q : Option Nat} {t t' u : Tree}
    (r : Refines h p t h' p' t') (hu : Holds h q u)
    (hd : ∀ x ∈ addrs h q u, x ∉ addrs h p t) :
    Holds h' q u ∧ addrs h' q u = addrs h q u :=
  holds_congr u q (fun x hx => r.2.2.2.2 x (hd x hx) (addrs_lt u q hu x hx)) hu

theorem holds_set {h : Heap} {q : Option Nat} {u : Tree} (a : Nat) (v : Option Cell)
    (hu : Holds h q u) (ha : a ∉ addrs h q u) :
    Holds (h.set a v) q u ∧ addrs (h.set a v) q u = addrs h q u :=
  holds_congr u q (fun _ hx => load_set_ne h v (fun e => ha (e ▸ hx))) hu

theorem childHeightH_holds {h : Heap} {p : Option Nat} {t : Tree} (hh : Holds h p t) :
    childHeightH h p = some (childHeight t) := by
  cases t with
  | null =>
    cases p with
    | none => rfl
    | some a => exact absurd hh (by simp [Holds])
  | node l s r =>
    cases p with
    | none => exact absurd hh (by simp [Holds])
    | some a =>
      obtain ⟨c, hc, hs, -, -⟩ := holds_node.1 hh
      simp only [childHeightH, hc, Option.map_some', childHeight, hs]

theorem getBalanceH_holds {h : Heap} {p : Option Nat} {t : Tree} (hh : Holds h p t) :
    getBalanceH h p = some (getBalance t) := by
  cases t with
  | null =>
    cases p with
    | none => rfl
    | some a => exact absurd hh (by simp [Holds])
  | node l s r =>
    cases p with
    | none => exact absurd hh (by simp [Holds])
    | some a =>
      obtain ⟨c, hc, -, hl, hr⟩ := holds_node.1 hh
      simp only [getBalanceH, hc, Option.some_bind, childHeightH_holds hl,
        childHeightH_holds hr, getBalance]

/-- The nodup facts of the addresses of a node. -/
theorem nodup_node {h : Heap} {a : Nat} {l r : Tree} {s : Sat} {c : Cell}
    (hc : load h a = some c) (hn : (addrs h (some a) (node l s r)).Nodup) :
    a ∉ addrs h c.m_left l ∧ a ∉ addrs h c.m_right r
      ∧ (addrs h c.m_left l).Nodup ∧ (addrs h c.m_right r).Nodup
      ∧ ∀ x ∈ addrs h c.m_left l, x ∉ addrs h c.m_right r := by
  rw [addrs_node hc, List.nodup_cons, List.nodup_append] at hn
  obtain ⟨h1, h2, h3, h4⟩ := hn
  exact ⟨fun hx => h1 (List.mem_append_left _ hx), fun hx => h1 (List.mem_append_right _ hx),
    h2, h3, fun x hx hx' => h4 hx hx'⟩

/-- A node in the store, from its object and its two subtrees. -/
theorem refines_node {h h' : Heap} {p : Option Nat} {t : Tree} {a : Nat} {c : Cell}
    {l r : Tree} {s : Sat} (hc : load h' a = some c) (hs : c.sat = s)
    (hl : Holds h' c.m_left l) (hr : Holds h' c.m_right r)
    (hnl : (addrs h' c.m_left l).Nodup) (hnr : (addrs h' c.m_right r).Nodup)
    (hal : a ∉ addrs h' c.m_left l) (har : a ∉ addrs h' c.m_right r)
    (hd : ∀ x ∈ addrs h' c.m_left l, x ∉ addrs h' c.m_right r)
    (hsub : ∀ x, x = a ∨ x ∈ addrs h' c.m_left l ∨ x ∈ addrs h' c.m_right r →
      x ∈ addrs h p t ∨ h.length ≤ x)
    (hlen : h.length ≤ h'.length)
    (hold : ∀ x, x ∉ addrs h p t → x < h.length → load h' x = load h x) :
    Refines h p t h' (some a) (node l s r) := by
  refine ⟨holds_node.2 ⟨c, hc, hs, hl, hr⟩, ?_, ?_, hlen, hold⟩
  · rw [addrs_node hc, List.nodup_cons, List.nodup_append]
    refine ⟨?_, hnl, hnr, fun x hx hx' => hd x hx hx'⟩
    intro hx
    rcases List.mem_append.1 hx with hx | hx
    · exact hal hx
    · exact har hx
  · intro x hx
    rw [addrs_node hc] at hx
    apply hsub
    rcases List.mem_cons.1 hx with hx | hx
    · exact Or.inl hx
    · rcases List.mem_append.1 hx with hx | hx
      · exact Or.inr (Or.inl hx)
      · exact Or.inr (Or.inr hx)

theorem updateHeightH_refines {h : Heap} {p : Option Nat} {t : Tree} (hh : Holds h p t)
    (hn : (addrs h p t).Nodup) :
    ∃ h', updateHeightH h p = some h' ∧ Refines h p t h' p (updateHeight t)
      ∧ addrs h' p (updateHeight t) = addrs h p t ∧ h'.length = h.length := by
  cases t with
  | null =>
    cases p with
    | some a => exact absurd hh (by simp [Holds])
    | none => exact ⟨h, rfl, refines_refl hh hn, rfl, rfl⟩
  | node l s r =>
    cases p with
    | none => exact absurd hh (by simp [Holds])
    | some a =>
      obtain ⟨c, hc, hs, hl, hr⟩ := holds_node.1 hh
      obtain ⟨hal, har, hnl, hnr, hd⟩ := nodup_node hc hn
      have ha := load_lt hc
      have key : ∀ k : Int,
          Refines h (some a) (node l s r)
            (h.set a (some { c with sat := { c.sat with m_height := k } })) (some a)
            (node l { s with m_height := k } r)
          ∧ addrs (h.set a (some { c with sat := { c.sat with m_height := k } })) (some a)
              (node l { s with m_height := k } r) = addrs h (some a) (node l s r) := by
        intro k
        have hc' : load (h.set a (some { c with sat := { c.sat with m_height := k } })) a
            = some { c with sat := { c.sat with m_height := k } } := load_set_self _ _ ha
        obtain ⟨hl', el⟩ := holds_set a (some { c with sat := { c.sat with m_height := k } })
          hl hal
        obtain ⟨hr', er⟩ := holds_set a (some { c with sat := { c.sat with m_height := k } })
          hr har
        have e : addrs (h.set a (some { c with sat := { c.sat with m_height := k } }))
            (some a) (node l { s with m_height := k } r) = addrs h (some a) (node l s r) := by
          rw [addrs_node hc', addrs_node hc]
          exact congrArg₂ (fun x y => a :: (x ++ y)) el er
        refine ⟨⟨holds_node.2 ⟨_, hc', by rw [← hs], hl', hr'⟩, by rw [e]; exact hn,
          fun x hx => Or.inl (by rw [e] at hx; exact hx), by simp, fun x hx _ => ?_⟩, e⟩
        rw [addrs_node hc] at hx
        exact load_set_ne _ _ (fun e => hx (e ▸ List.mem_cons_self _ _))
      simp only [updateHeightH, hc, Option.some_bind, childHeightH_holds hl,
        childHeightH_holds hr, updateHeight]
      split
      · exact ⟨_, rfl, (key _).1, (key _).2, by simp⟩
      · exact ⟨_, rfl, (key _).1, (key _).2, by simp⟩

theorem mem_addrs_node {h : Heap} {a : Nat} {l r : Tree} {s : Sat} {c : Cell}
    (hc : load h a = some c) (x : Nat) :
    x ∈ addrs h (some a) (node l s r)
      ↔ x = a ∨ x ∈ addrs h c.m_left l ∨ x ∈ addrs h c.m_right r := by
  rw [addrs_node hc, List.mem_cons, List.mem_append]

/-- An operation on the left subtree, followed by the assignment of the new
content of the slot `node->m_left`, is an operation on the tree. -/
theorem refines_left {h h1 : Heap} {a : Nat} {c : Cell} {l l' r : Tree} {s : Sat}
    {pl : Option Nat} (hh : Holds h (some a) (node l s r))
    (hn : (addrs h (some a) (node l s r)).Nodup) (hc : load h a = some c)
    (rl : Refines h c.m_left l h1 pl l') :
    load h1 a = some c
      ∧ Refines h (some a) (node l s r) (h1.set a (some { c with m_left := pl })) (some a)
          (node l' s r) := by
  obtain ⟨c0, hc0, hs, hl, hr⟩ := holds_node.1 hh
  have ec : c0 = c := by
    rw [hc] at hc0
    exact (Option.some.inj hc0).symm
  subst ec
  obtain ⟨hal, har, hnl, hnr, hd⟩ := nodup_node hc hn
  have ha := load_lt hc
  obtain ⟨r1, r2, r3, r4, r5⟩ := rl
  have hc1 : load h1 a = some c0 := by rw [r5 a hal ha, hc]
  have hal1 : a ∉ addrs h1 pl l' := by
    intro hx
    rcases r3 a hx with hx | hx
    · exact hal hx
    · omega
  obtain ⟨hr1, er1⟩ := holds_of_refines ⟨r1, r2, r3, r4, r5⟩ hr (fun x hx hx' => hd x hx' hx)
  obtain ⟨hl2, el2⟩ := holds_set a (some { c0 with m_left := pl }) r1 hal1
  obtain ⟨hr2, er2⟩ := holds_set a (some { c0 with m_left := pl }) hr1 (by rw [er1]; exact har)
  have hc2 : load (h1.set a (some { c0 with m_left := pl })) a
      = some { c0 with m_left := pl } := load_set_self _ _ (by omega)
  refine ⟨hc1, ?_⟩
  exact @refines_node h (h1.set a (some { c0 with m_left := pl })) (some a) (node l s r)
    a { c0 with m_left := pl } l' r s hc2 hs hl2 hr2 (by rw [el2]; exact r2)
    (by rw [er2, er1]; exact hnr) (by rw [el2]; exact hal1) (by rw [er2, er1]; exact har)
    (by
      intro x hx hx'
      rw [el2] at hx
      rw [er2, er1] at hx'
      rcases r3 x hx with hx1 | hx1
      · exact hd x hx1 hx'
      · have := addrs_lt r _ hr x hx'
        omega)
    (by
      intro x hx
      rw [el2, er2, er1] at hx
      rcases hx with hx | hx | hx
      · exact Or.inl ((mem_addrs_node hc x).2 (Or.inl hx))
      · rcases r3 x hx with hx1 | hx1
        · exact Or.inl ((mem_addrs_node hc x).2 (Or.inr (Or.inl hx1)))
        · exact Or.inr hx1
      · exact Or.inl ((mem_addrs_node hc x).2 (Or.inr (Or.inr hx))))
    (by simp only [List.length_set]; exact r4)
    (by
      intro x hx hlt
      have hx' := fun e => hx ((mem_addrs_node hc x).2 e)
      rw [load_set_ne _ _ (fun e => hx' (Or.inl e.symm))]
      exact r5 x (fun e => hx' (Or.inr (Or.inl e))) hlt)

/-- An operation on the right subtree, followed by the assignment of the new
content of the slot `node->m_right`, is an operation on the tree. -/
theorem refines_right {h h1 : Heap} {a : Nat} {c : Cell} {l r r' : Tree} {s : Sat}
    {pr : Option Nat} (hh : Holds h (some a) (node l s r))
    (hn : (addrs h (some a) (node l s r)).Nodup) (hc : load h a = some c)
    (rr : Refines h c.m_right r h1 pr r') :
    load h1 a = some c
      ∧ Refines h (some a) (node l s r) (h1.set a (some { c with m_right := pr })) (some a)
          (node l s r') := by
  obtain ⟨c0, hc0, hs, hl, hr⟩ := holds_node.1 hh
  have ec : c0 = c := by
    rw [hc] at hc0
    exact (Option.some.inj hc0).symm
  subst ec
  obtain ⟨hal, har, hnl, hnr, hd⟩ := nodup_node hc hn
  have ha := load_lt hc
  obtain ⟨r1, r2, r3, r4, r5⟩ := rr
  have hc1 : load h1 a = some c0 := by rw [r5 a har ha, hc]
  have har1 : a ∉ addrs h1 pr r' := by
    intro hx
    rcases r3 a hx with hx | hx
    · exact har hx
    · omega
  obtain ⟨hl1, el1⟩ := holds_of_refines ⟨r1, r2, r3, r4, r5⟩ hl (fun x hx => hd x hx)
  obtain ⟨hr2, er2⟩ := holds_set a (some { c0 with m_right := pr }) r1 har1
  obtain ⟨hl2, el2⟩ := holds_set a (some { c0 with m_right := pr }) hl1 (by rw [el1]; exact hal)
  have hc2 : load (h1.set a (some { c0 with m_right := pr })) a
      = some { c0 with m_right := pr } := load_set_self _ _ (by omega)
  refine ⟨hc1, ?_⟩
  exact @refines_node h (h1.set a (some { c0 with m_right := pr })) (some a) (node l s r)
    a { c0 with m_right := pr } l r' s hc2 hs hl2 hr2 (by rw [el2, el1]; exact hnl)
    (by rw [er2]; exact r2) (by rw [el2, el1]; exact hal) (by rw [er2]; exact har1)
    (by
      intro x hx hx'
      rw [el2, el1] at hx
      rw [er2] at hx'
      rcases r3 x hx' with hx1 | hx1
      · exact hd x hx hx1
      · have := addrs_lt l _ hl x hx
        omega)
    (by
      intro x hx
      rw [el2, el1, er2] at hx
      rcases hx with hx | hx | hx
      · exact Or.inl ((mem_addrs_node hc x).2 (Or.inl hx))
      · exact Or.inl ((mem_addrs_node hc x).2 (Or.inr (Or.inl hx)))
      · rcases r3 x hx with hx1 | hx1
        · exact Or.inl ((mem_addrs_node hc x).2 (Or.inr (Or.inr hx1)))
        · exact Or.inr hx1)
    (by simp only [List.length_set]; exact r4)
    (by
      intro x hx hlt
      have hx' := fun e => hx ((mem_addrs_node hc x).2 e)
      rw [load_set_ne _ _ (fun e => hx' (Or.inl e.symm))]
      exact r5 x (fun e => hx' (Or.inr (Or.inr e))) hlt)

theorem set_load_self {h : Heap} {a : Nat} {c : Cell} (hc : load h a = some c) :
    h.set a (some c) = h := by
  have ha := load_lt hc
  apply List.ext_getElem?
  intro i
  rw [List.getElem?_set]
  by_cases hi : a = i
  · subst hi
    simp only [ha, if_true]
    unfold load at hc
    rw [List.getD_eq_getElem?_getD] at hc
    cases hg : h[a]? with
    | none => simp [hg] at hc
    | some v =>
      rw [hg] at hc
      simp only [Option.getD_some] at hc
      rw [hc]
  · simp [hi]

theorem rightRotateH_refines {h : Heap} {p : Option Nat} {t t' : Tree} (hh : Holds h p t)
    (hn : (addrs h p t).Nodup) (e : rightRotate t = some t') :
    ∃ h' p', rightRotateH h p = some (h', p') ∧ Refines h p t h' p' t' := by
  cases t with
  | null => simp [rightRotate] at e
  | node l s r =>
    cases l with
    | null => simp [rightRotate] at e
    | node ll ls lr =>
      simp only [rightRotate, Option.some.injEq] at e
      subst e
      cases p with
      | none => exact absurd hh (by simp [Holds])
      | some a =>
        obtain ⟨c, hc, hs, hl, hr⟩ := holds_node.1 hh
        obtain ⟨hal, har, hnl, hnr, hdlr⟩ := nodup_node hc hn
        cases hcl : c.m_left with
        | none =>
          rw [hcl] at hl
          exact absurd hl (by simp [Holds])
        | some b =>
          rw [hcl] at hl hal hnl hdlr
          obtain ⟨d, hd, hds, hll, hlr⟩ := holds_node.1 hl
          obtain ⟨hbl, hbr, hnll, hnlr, hdl⟩ := nodup_node hd hnl
          have ha := load_lt hc
          have hb := load_lt hd
          have hab : a ≠ b := fun e => hal (by rw [e]; exact holds_root_mem hl)
          have hmem := mem_addrs_node (l := ll) (r := lr) (s := ls) hd
          have haLL : a ∉ addrs h d.m_left ll := fun hx => hal ((hmem a).2 (Or.inr (Or.inl hx)))
          have haLR : a ∉ addrs h d.m_right lr := fun hx => hal ((hmem a).2 (Or.inr (Or.inr hx)))
          have hbR : b ∉ addrs h c.m_right r := hdlr b ((hmem b).2 (Or.inl rfl))
          have hLLR : ∀ x ∈ addrs h d.m_left ll, x ∉ addrs h c.m_right r :=
            fun x hx => hdlr x ((hmem x).2 (Or.inr (Or.inl hx)))
          have hLRR : ∀ x ∈ addrs h d.m_right lr, x ∉ addrs h c.m_right r :=
            fun x hx => hdlr x ((hmem x).2 (Or.inr (Or.inr hx)))
          -- the two pointer assignments
          have hd1 : load (h.set a (some { c with m_left := d.m_right })) b = some d := by
            rw [load_set_ne _ _ hab, hd]
          have hc2 : load ((h.set a (some { c with m_left := d.m_right })).set b
              (some { d with m_right := some a })) a = some { c with m_left := d.m_right } := by
            rw [load_set_ne _ _ (Ne.symm hab), load_set_self _ _ ha]
          have hd2 : load ((h.set a (some { c with m_left := d.m_right })).set b
              (some { d with m_right := some a })) b = some { d with m_right := some a } :=
            load_set_self _ _ (by simp only [List.length_set]; exact hb)
          have tr : ∀ (q : Option Nat) (u : Tree), Holds h q u → a ∉ addrs h q u →
              b ∉ addrs h q u →
              Holds ((h.set a (some { c with m_left := d.m_right })).set b
                  (some { d with m_right := some a })) q u
              ∧ addrs ((h.set a (some { c with m_left := d.m_right })).set b
                  (some { d with m_right := some a })) q u = addrs h q u := by
            intro q u hu hau hbu
            obtain ⟨h1u, e1u⟩ := holds_set a (some { c with m_left := d.m_right }) hu hau
            obtain ⟨h2u, e2u⟩ := holds_set b (some { d with m_right := some a }) h1u
              (by rw [e1u]; exact hbu)
            exact ⟨h2u, by rw [e2u, e1u]⟩
          obtain ⟨hll2, ell2⟩ := tr _ _ hll haLL hbl
          obtain ⟨hlr2, elr2⟩ := tr _ _ hlr haLR hbr
          obtain ⟨hr2, er2⟩ := tr _ _ hr har hbR
          -- the tree after the two assignments
          have inner : Refines h (some a) (node (node ll ls lr) s r)
              ((h.set a (some { c with m_left := d.m_right })).set b
                (some { d with m_right := some a })) (some a) (node lr s r) := by
            exact @refines_node h _ (some a) (node (node ll ls lr) s r) a
              { c with m_left := d.m_right } lr r s hc2 hs hlr2 hr2
              (by rw [elr2]; exact hnlr) (by rw [er2]; exact hnr)
              (by rw [elr2]; exact haLR) (by rw [er2]; exact har)
              (by
                intro x hx hx'
                rw [elr2] at hx
                rw [er2] at hx'
                exact hLRR x hx hx')
              (by
                intro x hx
                rw [elr2, er2] at hx
                refine Or.inl ((mem_addrs_node hc x).2 ?_)
                rw [hcl]
                rcases hx with hx | hx | hx
                · exact Or.inl hx
                · exact Or.inr (Or.inl ((hmem x).2 (Or.inr (Or.inr hx))))
                · exact Or.inr (Or.inr hx))
              (by simp)
              (by
                intro x hx _
                have hx' := fun e => hx ((mem_addrs_node hc x).2 e)
                rw [hcl] at hx'
                rw [load_set_ne _ _ (fun e => hx' (Or.inr (Or.inl ((hmem x).2 (Or.inl e.symm))))),
                  load_set_ne _ _ (fun e => hx' (Or.inl e.symm))])
          have einner := addrs_node (l := lr) (r := r) (s := s) hc2
          have outer : Refines h (some a) (node (node ll ls lr) s r)
              ((h.set a (some { c with m_left := d.m_right })).set b
                (some { d with m_right := some a })) (some b) (node ll ls (node lr s r)) := by
            exact @refines_node h _ (some a) (node (node ll ls lr) s r) b
              { d with m_right := some a } ll (node lr s r) ls hd2 hds hll2 inner.1
              (by rw [ell2]; exact hnll) inner.2.1
              (by rw [ell2]; exact hbl)
              (by
                rw [einner, elr2, er2]
                simp only [List.mem_cons, List.mem_append, not_or]
                exact ⟨Ne.symm hab, hbr, hbR⟩)
              (by
                intro x hx
                rw [ell2] at hx
                rw [einner, elr2, er2]
                simp only [List.mem_cons, List.mem_append, not_or]
                exact ⟨fun e => haLL (e ▸ hx), hdl x hx, hLLR x hx⟩)
              (by
                intro x hx
                rcases hx with hx | hx | hx
                · refine Or.inl ((mem_addrs_node hc x).2 ?_)
                  rw [hcl]
                  exact Or.inr (Or.inl ((hmem x).2 (Or.inl hx)))
                · rw [ell2] at hx
                  refine Or.inl ((mem_addrs_node hc x).2 ?_)
                  rw [hcl]
                  exact Or.inr (Or.inl ((hmem x).2 (Or.inr (Or.inl hx))))
                · exact inner.2.2.1 x hx)
              (by simp)
              inner.2.2.2.2
          -- the two height updates
          obtain ⟨h3, e3, r3, -, -⟩ := updateHeightH_refines inner.1 inner.2.1
          obtain ⟨hd3, rr3⟩ := refines_right outer.1 outer.2.1 hd2 r3
          rw [show ({ ({ d with m_right := some a } : Cell) with m_right := some a } : Cell)
              = { d with m_right := some a } from rfl, set_load_self hd3] at rr3
          obtain ⟨h4, e4, r4, -, -⟩ := updateHeightH_refines rr3.1 rr3.2.1
          refine ⟨h4, some b, ?_, refines_trans outer (refines_trans rr3 r4)⟩
          simp only [rightRotateH, hc, Option.some_bind, hcl, hd, hd1, hd2, e3, e4]

theorem leftRotateH_refines {h : Heap} {p : Option Nat} {t t' : Tree} (hh : Holds h p t)
    (hn : (addrs h p t).Nodup) (e : leftRotate t = some t') :
    ∃ h' p', leftRotateH h p = some (h', p') ∧ Refines h p t h' p' t' := by
  cases t with
  | null => simp [leftRotate] at e
  | node l s r =>
    cases r with
    | null => simp [leftRotate] at e
    | node rl rs rr =>
      simp only [leftRotate, Option.some.injEq] at e
      subst e
      cases p with
      | none => exact absurd hh (by simp [Holds])
      | some a =>
        obtain ⟨c, hc, hs, hl, hr⟩ := holds_node.1 hh
        obtain ⟨hal, har, hnl, hnr, hdlr⟩ := nodup_node hc hn
        cases hcr : c.m_right with
        | none =>
          rw [hcr] at hr
          exact absurd hr (by simp [Holds])
        | some b =>
          rw [hcr] at hr har hnr hdlr
          obtain ⟨d, hd, hds, hrl, hrr⟩ := holds_node.1 hr
          obtain ⟨hbl, hbr, hnrl, hnrr, hdr⟩ := nodup_node hd hnr
          have ha := load_lt hc
          have hb := load_lt hd
          have hab : a ≠ b := fun e => har (by rw [e]; exact holds_root_mem hr)
          have hmem := mem_addrs_node (l := rl) (r := rr) (s := rs) hd
          have haRL : a ∉ addrs h d.m_left rl := fun hx => har ((hmem a).2 (Or.inr (Or.inl hx)))
          have haRR : a ∉ addrs h d.m_right rr := fun hx => har ((hmem a).2 (Or.inr (Or.inr hx)))
          have hbL : b ∉ addrs h c.m_left l := fun hx => hdlr b hx ((hmem b).2 (Or.inl rfl))
          have hLRL : ∀ x ∈ addrs h c.m_left l, x ∉ addrs h d.m_left rl :=
            fun x hx hx' => hdlr x hx ((hmem x).2 (Or.inr (Or.inl hx')))
          have hLRR : ∀ x ∈ addrs h c.m_left l, x ∉ addrs h d.m_right rr :=
            fun x hx hx' => hdlr x hx ((hmem x).2 (Or.inr (Or.inr hx')))
          have hd1 : load (h.set a (some { c with m_right := d.m_left })) b = some d := by
            rw [load_set_ne _ _ hab, hd]
          have hc2 : load ((h.set a (some { c with m_right := d.m_left })).set b
              (some { d with m_left := some a })) a = some { c with m_right := d.m_left } := by
            rw [load_set_ne _ _ (Ne.symm hab), load_set_self _ _ ha]
          have hd2 : load ((h.set a (some { c with m_right := d.m_left })).set b
              (some { d with m_left := some a })) b = some { d with m_left := some a } :=
            load_set_self _ _ (by simp only [List.length_set]; exact hb)
          have tr : ∀ (q : Option Nat) (u : Tree), Holds h q u → a ∉ addrs h q u →
              b ∉ addrs h q u →
              Holds ((h.set a (some { c with m_right := d.m_left })).set b
                  (some { d with m_left := some a })) q u
              ∧ addrs ((h.set a (some { c with m_right := d.m_left })).set b
                  (some { d with m_left := some a })) q u = addrs h q u := by
            intro q u hu hau hbu
            obtain ⟨h1u, e1u⟩ := holds_set a (some { c with m_right := d.m_left }) hu hau
            obtain ⟨h2u, e2u⟩ := holds_set b (some { d with m_left := some a }) h1u
              (by rw [e1u]; exact hbu)
            exact ⟨h2u, by rw [e2u, e1u]⟩
          obtain ⟨hl2, el2⟩ := tr _ _ hl hal hbL
          obtain ⟨hrl2, erl2⟩ := tr _ _ hrl haRL hbl
          obtain ⟨hrr2, err2⟩ := tr _ _ hrr haRR hbr
          have inner : Refines h (some a) (node l s (node rl rs rr))
              ((h.set a (some { c with m_right := d.m_left })).set b
                (some { d with m_left := some a })) (some a) (node l s rl) := by
            exact @refines_node h _ (some a) (node l s (node rl rs rr)) a
              { c with m_right := d.m_left } l rl s hc2 hs hl2 hrl2
              (by rw [el2]; exact hnl) (by rw [erl2]; exact hnrl)
              (by rw [el2]; exact hal) (by rw [erl2]; exact haRL)
              (by
                intro x hx hx'
                rw [el2] at hx
                rw [erl2] at hx'
                exact hLRL x hx hx')
              (by
                intro x hx
                rw [el2, erl2] at hx
                refine Or.inl ((mem_addrs_node hc x).2 ?_)
                rw [hcr]
                rcases hx with hx | hx | hx
                · exact Or.inl hx
                · exact Or.inr (Or.inl hx)
                · exact Or.inr (Or.inr ((hmem x).2 (Or.inr (Or.inl hx)))))
              (by simp)
              (by
                intro x hx _
                have hx' := fun e => hx ((mem_addrs_node hc x).2 e)
                rw [hcr] at hx'
                rw [load_set_ne _ _ (fun e => hx' (Or.inr (Or.inr ((hmem x).2 (Or.inl e.symm))))),
                  load_set_ne _ _ (fun e => hx' (Or.inl e.symm))])
          have einner := addrs_node (l := l) (r := rl) (s := s) hc2
          have outer : Refines h (some a) (node l s (node rl rs rr))
              ((h.set a (some { c with m_right := d.m_left })).set b
                (some { d with m_left := some a })) (some b) (node (node l s rl) rs rr) := by
            exact @refines_node h _ (some a) (node l s (node rl rs rr)) b
              { d with m_left := some a } (node l s rl) rr rs hd2 hds inner.1 hrr2
              inner.2.1 (by rw [err2]; exact hnrr)
              (by
                rw [einner, el2, erl2]
                simp only [List.mem_cons, List.mem_append, not_or]
                exact ⟨Ne.symm hab, hbL, hbl⟩)
              (by rw [err2]; exact hbr)
              (by
                intro x hx
                rw [einner, el2, erl2] at hx
                rw [err2]
                rcases List.mem_cons.1 hx with hx | hx
                · rw [hx]
                  exact haRR
                · rcases List.mem_append.1 hx with hx | hx
                  · exact hLRR x hx
                  · exact hdr x hx)
              (by
                intro x hx
                rcases hx with hx | hx | hx
                · refine Or.inl ((mem_addrs_node hc x).2 ?_)
                  rw [hcr]
                  exact Or.inr (Or.inr ((hmem x).2 (Or.inl hx)))
                · exact inner.2.2.1 x hx
                · rw [err2] at hx
                  refine Or.inl ((mem_addrs_node hc x).2 ?_)
                  rw [hcr]
                  exact Or.inr (Or.inr ((hmem x).2 (Or.inr (Or.inr hx)))))
              (by simp)
              inner.2.2.2.2
          obtain ⟨h3, e3, r3, -, -⟩ := updateHeightH_refines inner.1 inner.2.1
          obtain ⟨hd3, rl3⟩ := refines_left outer.1 outer.2.1 hd2 r3
          rw [show ({ ({ d with m_left := some a } : Cell) with m_left := some a } : Cell)
              = { d with m_left := some a } from rfl, set_load_self hd3] at rl3
          obtain ⟨h4, e4, r4, -, -⟩ := updateHeightH_refines rl3.1 rl3.2.1
          refine ⟨h4, some b, ?_, refines_trans outer (refines_trans rl3 r4)⟩
          simp only [leftRotateH, hc, Option.some_bind, hcr, hd, hd1, hd2, e3, e4]

theorem rebalanceH_refines {h : Heap} {p : Option Nat} {t t' : Tree} (hh : Holds h p t)
    (hn : (addrs h p t).Nodup) (e : rebalance t = some t') :
    ∃ h' p', rebalanceH h p = some (h', p') ∧ Refines h p t h' p' t' := by
  unfold rebalance at e
  unfold rebalanceH
  simp only [getBalanceH_holds hh, Option.some_bind]
  simp only at e
  by_cases h1 : getBalance t > 1
  · simp only [h1, if_true] at e ⊢
    cases t with
    | null => simp at e
    | node l s r =>
      cases p with
      | none => exact absurd hh (by simp [Holds])
      | some a =>
        obtain ⟨c, hc, hs, hl, hr⟩ := holds_node.1 hh
        obtain ⟨hal, har, hnl, hnr, hdlr⟩ := nodup_node hc hn
        simp only [hc, Option.some_bind, getBalanceH_holds hl] at e ⊢
        by_cases h2 : getBalance l ≥ 0
        · simp only [h2, if_true] at e ⊢
          exact rightRotateH_refines hh hn e
        · simp only [h2, if_false] at e ⊢
          obtain ⟨l', el, e⟩ := Option.bind_eq_some.1 e
          obtain ⟨hx, px, ex, rx⟩ := leftRotateH_refines hl hnl el
          obtain ⟨hc1, r1⟩ := refines_left hh hn hc rx
          obtain ⟨h', p', e', r'⟩ := rightRotateH_refines r1.1 r1.2.1 e
          refine ⟨h', p', ?_, refines_trans r1 r'⟩
          simp only [ex, Option.some_bind, hc1, e']
  · simp only [h1, if_false] at e ⊢
    by_cases h3 : getBalance t < -1
    · simp only [h3, if_true] at e ⊢
      cases t with
      | null => simp at e
      | node l s r =>
        cases p with
        | none => exact absurd hh (by simp [Holds])
        | some a =>
          obtain ⟨c, hc, hs, hl, hr⟩ := holds_node.1 hh
          obtain ⟨hal, har, hnl, hnr, hdlr⟩ := nodup_node hc hn
          simp only [hc, Option.some_bind, getBalanceH_holds hr] at e ⊢
          by_cases h2 : getBalance r ≤ 0
          · simp only [h2, if_true] at e ⊢
            exact leftRotateH_refines hh hn e
          · simp only [h2, if_false] at e ⊢
            obtain ⟨r', er, e⟩ := Option.bind_eq_some.1 e
            obtain ⟨hx, px, ex, rx⟩ := rightRotateH_refines hr hnr er
            obtain ⟨hc1, r1⟩ := refines_right hh hn hc rx
            obtain ⟨h', p', e', r'⟩ := leftRotateH_refines r1.1 r1.2.1 e
            refine ⟨h', p', ?_, refines_trans r1 r'⟩
            simp only [ex, Option.some_bind, hc1, e']
    · simp only [h3, if_false, Option.some.injEq] at e ⊢
      subst e
      exact ⟨h, p, rfl, refines_refl hh hn⟩

theorem holds_null {h : Heap} {q : Option Nat} (hq : Holds h q null) : q = none := by
  cases q with
  | none => rfl
  | some a => exact absurd hq (by simp [Holds])

/-- A new record in the object of the root. -/
theorem refines_setSat {h : Heap} {a : Nat} {c : Cell} {l r : Tree} {s : Sat} (s' : Sat)
    (hh : Holds h (some a) (node l s r)) (hn : (addrs h (some a) (node l s r)).Nodup)
    (hc : load h a = some c) :
    load (h.set a (some { c with sat := s' })) a = some { c with sat := s' }
      ∧ Refines h (some a) (node l s r) (h.set a (some { c with sat := s' })) (some a)
          (node l s' r) := by
  obtain ⟨c0, hc0, hs, hl, hr⟩ := holds_node.1 hh
  have ec : c0 = c := by
    rw [hc] at hc0
    exact (Option.some.inj hc0).symm
  subst ec
  obtain ⟨hal, har, hnl, hnr, hd⟩ := nodup_node hc hn
  have ha := load_lt hc
  have hc' : load (h.set a (some { c0 with sat := s' })) a = some { c0 with sat := s' } :=
    load_set_self _ _ ha
  obtain ⟨hl', el⟩ := holds_set a (some { c0 with sat := s' }) hl hal
  obtain ⟨hr', er⟩ := holds_set a (some { c0 with sat := s' }) hr har
  refine ⟨hc', ?_⟩
  exact @refines_node h _ (some a) (node l s r) a { c0 with sat := s' } l r s' hc' rfl hl' hr'
    (by rw [el]; exact hnl) (by rw [er]; exact hnr) (by rw [el]; exact hal)
    (by rw [er]; exact har)
    (by
      intro x hx hx'
      rw [el] at hx
      rw [er] at hx'
      exact hd x hx hx')
    (by
      intro x hx
      rw [el, er] at hx
      exact Or.inl ((mem_addrs_node hc x).2 hx))
    (by simp)
    (by
      intro x hx _
      exact load_set_ne _ _ (fun e => hx ((mem_addrs_node hc x).2 (Or.inl e.symm))))

/-- The node is deleted and its slot takes the pointer to a subtree. -/
theorem refines_delete {h : Heap} {a : Nat} {c : Cell} {l r u : Tree} {s : Sat}
    {q : Option Nat} (hc : load h a = some c)
    (hu : Holds h q u) (hsub : ∀ x ∈ addrs h q u, x ∈ addrs h (some a) (node l s r) ∧ x ≠ a)
    (hnu : (addrs h q u).Nodup) :
    Refines h (some a) (node l s r) (h.set a none) q u := by
  obtain ⟨hu', eu⟩ := holds_set a none hu (fun hx => (hsub a hx).2 rfl)
  refine ⟨hu', by rw [eu]; exact hnu, fun x hx => Or.inl ?_, by simp, fun x hx _ => ?_⟩
  · rw [eu] at hx
    exact (hsub x hx).1
  · exact load_set_ne _ _ (fun e => hx ((mem_addrs_node hc x).2 (Or.inl e.symm)))

theorem insertH_refines (satellite : Sat) (t : Tree) :
    ∀ (fuel : Nat) (h : Heap) (p : Option Nat) (t' : Tree), Holds h p t →
      (addrs h p t).Nodup → size t < fuel → insertAux satellite t = some t' →
      ∃ h' p', insertH satellite fuel h p = some (h', p') ∧ Refines h p t h' p' t' := by
  induction t with
  | null =>
    intro fuel h p t' hh hn hf e
    have hp := holds_null hh
    subst hp
    cases fuel with
    | zero => exact absurd hf (by simp [size])
    | succ f =>
      simp only [insertAux, Option.some.injEq] at e
      subst e
      refine ⟨_, _, rfl, ?_⟩
      have hc : load (h ++ [some
          { sat := { m_id := satellite.m_id, m_altitude := satellite.m_altitude,
                     m_inclin := satellite.m_inclin, m_state := satellite.m_state,
                     m_height := 0 },
            m_left := none, m_right := none }]) h.length
          = some { sat := { m_id := satellite.m_id, m_altitude := satellite.m_altitude,
                            m_inclin := satellite.m_inclin, m_state := satellite.m_state,
                            m_height := 0 },
                   m_left := none, m_right := none } := load_append_self _ _
      refine ⟨holds_node.2 ⟨_, hc, rfl, trivial, trivial⟩, ?_, ?_, by simp, ?_⟩
      · rw [addrs_node hc]
        simp [addrs]
      · intro x hx
        rw [addrs_node hc] at hx
        simp only [addrs, List.append_nil, List.mem_singleton] at hx
        exact Or.inr (le_of_eq hx.symm)
      · intro x _ hlt
        exact load_append_of_lt _ _ hlt
  | node l s r ihl ihr =>
    intro fuel h p t' hh hn hf e
    cases p with
    | none => exact absurd hh (by simp [Holds])
    | some a =>
      cases fuel with
      | zero => exact absurd hf (by simp)
      | succ f =>
        simp only [size] at hf
        obtain ⟨c, hc, hs, hl, hr⟩ := holds_node.1 hh
        obtain ⟨hal, har, hnl, hnr, hdlr⟩ := nodup_node hc hn
        simp only [insertAux] at e
        simp only [insertH, hc, Option.some_bind, hs]
        by_cases h1 : satellite.m_id < s.m_id
        · simp only [h1, if_true] at e ⊢
          obtain ⟨l', el, e⟩ := Option.bind_eq_some.1 e
          obtain ⟨hx, px, ex, rx⟩ := ihl f h c.m_left l' hl hnl (by omega) el
          obtain ⟨hc1, r1⟩ := refines_left hh hn hc rx
          obtain ⟨h3, e3, r3, -, -⟩ := updateHeightH_refines r1.1 r1.2.1
          obtain ⟨h', p', e', r'⟩ := rebalanceH_refines r3.1 r3.2.1 e
          refine ⟨h', p', ?_, refines_trans r1 (refines_trans r3 r')⟩
          simp only [ex, Option.some_bind, hc1, e3, e']
        · simp only [h1, if_false] at e ⊢
          by_cases h2 : satellite.m_id > s.m_id
          · simp only [h2, if_true] at e ⊢
            obtain ⟨r0, er, e⟩ := Option.bind_eq_some.1 e
            obtain ⟨hx, px, ex, rx⟩ := ihr f h c.m_right r0 hr hnr (by omega) er
            obtain ⟨hc1, r1⟩ := refines_right hh hn hc rx
            obtain ⟨h3, e3, r3, -, -⟩ := updateHeightH_refines r1.1 r1.2.1
            obtain ⟨h', p', e', r'⟩ := rebalanceH_refines r3.1 r3.2.1 e
            refine ⟨h', p', ?_, refines_trans r1 (refines_trans r3 r')⟩
            simp only [ex, Option.some_bind, hc1, e3, e']
          · simp only [h2, if_false, Option.some.injEq] at e ⊢
            subst e
            exact ⟨h, some a, rfl, refines_refl hh hn⟩

/-- The successor loop on the store ends at the object that carries the record
the loop on the tree returns; it is an object of the subtree. -/
theorem successorH_spec (rl : Tree) :
    ∀ (fuel : Nat) (h : Heap) (b : Nat) (rs : Sat) (rr : Tree),
      Holds h (some b) (node rl rs rr) → size rl < fuel →
      ∃ sa sc, successorH fuel h b = some sa ∧ load h sa = some sc
        ∧ sc.sat = successor rs rl ∧ sa ∈ addrs h (some b) (node rl rs rr) := by
  induction rl with
  | null =>
    intro fuel h b rs rr hh hf
    cases fuel with
    | zero => exact absurd hf (by simp [size])
    | succ f =>
      obtain ⟨c, hc, hs, hl, -⟩ := holds_node.1 hh
      have hcl := holds_null hl
      exact ⟨b, c, by simp only [successorH, hc, Option.some_bind, hcl], hc, hs,
        holds_root_mem hh⟩
  | node a0 b0 c0 iha _ =>
    intro fuel h b rs rr hh hf
    cases fuel with
    | zero => exact absurd hf (by simp)
    | succ f =>
      simp only [size] at hf
      obtain ⟨c, hc, hs, hl, -⟩ := holds_node.1 hh
      cases hcl : c.m_left with
      | none =>
        rw [hcl] at hl
        exact absurd hl (by simp [Holds])
      | some b1 =>
        rw [hcl] at hl
        obtain ⟨sa, sc, e1, e2, e3, e4⟩ := iha f h b1 b0 c0 hl (by omega)
        refine ⟨sa, sc, by simp only [successorH, hc, Option.some_bind, hcl, e1], e2, e3, ?_⟩
        refine (mem_addrs_node hc sa).2 (Or.inr (Or.inl ?_))
        rw [hcl]
        exact e4

theorem removeH_refines (t : Tree) :
    ∀ (fuel : Nat) (id : Int) (h : Heap) (p : Option Nat) (t' : Tree), Holds h p t →
      (addrs h p t).Nodup → size t < fuel → removeAux id t = some t' →
      ∃ h' p', removeH id fuel h p = some (h', p') ∧ Refines h p t h' p' t' := by
  induction t with
  | null =>
    intro fuel id h p t' hh hn hf e
    have hp := holds_null hh
    subst hp
    cases fuel with
    | zero => exact absurd hf (by simp [size])
    | succ f =>
      simp only [removeAux, Option.some.injEq] at e
      subst e
      exact ⟨h, none, rfl, refines_refl hh hn⟩
  | node l s r ihl ihr =>
    intro fuel id h p t' hh hn hf e
    cases p with
    | none => exact absurd hh (by simp [Holds])
    | some a =>
      cases fuel with
      | zero => exact absurd hf (by simp)
      | succ f =>
        simp only [size] at hf
        obtain ⟨c, hc, hs, hl, hr⟩ := holds_node.1 hh
        obtain ⟨hal, har, hnl, hnr, hdlr⟩ := nodup_node hc hn
        rw [removeAux_node] at e
        simp only [removeH, hc, Option.some_bind, hs]
        by_cases h1 : id < s.m_id
        · simp only [h1, if_true] at e ⊢
          obtain ⟨l', el, e⟩ := Option.bind_eq_some.1 e
          obtain ⟨hx, px, ex, rx⟩ := ihl f id h c.m_left l' hl hnl (by omega) el
          obtain ⟨hc1, r1⟩ := refines_left hh hn hc rx
          obtain ⟨h3, e3, r3, -, -⟩ := updateHeightH_refines r1.1 r1.2.1
          obtain ⟨h', p', e', r'⟩ := rebalanceH_refines r3.1 r3.2.1 e
          refine ⟨h', p', ?_, refines_trans r1 (refines_trans r3 r')⟩
          simp only [ex, Option.some_bind, hc1, e3, e']
        · simp only [h1, if_false] at e ⊢
          by_cases h2 : id > s.m_id
          · simp only [h2, if_true] at e ⊢
            obtain ⟨r0, er, e⟩ := Option.bind_eq_some.1 e
            obtain ⟨hx, px, ex, rx⟩ := ihr f id h c.m_right r0 hr hnr (by omega) er
            obtain ⟨hc1, r1⟩ := refines_right hh hn hc rx
            obtain ⟨h3, e3, r3, -, -⟩ := updateHeightH_refines r1.1 r1.2.1
            obtain ⟨h', p', e', r'⟩ := rebalanceH_refines r3.1 r3.2.1 e
            refine ⟨h', p', ?_, refines_trans r1 (refines_trans r3 r')⟩
            simp only [ex, Option.some_bind, hc1, e3, e']
          · simp only [h2, if_false] at e ⊢
            -- the three branches that delete the node: its slot takes `q`
            have del : ∀ (q : Option Nat) (u : Tree), Holds h q u → (addrs h q u).Nodup →
                (∀ x ∈ addrs h q u, x ∈ addrs h (some a) (node l s r) ∧ x ≠ a) →
                rebalance (updateHeight u) = some t' →
                ∃ h' p', ((updateHeightH (h.set a none) q).bind fun h2 => rebalanceH h2 q)
                    = some (h', p')
                  ∧ Refines h (some a) (node l s r) h' p' t' := by
              intro q u hu hnu hsub eu
              have rd := @refines_delete h a c l r u s q hc hu hsub hnu
              obtain ⟨h2, e2, r2, -, -⟩ := updateHeightH_refines rd.1 rd.2.1
              obtain ⟨h', p', e', r'⟩ := rebalanceH_refines r2.1 r2.2.1 eu
              exact ⟨h', p', by simp only [e2, Option.some_bind, e'],
                refines_trans rd (refines_trans r2 r')⟩
            cases l with
            | null =>
              have hcl := holds_null hl
              cases r with
              | null =>
                have hcr := holds_null hr
                simp only [hcl, hcr] at e ⊢
                exact del none null trivial (by simp [addrs]) (by simp [addrs]) e
              | node rl rs rr =>
                cases hcr : c.m_right with
                | none =>
                  rw [hcr] at hr
                  exact absurd hr (by simp [Holds])
                | some b =>
                  simp only [hcl, hcr] at e ⊢
                  rw [hcr] at hr hnr har
                  refine del (some b) (node rl rs rr) hr hnr (fun x hx => ⟨?_, ?_⟩) e
                  · refine (mem_addrs_node hc x).2 (Or.inr (Or.inr ?_))
                    rw [hcr]
                    exact hx
                  · rintro rfl
                    exact har hx
            | node ll ls lr =>
              cases hcl : c.m_left with
              | none =>
                rw [hcl] at hl
                exact absurd hl (by simp [Holds])
              | some bl =>
                cases r with
                | null =>
                  have hcr := holds_null hr
                  simp only [hcl, hcr] at e ⊢
                  rw [hcl] at hl hnl hal
                  refine del (some bl) (node ll ls lr) hl hnl (fun x hx => ⟨?_, ?_⟩) e
                  · refine (mem_addrs_node hc x).2 (Or.inr (Or.inl ?_))
                    rw [hcl]
                    exact hx
                  · rintro rfl
                    exact hal hx
                | node rl rs rr =>
                  cases hcr : c.m_right with
                  | none =>
                    rw [hcr] at hr
                    exact absurd hr (by simp [Holds])
                  | some b =>
                    simp only [hcl, hcr] at e ⊢
                    subst hs
                    have hr' := hr
                    rw [hcr] at hr'
                    simp only [size] at hf
                    obtain ⟨sa, sc, e1, e2, e3, e4⟩ :=
                      successorH_spec rl f h b rs rr hr' (by omega)
                    rw [← e3] at e
                    have hsa : a ≠ sa := by
                      rintro rfl
                      rw [hcr] at har
                      exact har e4
                    obtain ⟨hc1, r0⟩ := refines_setSat
                      { m_id := sc.sat.m_id, m_altitude := sc.sat.m_altitude,
                        m_inclin := sc.sat.m_inclin, m_state := sc.sat.m_state,
                        m_height := c.sat.m_height } hh hn hc
                    have hsc1 : load (h.set a (some { c with sat :=
                        { m_id := sc.sat.m_id, m_altitude := sc.sat.m_altitude,
                          m_inclin := sc.sat.m_inclin, m_state := sc.sat.m_state,
                          m_height := c.sat.m_height } })) sa = some sc := by
                      rw [load_set_ne _ _ hsa, e2]
                    obtain ⟨c1, hc1', -, -, hr1⟩ := holds_node.1 r0.1
                    have ec1 : c1 = { c with sat :=
                        { m_id := sc.sat.m_id, m_altitude := sc.sat.m_altitude,
                          m_inclin := sc.sat.m_inclin, m_state := sc.sat.m_state,
                          m_height := c.sat.m_height } } := by
                      rw [hc1] at hc1'
                      exact (Option.some.inj hc1').symm
                    subst ec1
                    obtain ⟨-, -, -, hnr1, -⟩ := nodup_node hc1 r0.2.1
                    obtain ⟨r0', er, e⟩ := Option.bind_eq_some.1 e
                    obtain ⟨hx, px, ex, rx⟩ := ihr f sc.sat.m_id _ _ r0' hr1 hnr1
                      (by simp only [size]; omega) er
                    obtain ⟨hc2, r1⟩ := refines_right r0.1 r0.2.1 hc1 rx
                    obtain ⟨h3, e3', r3, -, -⟩ := updateHeightH_refines r1.1 r1.2.1
                    obtain ⟨h', p', e', r'⟩ := rebalanceH_refines r3.1 r3.2.1 e
                    refine ⟨h', p', ?_,
                      refines_trans r0 (refines_trans r1 (refines_trans r3 r'))⟩
                    simp only [hcl, hcr] at hsc1 hc1 ex hc2 e3'
                    simp only [e1, Option.some_bind, e2, hsc1, hc1, ex, hc2, e3', e']

theorem setStateH_refines (id : Int) (state : STATE) (t : Tree) :
    ∀ (fuel : Nat) (h : Heap) (p : Option Nat), Holds h p t → (addrs h p t).Nodup →
      size t < fuel →
      ∃ h', setStateH id state fuel h p = some ((setStateAux id state t).1, h')
        ∧ Refines h p t h' p (setStateAux id state t).2 := by
  induction t with
  | null =>
    intro fuel h p hh hn hf
    have hp := holds_null hh
    subst hp
    cases fuel with
    | zero => exact absurd hf (by simp [size])
    | succ f => exact ⟨h, rfl, refines_refl hh hn⟩
  | node l s r ihl ihr =>
    intro fuel h p hh hn hf
    cases p with
    | none => exact absurd hh (by simp [Holds])
    | some a =>
      cases fuel with
      | zero => exact absurd hf (by simp)
      | succ f =>
        simp only [size] at hf
        obtain ⟨c, hc, hs, hl, hr⟩ := holds_node.1 hh
        obtain ⟨hal, har, hnl, hnr, hdlr⟩ := nodup_node hc hn
        simp only [setStateH, hc, Option.some_bind, hs, setStateAux]
        by_cases h1 : id < s.m_id
        · simp only [h1, if_true]
          obtain ⟨hx, ex, rx⟩ := ihl f h c.m_left hl hnl (by omega)
          obtain ⟨hc1, r1⟩ := refines_left hh hn hc rx
          rw [show ({ c with m_left := c.m_left } : Cell) = c from rfl, set_load_self hc1] at r1
          exact ⟨hx, ex, r1⟩
        · simp only [h1, if_false]
          by_cases h2 : id > s.m_id
          · simp only [h2, if_true]
            obtain ⟨hx, ex, rx⟩ := ihr f h c.m_right hr hnr (by omega)
            obtain ⟨hc1, r1⟩ := refines_right hh hn hc rx
            rw [show ({ c with m_right := c.m_right } : Cell) = c from rfl,
              set_load_self hc1] at r1
            exact ⟨hx, ex, r1⟩
          · simp only [h2, if_false]
            subst hs
            exact ⟨_, rfl, (refines_setSat { c.sat with m_state := state } hh hn hc).2⟩

/-! ## Assignment -/

/-- C20: let the source tree `t1` and the destination tree `t2` (any prior
content, the empty tree included) be made of distinct objects of the free
store, the nodes of `t1` being referenced from nowhere else.  Then the
assignment returns; afterwards the destination root leads to a tree equal to
`t1` (same shape and, at every position, the same id, altitude, inclination,
state and cached height) that is made of distinct, newly allocated objects, so
that no node is shared; the former nodes of the destination are deleted; `t1`
is unchanged at its addresses; copying the empty tree yields the empty tree.
A subsequent `insert`, `remove` or `setState` on the destination leaves every
object of `t1` as it is, whatever it returns; it returns whenever the
operation on the tree `t1` has a result, and the destination then holds that
result.  A self-assignment changes nothing. -/
theorem assign_exact_copy (h : Heap) (p1 p2 : Option Nat) (t1 t2 : Tree) (fuel : Nat)
    (hh1 : Holds h p1 t1) (hh2 : Holds h p2 t2) (hnd : (addrs h p2 t2).Nodup)
    (hdisj : ∀ x ∈ addrs h p2 t2, x ∉ addrs h p1 t1)
    (hsep : Sep (addrs h p1 t1) h) (hf1 : size t1 < fuel) (hf2 : size t2 < fuel) :
    ∃ h' p2', assignH false fuel h p2 p1 = some (h', p2')
      ∧ Holds h' p2' t1
      ∧ (addrs h' p2' t1).Nodup
      ∧ (∀ x ∈ addrs h' p2' t1, h.length ≤ x ∧ x ∉ addrs h' p1 t1)
      ∧ (∀ x ∈ addrs h p2 t2, load h' x = none)
      ∧ (Holds h' p1 t1 ∧ addrs h' p1 t1 = addrs h p1 t1
          ∧ ∀ x ∈ addrs h p1 t1, load h' x = load h x)
      ∧ (t1 = null → p2' = none)
      ∧ (∀ (satellite : Sat) (n : Nat) (h'' : Heap) (p'' : Option Nat),
          insertH satellite n h' p2' = some (h'', p'') →
          Holds h'' p1 t1 ∧ ∀ x ∈ addrs h p1 t1, load h'' x = load h x)
      ∧ (∀ (id : Int) (n : Nat) (h'' : Heap) (p'' : Option Nat),
          removeH id n h' p2' = some (h'', p'') →
          Holds h'' p1 t1 ∧ ∀ x ∈ addrs h p1 t1, load h'' x = load h x)
      ∧ (∀ (id : Int) (state : STATE) (n : Nat) (found : Bool) (h'' : Heap),
          setStateH id state n h' p2' = some (found, h'') →
          Holds h'' p1 t1 ∧ ∀ x ∈ addrs h p1 t1, load h'' x = load h x)
      ∧ (∀ (satellite : Sat) (t' : Tree) (n : Nat), size t1 < n →
          insertAux satellite t1 = some t' →
          ∃ h'' p'', insertH satellite n h' p2' = some (h'', p'') ∧ Holds h'' p'' t'
            ∧ Holds h'' p1 t1)
      ∧ (∀ (id : Int) (t' : Tree) (n : Nat), size t1 < n → removeAux id t1 = some t' →
          ∃ h'' p'', removeH id n h' p2' = some (h'', p'') ∧ Holds h'' p'' t'
            ∧ Holds h'' p1 t1)
      ∧ (∀ (id : Int) (state : STATE) (n : Nat), size t1 < n →
          ∃ h'', setStateH id state n h' p2' = some ((setStateAux id state t1).1, h'')
            ∧ Holds h'' p2' (setStateAux id state t1).2 ∧ Holds h'' p1 t1)
      ∧ assignH true fuel h p1 p1 = some (h, p1) := by
  have hpo : PtrOut (addrs h p1 t1) p2 := by
    cases p2 with
    | none => trivial
    | some a => exact hdisj a (holds_root_mem hh2)
  obtain ⟨hc, ec, lenc, outc, delc⟩ := clearH_spec t2 fuel h p2 hh2 hnd hf2
  obtain ⟨sc, kc⟩ := clearH_frame fuel hsep hpo ec
  obtain ⟨hh1c, -⟩ := holds_of_keeps kc hh1
  obtain ⟨h', p2', e', len', old', hcopy, fresh', ndcopy, hnone⟩ :=
    copyH_spec t1 fuel hc p1 hh1c hf1
  obtain ⟨s', k', po'⟩ := copyH_frame fuel sc e'
  have k : Keeps (addrs h p1 t1) h h' := keeps_trans kc k'
  obtain ⟨hh1', ea⟩ := holds_of_keeps k hh1
  have hkeep : ∀ h'' : Heap, Keeps (addrs h p1 t1) h' h'' →
      Holds h'' p1 t1 ∧ ∀ x ∈ addrs h p1 t1, load h'' x = load h x := by
    intro h'' k''
    exact ⟨(holds_of_keeps (keeps_trans k k'') hh1).1, (keeps_trans k k'').2⟩
  refine ⟨h', p2', ?_, hcopy, ndcopy, ?_, ?_, ⟨hh1', ea, k.2⟩, ?_, ?_, ?_, ?_, ?_, ?_, ?_,
    by simp [assignH]⟩
  · simp only [assignH, Bool.false_eq_true, if_false, ec, Option.some_bind, e']
  · intro x hx
    have hx1 := fresh' x hx
    rw [lenc] at hx1
    refine ⟨hx1, fun hx2 => ?_⟩
    rw [ea] at hx2
    have := hsep.1 x hx2
    omega
  · intro x hx
    have hlt : x < hc.length := by
      rw [lenc]
      exact addrs_lt t2 p2 hh2 x hx
    rw [old' x hlt]
    exact delc x hx
  · intro ht
    subst ht
    cases p1 with
    | none => exact hnone rfl
    | some a => exact absurd hh1 (by simp [Holds])
  · intro satellite n h'' p'' e
    exact hkeep h'' (insertH_frame satellite n s' po' e).2.1
  · intro id n h'' p'' e
    exact hkeep h'' (removeH_frame n s' po' e).2.1
  · intro id state n found h'' e
    exact hkeep h'' (setStateH_frame id state n s' po' e).2
  · intro satellite t' n hn e
    obtain ⟨h'', p'', e'', r''⟩ := insertH_refines satellite t1 n h' p2' t' hcopy ndcopy hn e
    exact ⟨h'', p'', e'', r''.1, (hkeep h'' (insertH_frame satellite n s' po' e'').2.1).1⟩
  · intro id t' n hn e
    obtain ⟨h'', p'', e'', r''⟩ := removeH_refines t1 n id h' p2' t' hcopy ndcopy hn e
    exact ⟨h'', p'', e'', r''.1, (hkeep h'' (removeH_frame n s' po' e'').2.1).1⟩
  · intro id state n hn
    obtain ⟨h'', e'', r''⟩ := setStateH_refines id state t1 n h' p2' hcopy ndcopy hn
    exact ⟨h'', e'', r''.1, (hkeep h'' (setStateH_frame id state n s' po' e'').2).1⟩

/-- C20 at `twoTreeStore`: the source `((10001:0)10002:1)` at the addresses `0`
and `1` is assigned to the destination `(10007:0)` at the address `2`.  The
copy is made of the new objects `3` and `4`; a state change of `10001` on the
copy is written to the object `4` and not to the object `1`, and an insert and
a remove on the copy return. -/
theorem assign_exact_copy_witness :
    Holds twoTreeStore (some 0) deorbitedOnlyChildTree
      ∧ Holds twoTreeStore (some 2) (node null (sampleSat 10007 0) null)
      ∧ Sep (addrs twoTreeStore (some 0) deorbitedOnlyChildTree) twoTreeStore
      ∧ (∃ h' p2', assignH false 5 twoTreeStore (some 2) (some 0) = some (h', p2')
          ∧ Holds h' p2' deorbitedOnlyChildTree
          ∧ (∀ x ∈ addrs h' p2' deorbitedOnlyChildTree,
              twoTreeStore.length ≤ x ∧ x ∉ addrs h' (some 0) deorbitedOnlyChildTree)
          ∧ Holds h' (some 0) deorbitedOnlyChildTree
          ∧ (∀ (id : Int) (state : STATE) (n : Nat) (found : Bool) (h'' : Heap),
              setStateH id state n h' p2' = some (found, h'') →
              Holds h'' (some 0) deorbitedOnlyChildTree)
          ∧ ∀ (id : Int) (t' : Tree) (n : Nat), size deorbitedOnlyChildTree < n →
              removeAux id deorbitedOnlyChildTree = some t' →
              ∃ h'' p'', removeH id n h' p2' = some (h'', p'') ∧ Holds h'' p'' t'
                ∧ Holds h'' (some 0) deorbitedOnlyChildTree)
      ∧ (assignH false 5 twoTreeStore (some 2) (some 0)).map Prod.snd = some (some 3)
      ∧ ((assignH false 5 twoTreeStore (some 2) (some 0)).bind fun x =>
            (setStateH 10001 STATE.ACTIVE 5 x.1 x.2).map fun y => (y.1, load y.2 4, load y.2 1))
          = some (true, some { sat := sampleSat 10001 0, m_left := none, m_right := none },
              some { sat := deorbitedSat 10001 0, m_left := none, m_right := none })
      ∧ ((assignH false 5 twoTreeStore (some 2) (some 0)).bind fun x =>
            insertH (sampleSat 10000 0) 5 x.1 x.2).isSome = true
      ∧ ((assignH false 5 twoTreeStore (some 2) (some 0)).bind fun x =>
            removeH 10002 5 x.1 x.2).isSome = true :=
  have h := assign_exact_copy twoTreeStore (some 0) (some 2) deorbitedOnlyChildTree
    (node null (sampleSat 10007 0) null) 5 (by decide) (by decide) (by decide) (by decide)
    (by decide) (by decide) (by decide)
  ⟨by decide, by decide, by decide,
    h.elim fun h' hx => hx.elim fun p2' hy =>
      ⟨h', p2', hy.1, hy.2.1, hy.2.2.2.1, hy.2.2.2.2.2.1.1,
        fun id state n found h'' e => (hy.2.2.2.2.2.2.2.2.2.1 id state n found h'' e).1,
        hy.2.2.2.2.2.2.2.2.2.2.2.1⟩,
    by decide, by decide, by decide, by decide⟩

end SatNet
